import Mathlib

/-!
# Trapezoidal integration split across worker threads

A shallow embedding of `tasks/task6/main.cpp`: the class `Integral` with its
constructor, `integralFunction`, `calculatePartialIntegral`, `calculateIntegral`,
and `main`.

Modelling decisions.

* `int` is `Int`. The only `int` arithmetic of the program is `b - a`, `n / tn`,
  `tn - 1` and the loop counters. Past the guard `tn - 1` and the counters stay within
  `int`; `b - a` need not: its result is `wrapInt (b - a)`, the two's complement wrap the
  compiled program computes (in C++ itself signed overflow is undefined behaviour), and
  it is the mathematical difference exactly when that fits in `int`. `n / tn` is the
  truncating division `Int.tdiv`.
* `double` is a parameter: the functions are written over any type `K` with the
  operations they use, and the integrand is a parameter `f : K → K`. Three instances are
  used. Over `ℚ` the loops run as written. Over `ℝ` with `f = integralFunction` the
  program computes in exact real arithmetic; a field has no infinities or NaN, its value
  `x / 0 = 0` says nothing about the program, so statements about real values assume
  `segments ≥ 1`. Over `Dbl` with `f = integralFunctionDouble` the program computes as
  with `double` up to the rounding of finite results: a result too large becomes an
  infinity, `x / 0` is an infinity or NaN, and `0 * inf` is NaN.
* Every worker thread writes the one slot `results[i]` and all threads are joined
  before the reduction, so the result is that of running the workers one after the
  other in spawning order; the worker loop does exactly that on a list of slots.

Contents: the definitions; the argument parser; the two loops and the composite rule;
convexity of the integrand with midpoint and chord bounds for the rule and for the
integral; the scenario `0 1 1000 4`; monotone refinement of the rule, from Taylor's
formula with integral remainder; what the parser rejects; uneven division and
orientation; the value where `b - a` wraps, which still bounds the integral from above
and still refines monotonically; infinities and NaN on `double`; the statements about the
program.
-/

namespace Task6

/-- The exceptions the program can raise: `std::invalid_argument` and
`std::out_of_range`, each with its `what()` text. -/
inductive Error where
  | invalidArgument (what : String)
  | outOfRange (what : String)
deriving DecidableEq, Repr

/-- The data members `int a, b, n, tn` of the class `Integral`. -/
structure Integral where
  a : Int
  b : Int
  n : Int
  tn : Int
deriving DecidableEq, Repr

/-- The `int` an operation yields whose mathematical result is `z`: the two's complement
wrap into `[-2^31, 2^31)`. -/
def wrapInt (z : Int) : Int :=
  (z + 2147483648) % 4294967296 - 2147483648

/-- A `double` up to rounding: a finite value, held as the real number it stands for, or
one of the special values of IEEE 754. The two signed zeros are not told apart. -/
inductive Dbl where
  | fin (x : ℝ)
  | posInf
  | negInf
  | nan

namespace Dbl

/-- From this magnitude on a result rounds to an infinity: `2^1024 - 2^970`, half a unit
in the last place above the largest finite `double`. -/
noncomputable def overflowThreshold : ℝ :=
  2 ^ 1024 - 2 ^ 970

/-- The `double` that stands for a real result: itself, or an infinity when it is too
large. -/
noncomputable def ofReal (x : ℝ) : Dbl :=
  if overflowThreshold ≤ x then posInf
  else if x ≤ -overflowThreshold then negInf
  else fin x

/-- An infinity times a finite `s`: the infinity with the sign of `s`, and NaN for
`s = 0`. -/
noncomputable def signedInf (s : ℝ) : Dbl :=
  if 0 < s then posInf else if s < 0 then negInf else nan

/-- Negation. -/
noncomputable def neg : Dbl → Dbl
  | fin x => fin (-x)
  | posInf => negInf
  | negInf => posInf
  | nan => nan

/-- Addition: `inf + (-inf)` and every sum with a NaN are NaN. -/
noncomputable def add : Dbl → Dbl → Dbl
  | fin x, fin y => ofReal (x + y)
  | fin _, posInf => posInf
  | fin _, negInf => negInf
  | posInf, fin _ => posInf
  | posInf, posInf => posInf
  | negInf, fin _ => negInf
  | negInf, negInf => negInf
  | _, _ => nan

/-- Multiplication: `0 * inf` and every product with a NaN are NaN. -/
noncomputable def mul : Dbl → Dbl → Dbl
  | fin x, fin y => ofReal (x * y)
  | fin x, posInf => signedInf x
  | fin x, negInf => signedInf (-x)
  | posInf, fin y => signedInf y
  | negInf, fin y => signedInf (-y)
  | posInf, posInf => posInf
  | posInf, negInf => negInf
  | negInf, posInf => negInf
  | negInf, negInf => posInf
  | _, _ => nan

/-- Division: a finite nonzero value over zero is an infinity, `0 / 0` and `inf / inf`
are NaN, a finite value over an infinity is zero. -/
noncomputable def div : Dbl → Dbl → Dbl
  | fin x, fin y => if y = 0 then signedInf x else ofReal (x / y)
  | fin _, posInf => fin 0
  | fin _, negInf => fin 0
  | posInf, fin y => if 0 ≤ y then posInf else negInf
  | negInf, fin y => if 0 ≤ y then negInf else posInf
  | _, _ => nan

/-- The function `std::exp`. -/
noncomputable def exp : Dbl → Dbl
  | fin x => ofReal (Real.exp x)
  | posInf => posInf
  | negInf => fin 0
  | nan => nan

/-- The function `std::sqrt`. -/
noncomputable def sqrt : Dbl → Dbl
  | fin x => if x < 0 then nan else fin (Real.sqrt x)
  | posInf => posInf
  | negInf => nan
  | nan => nan

/-- The value is an infinity or NaN. -/
def IsNonfinite : Dbl → Prop
  | fin _ => False
  | _ => True

noncomputable instance : Add Dbl := ⟨add⟩

noncomputable instance : Sub Dbl := ⟨fun x y => add x (neg y)⟩

noncomputable instance : Mul Dbl := ⟨mul⟩

noncomputable instance : Div Dbl := ⟨div⟩

noncomputable instance : Zero Dbl := ⟨fin 0⟩

noncomputable instance : IntCast Dbl := ⟨fun z => ofReal (z : ℝ)⟩

noncomputable instance : OfScientific Dbl :=
  ⟨fun m s e => ofReal (OfScientific.ofScientific m s e : ℝ)⟩

end Dbl

/-- The C locale `isspace`: space, and the control characters `\t \n \v \f \r`. -/
def isSpace (c : Char) : Bool :=
  c.toNat = 32 || (9 ≤ c.toNat && c.toNat ≤ 13)

/-- The value of a run of decimal digits, most significant first. -/
def digitsValue (ds : List Char) : Nat :=
  ds.foldl (fun acc c => 10 * acc + (c.toNat - 48)) 0

/-- The function `std::stoi(str)` with base 10: skip leading white space, read an optional
sign, then the longest run of decimal digits; whatever follows is ignored. No digit at
all raises `std::invalid_argument`, a value outside `int` raises `std::out_of_range`. -/
def stoi (str : String) : Except Error Int :=
  let cs := str.toList.dropWhile isSpace
  let signed : Bool × List Char :=
    match cs with
    | '-' :: rest => (true, rest)
    | '+' :: rest => (false, rest)
    | _ => (false, cs)
  let ds := signed.2.takeWhile Char.isDigit
  if ds.isEmpty then
    Except.error (Error.invalidArgument "stoi")
  else
    let v : Int := if signed.1 then -(digitsValue ds : Int) else (digitsValue ds : Int)
    if v < -2147483648 ∨ 2147483647 < v then
      Except.error (Error.outOfRange "stoi")
    else
      Except.ok v

namespace Integral

/-- The constructor `Integral::Integral(int& argc, char** argv)`. -/
def ctor (argc : Int) (argv : List String) : Except Error Integral :=
  if argc ≠ 5 then
    Except.error (Error.invalidArgument "Wrong number of arguments")
  else do
    let a ← stoi (argv.getD 1 "")
    let b ← stoi (argv.getD 2 "")
    let n ← stoi (argv.getD 3 "")
    let tn ← stoi (argv.getD 4 "")
    pure { a := a, b := b, n := n, tn := tn }

/-- The integrand `Integral::integralFunction`, `std::sqrt(1 + std::exp(x))`, over the
reals. -/
noncomputable def integralFunction (x : ℝ) : ℝ :=
  Real.sqrt (1 + Real.exp x)

/-- The integrand `Integral::integralFunction` on `double` up to rounding. -/
noncomputable def integralFunctionDouble (x : Dbl) : Dbl :=
  Dbl.sqrt (Dbl.fin 1 + Dbl.exp x)

/-- The loop `for (int i = 1; i < segments; i++) sum += f(start + i * h)` of
`calculatePartialIntegral`: the first argument counts the iterations still to run,
then come the counter `i` and the accumulator `sum`. -/
def sumLoop {K : Type} [Add K] [Mul K] [IntCast K] (f : K → K) (start h : K) :
    Nat → Int → K → K
  | 0, _, sum => sum
  | k + 1, i, sum => sumLoop f start h k (i + 1) (sum + f (start + (i : K) * h))

/-- The function `Integral::calculatePartialIntegral(start, end, segments)`, with the
integrand as the parameter `f`. The loop runs for `i = 1 .. segments - 1`, that is
`segments - 1` times, and not at all when `segments ≤ 1`. -/
def calculatePartialIntegral {K : Type} [Add K] [Sub K] [Mul K] [Div K] [IntCast K]
    [OfScientific K] (f : K → K) (start end_ : K) (segments : Int) : K :=
  let h := (end_ - start) / (segments : K)
  let sum := 0.5 * (f start + f end_)
  let sum := sumLoop f start h (segments - 1).toNat 1 sum
  h * sum

/-- The local `segmentsPerThread` of `calculateIntegral`: `n / tn` on `int`. -/
def segmentsPerThread (self : Integral) : Int :=
  Int.tdiv self.n self.tn

/-- The local `rangePerThread` of `calculateIntegral`:
`static_cast<double>(b - a) / tn`, the subtraction being the one of `int`. -/
def rangePerThread {K : Type} [Div K] [IntCast K] (self : Integral) : K :=
  ((wrapInt (self.b - self.a) : Int) : K) / (self.tn : K)

/-- The local `start` of the worker loop: `a + i * rangePerThread`. -/
def workerStart {K : Type} [Add K] [Mul K] [IntCast K] (a : Int) (rangePerThread : K)
    (i : Int) : K :=
  (a : K) + (i : K) * rangePerThread

/-- The local `end` of the worker loop: `(i == tn - 1) ? b : start + rangePerThread`. -/
def workerEnd {K : Type} [Add K] [Mul K] [IntCast K] (a b tn : Int) (rangePerThread : K)
    (i : Int) : K :=
  if i = tn - 1 then (b : K) else workerStart a rangePerThread i + rangePerThread

/-- The loop `for (int i = 0; i < tn; i++)` of `calculateIntegral`: worker `i` gets its
sub-interval and stores its partial integral in `results[i]`. The first argument counts
the iterations still to run. -/
def workerLoop {K : Type} [Add K] [Sub K] [Mul K] [Div K] [IntCast K] [OfScientific K]
    (f : K → K) (a b tn segmentsPerThread : Int) (rangePerThread : K) :
    Nat → Int → List K → List K
  | 0, _, results => results
  | k + 1, i, results =>
    let start := workerStart a rangePerThread i
    let end_ := workerEnd a b tn rangePerThread i
    workerLoop f a b tn segmentsPerThread rangePerThread k (i + 1)
      (results.set i.toNat (calculatePartialIntegral f start end_ segmentsPerThread))

/-- The method `Integral::calculateIntegral()`, with the integrand as the parameter `f`:
the guard, the partition, one partial integral per worker slot, and
`std::accumulate(results.begin(), results.end(), 0.0)`. -/
def calculateIntegral {K : Type} [Add K] [Sub K] [Mul K] [Div K] [Zero K] [IntCast K]
    [OfScientific K] (f : K → K) (self : Integral) : K :=
  if self.tn ≤ 0 ∨ self.n ≤ 0 then 0
  else
    let results := List.replicate self.tn.toNat (0 : K)
    let results :=
      workerLoop f self.a self.b self.tn (segmentsPerThread self) (rangePerThread self)
        self.tn.toNat 0 results
    results.foldl (fun acc x => acc + x) 0

end Integral

/-- The function `main`, up to the formatting of the number: construct the object from
the argument vector (`argc` is its length), then compute the value that is printed. -/
def main {K : Type} [Add K] [Sub K] [Mul K] [Div K] [Zero K] [IntCast K] [OfScientific K]
    (f : K → K) (argv : List String) : Except Error K :=
  (Integral.ctor argv.length argv).map (Integral.calculateIntegral f)

/-! ## Definitions used in the statements and proofs only -/

/-- A plain decimal integer text: an optional `-`, then one or more decimal digits and
nothing else. -/
def isIntText (t : String) : Bool :=
  match t.toList with
  | '-' :: ds => !ds.isEmpty && ds.all Char.isDigit
  | ds => !ds.isEmpty && ds.all Char.isDigit

/-- The integer a plain decimal integer text denotes. -/
def intTextValue (t : String) : Int :=
  match t.toList with
  | '-' :: ds => -(digitsValue ds : Int)
  | ds => (digitsValue ds : Int)

/-- The range of a 32-bit `int`. -/
def inIntRange (v : Int) : Bool :=
  decide (-2147483648 ≤ v) && decide (v ≤ 2147483647)

/-- What `std::stoi` looks at after skipping the leading white space and one sign. -/
def afterSign (t : String) : List Char :=
  match t.toList.dropWhile isSpace with
  | '-' :: rest => rest
  | '+' :: rest => rest
  | cs => cs

/-- The text has no number for `std::stoi` to read: after the leading white space and
one optional sign there is no decimal digit. -/
def noLeadingNumber (t : String) : Bool :=
  match afterSign t with
  | c :: _ => !c.isDigit
  | [] => true

/-- The number a text begins with: the leading run of digits after the white space, with
the sign in front of it. -/
def leadingValue (t : String) : Int :=
  match t.toList.dropWhile isSpace with
  | '-' :: rest => -(digitsValue (rest.takeWhile Char.isDigit) : Int)
  | '+' :: rest => (digitsValue (rest.takeWhile Char.isDigit) : Int)
  | cs => (digitsValue (cs.takeWhile Char.isDigit) : Int)

/-- The texts `std::stoi` rejects: no leading number, or one outside `int`. -/
def unreadable (t : String) : Bool :=
  noLeadingNumber t || !inIntRange (leadingValue t)

namespace Integral

/-- The value worker `i` stores in its slot, as computed in the body of the worker
loop. -/
def workerResult {K : Type} [Add K] [Sub K] [Mul K] [Div K] [IntCast K] [OfScientific K]
    (f : K → K) (a b tn segmentsPerThread : Int) (rangePerThread : K) (i : Int) : K :=
  calculatePartialIntegral f (workerStart a rangePerThread i)
    (workerEnd a b tn rangePerThread i) segmentsPerThread

/-- The composite rule written trapezoid by trapezoid: `m` trapezoids of width `H`
starting at `x`. A proof device, not part of the program. -/
def trapezoids {K : Type} [Field K] (f : K → K) (x H : K) (m : Nat) : K :=
  H * ∑ j ∈ Finset.range m, (f (x + (j : K) * H) + f (x + ((j : K) + 1) * H)) / 2

/-- Two-point convexity, the only property of the integrand the bounds below use. -/
def ConvexFn (g : ℝ → ℝ) : Prop :=
  ∀ x y s t : ℝ, 0 ≤ s → 0 ≤ t → s + t = 1 → g (s * x + t * y) ≤ s * g x + t * g y

/-- The composite midpoint rule: `t` rectangles of width `W` starting at `x`. A proof
device, not part of the program. -/
def midpoints {K : Type} [Field K] (g : K → K) (x W : K) (t : Nat) : K :=
  W * ∑ i ∈ Finset.range t, g (x + (i : K) * W + W / 2)

/-- The integrand at the node `j/20` of `[0, 1]`. -/
noncomputable def node20 (j : Nat) : ℝ :=
  integralFunction ((j : ℝ) / 20)

/-- The truncated quadratic `(y - s)₊² / 2`, the kernel of Taylor's formula of order two. -/
noncomputable def kernel (s y : ℝ) : ℝ :=
  (max (y - s) 0) ^ 2 / 2

/-- The nodes of a rule of step `H` counted from the right end, at distance `σ` from a
kink: `H * (σ²/2 + Σ_{i=1}^{N} (σ - i*H)₊²)`. A proof device. -/
noncomputable def truncSquares (σ : ℝ) (N : Nat) (H : ℝ) : ℝ :=
  H * (σ ^ 2 / 2 + ∑ i ∈ Finset.range N, (max (σ - ((i : ℝ) + 1) * H) 0) ^ 2)

/-- The same sum without truncation. A proof device. -/
noncomputable def fullSquares (σ : ℝ) (N : Nat) (H : ℝ) : ℝ :=
  H * (σ ^ 2 / 2 + ∑ i ∈ Finset.range N, (σ - ((i : ℝ) + 1) * H) ^ 2)

/-- The first derivative of the integrand, in terms of its value `v`: `(v - 1/v) / 2`. -/
noncomputable def integralFunctionDeriv (x : ℝ) : ℝ :=
  (integralFunction x - (integralFunction x)⁻¹) / 2

/-- The second derivative of the integrand: `(v - 1/v³) / 4`. -/
noncomputable def integralFunctionDeriv2 (x : ℝ) : ℝ :=
  (integralFunction x - (integralFunction x ^ 3)⁻¹) / 4

/-- The third derivative of the integrand: `(1 + 3/v⁴) * (v - 1/v) / 8`. -/
noncomputable def integralFunctionDeriv3 (x : ℝ) : ℝ :=
  (1 + 3 * (integralFunction x ^ 4)⁻¹) * (integralFunction x - (integralFunction x)⁻¹) / 8

end Integral

/-! ## The argument parser -/

theorem isSpace_of_isDigit (c : Char) (h : c.isDigit = true) : isSpace c = false := by
  simp only [Char.isDigit, Bool.and_eq_true, decide_eq_true_eq] at h
  have h1 : 48 ≤ c.val.toNat := by
    have := h.1; exact this
  simp only [isSpace, Char.toNat, Bool.or_eq_false_iff, decide_eq_false_iff_not,
    Bool.and_eq_false_iff]
  omega

theorem takeWhile_all (ds : List Char) (h : ds.all Char.isDigit = true) :
    ds.takeWhile Char.isDigit = ds := by
  rw [List.takeWhile_eq_self_iff]
  intro c hc
  exact (List.all_eq_true.mp h) c hc

theorem stoi_intText (t : String) (ht : isIntText t = true)
    (hr : inIntRange (intTextValue t) = true) : stoi t = Except.ok (intTextValue t) := by
  unfold isIntText at ht
  unfold intTextValue at hr ⊢
  unfold stoi
  simp only [inIntRange, Bool.and_eq_true, decide_eq_true_eq] at hr
  split at ht
  · rename_i ds heq
    simp only [Bool.and_eq_true, Bool.not_eq_true', List.isEmpty_eq_false] at ht
    rw [heq] at hr ⊢
    have hd : List.dropWhile isSpace ('-' :: ds) = '-' :: ds := by
      rw [List.dropWhile_cons_of_neg]; decide
    simp only [hd, takeWhile_all ds ht.2]
    have hne : ds.isEmpty = false := by
      cases ds with
      | nil => simp at ht
      | cons c cs => rfl
    simp only [hne, Bool.false_eq_true, if_false, if_true]
    simp only [] at hr
    rw [if_neg (by omega)]
  · rename_i ds hnot
    simp only [Bool.and_eq_true, Bool.not_eq_true', List.isEmpty_eq_false] at ht
    cases hds : t.toList with
    | nil => rw [hds] at ht; simp at ht
    | cons c cs =>
      rw [hds] at ht hr hnot
      have hc : c.isDigit = true := (List.all_eq_true.mp ht.2) c (List.mem_cons_self _ _)
      have hd : List.dropWhile isSpace (c :: cs) = c :: cs := by
        rw [List.dropWhile_cons_of_neg]
        simp [isSpace_of_isDigit c hc]
      have hsign : (match c :: cs with
          | '-' :: rest => (true, rest)
          | '+' :: rest => (false, rest)
          | _ => (false, c :: cs)) = (false, c :: cs) := by
        split
        · rename_i rest h; exact absurd h (fun h => hnot rest h)
        · rename_i rest h
          have : c = '+' := (List.cons.inj h).1
          rw [this] at hc
          exact absurd hc (by decide)
        · rfl
      have hval : (match c :: cs with
          | '-' :: ds => -(digitsValue ds : Int)
          | ds => (digitsValue ds : Int)) = (digitsValue (c :: cs) : Int) := by
        split
        · rename_i rest h; exact absurd h (fun h => hnot rest h)
        · rfl
      rw [hval] at hr
      simp only [hd, hsign, takeWhile_all (c :: cs) ht.2, List.isEmpty_cons, Bool.false_eq_true,
        if_false]
      rw [if_neg (by omega)]

/-! ## The two loops and the composite rule -/

namespace Integral

theorem wrapInt_of_inIntRange (z : Int) (h : inIntRange z = true) : wrapInt z = z := by
  simp only [inIntRange, Bool.and_eq_true, decide_eq_true_eq] at h
  unfold wrapInt
  omega

section Arith

variable {K : Type} [Add K] [Sub K] [Mul K] [Div K] [Zero K] [IntCast K] [OfScientific K]

theorem workerLoop_eq (f : K → K) (a b tn spt : Int) (r : K) (k i : Nat) :
    workerLoop f a b tn spt r k (i : Int)
        ((List.range i).map (fun j : Nat => workerResult f a b tn spt r (j : Int))
          ++ List.replicate k 0)
      = (List.range (i + k)).map (fun j : Nat => workerResult f a b tn spt r (j : Int)) := by
  induction k generalizing i with
  | zero => simp [workerLoop]
  | succ k ih =>
    rw [workerLoop]
    have hset : (List.map (fun j : Nat => workerResult f a b tn spt r (j : Int)) (List.range i)
          ++ List.replicate (k + 1) 0).set (i : Int).toNat
            (calculatePartialIntegral f (workerStart a r (i : Int))
              (workerEnd a b tn r (i : Int)) spt)
        = (List.range (i + 1)).map (fun j : Nat => workerResult f a b tn spt r (j : Int))
          ++ List.replicate k 0 := by
      rw [List.range_succ, List.map_append, List.append_assoc]
      simp [List.set_append, List.replicate_succ, workerResult]
    simp only [] at hset ⊢
    rw [hset]
    have := ih (i + 1)
    simp only [Nat.cast_add, Nat.cast_one] at this
    rw [this]
    congr 2
    omega

/-- Past the guard, in any arithmetic, `calculateIntegral` adds up, from `0` and in the
order of the slots, the values the workers `0 .. tn - 1` store. -/
theorem calculateIntegral_eq_foldl (f : K → K) (self : Integral) (hn : 1 ≤ self.n)
    (htn : 1 ≤ self.tn) :
    calculateIntegral f self
      = ((List.range self.tn.toNat).map (fun j : Nat =>
          workerResult f self.a self.b self.tn (segmentsPerThread self) (rangePerThread self)
            (j : Int))).foldl (fun acc x => acc + x) 0 := by
  have hguard : ¬ (self.tn ≤ 0 ∨ self.n ≤ 0) := by omega
  simp only [calculateIntegral, hguard, if_false]
  have h := workerLoop_eq f self.a self.b self.tn (segmentsPerThread self)
    (rangePerThread self) self.tn.toNat 0
  simp only [List.range_zero, List.map_nil, List.nil_append, Nat.cast_zero, zero_add] at h
  rw [h]

end Arith

end Integral

namespace Integral

section Generic

open Finset

variable {K : Type} [Field K]

/-- The accumulation loop adds the integrand at the `k` points `i, i + 1, ...`. -/
theorem sumLoop_eq (f : K → K) (start h : K) (k : Nat) (i : Int) (sum : K) :
    sumLoop f start h k i sum
      = sum + ∑ j ∈ range k, f (start + ((i + (j : Int) : Int) : K) * h) := by
  induction k generalizing i sum with
  | zero => simp [sumLoop]
  | succ k ih =>
    rw [sumLoop, ih, Finset.sum_range_succ', add_assoc]
    congr 1
    rw [add_comm]
    congr 1
    · apply Finset.sum_congr rfl
      intro j _
      push_cast
      ring_nf
    · simp

theorem foldl_add_eq_sum (g : Nat → K) (t : Nat) :
    ((List.range t).map g).foldl (fun acc x => acc + x) 0 = ∑ i ∈ range t, g i := by
  induction t with
  | zero => simp
  | succ t ih => simp [List.range_succ, List.foldl_append, ih, Finset.sum_range_succ]

theorem half_eq [CharZero K] : (0.5 : K) = 1 / 2 := by norm_num

theorem sum_pairs_eq [CharZero K] (g : Nat → K) (m : Nat) :
    ∑ j ∈ range (m + 1), (g j + g (j + 1)) / 2
      = 0.5 * (g 0 + g (m + 1)) + ∑ j ∈ range m, g (j + 1) := by
  rw [half_eq]
  induction m with
  | zero => simp; ring
  | succ m ih =>
    rw [Finset.sum_range_succ, ih, Finset.sum_range_succ]
    ring

/-- The closed form of `calculatePartialIntegral`, sum over `j = 0 .. segments - 2` of the
points `start + (1 + j) * h`. -/
theorem calculatePartialIntegral_eq (f : K → K) (s e : K) (seg : Int) :
    calculatePartialIntegral f s e seg
      = (e - s) / (seg : K) * (0.5 * (f s + f e)
          + ∑ j ∈ range (seg - 1).toNat, f (s + ((1 + (j : Int) : Int) : K) * ((e - s) / (seg : K)))) := by
  simp only [calculatePartialIntegral, sumLoop_eq]

theorem calculatePartialIntegral_eq_trapezoids [CharZero K] (f : K → K) (s e : K) (m : Nat)
    (hm : 1 ≤ m) :
    calculatePartialIntegral f s e (m : Int) = trapezoids f s ((e - s) / (m : K)) m := by
  obtain ⟨m, rfl⟩ : ∃ k, m = k + 1 := ⟨m - 1, by omega⟩
  have hne : ((m + 1 : Nat) : K) ≠ 0 := Nat.cast_ne_zero.mpr (by omega)
  rw [calculatePartialIntegral_eq, trapezoids]
  have hcast : (((m + 1 : Nat) : Int) : K) = ((m + 1 : Nat) : K) := by push_cast; ring
  rw [hcast]
  set H := (e - s) / ((m + 1 : Nat) : K) with hH
  have he : e = s + ((m + 1 : Nat) : K) * H := by
    rw [hH, mul_div_cancel₀ _ hne]; ring
  have hsum := sum_pairs_eq (fun j => f (s + (j : K) * H)) m
  simp only [Nat.cast_add, Nat.cast_one] at hsum
  have h1 : (((m + 1 : Nat) : Int) - 1).toNat = m := by omega
  rw [h1, hsum]
  congr 1
  simp only [Nat.cast_zero, zero_mul, add_zero]
  congr 1
  · congr 2
    rw [he]
    push_cast
    ring
  · apply Finset.sum_congr rfl
    intro j _
    push_cast
    ring_nf

theorem trapezoids_add (f : K → K) (x H : K) (m k : Nat) :
    trapezoids f x H (m + k) = trapezoids f x H m + trapezoids f (x + (m : K) * H) H k := by
  simp only [trapezoids, Finset.sum_range_add, mul_add]
  congr 2
  apply Finset.sum_congr rfl
  intro j _
  push_cast
  ring_nf

theorem sum_trapezoids (f : K → K) (x H : K) (s t : Nat) :
    ∑ i ∈ range t, trapezoids f (x + (i : K) * ((s : K) * H)) H s
      = trapezoids f x H (t * s) := by
  induction t with
  | zero => simp [trapezoids]
  | succ t ih =>
    rw [Finset.sum_range_succ, ih, Nat.succ_mul, trapezoids_add]
    congr 2
    push_cast
    ring

/-- Past the guard, `calculateIntegral` is the sum of the worker results over the slots
`0 .. tn - 1`. -/
theorem calculateIntegral_eq_sum (f : K → K) (a b n tn : Int) (hn : 1 ≤ n) (htn : 1 ≤ tn) :
    calculateIntegral f { a := a, b := b, n := n, tn := tn }
      = ∑ i ∈ range tn.toNat,
          workerResult f a b tn (Int.tdiv n tn) (((wrapInt (b - a) : Int) : K) / (tn : K))
            (i : Int) := by
  rw [calculateIntegral_eq_foldl f _ hn htn, foldl_add_eq_sum]
  rfl

/-- With `tn` dividing `n`, the workers' trapezoids are the trapezoids of the sequential
rule over the whole interval. -/
theorem calculateIntegral_eq_whole [CharZero K] (f : K → K) (a b n tn : Int) (hn : 1 ≤ n)
    (htn : 1 ≤ tn) (hdvd : tn ∣ n) (hfit : inIntRange (b - a) = true) :
    calculateIntegral f { a := a, b := b, n := n, tn := tn }
      = calculatePartialIntegral f (a : K) (b : K) n := by
  obtain ⟨t, rfl⟩ : ∃ t : Nat, tn = (t : Int) := ⟨tn.toNat, by omega⟩
  obtain ⟨q, rfl⟩ := hdvd
  obtain ⟨s, rfl⟩ : ∃ s : Nat, q = (s : Int) := by
    refine ⟨q.toNat, ?_⟩
    have : 0 < q := by
      by_contra hq
      have : (t : Int) * q ≤ 0 := mul_nonpos_of_nonneg_of_nonpos (by omega) (by omega)
      omega
    omega
  have ht : 1 ≤ t := by omega
  have hs : 1 ≤ s := by
    rcases Nat.eq_zero_or_pos s with h | h
    · subst h; simp at hn
    · exact h
  have htK : (t : K) ≠ 0 := Nat.cast_ne_zero.mpr (by omega)
  have hsK : (s : K) ≠ 0 := Nat.cast_ne_zero.mpr (by omega)
  rw [calculateIntegral_eq_sum f a b _ _ hn htn, wrapInt_of_inIntRange _ hfit]
  have hdiv : Int.tdiv ((t : Int) * (s : Int)) (t : Int) = (s : Int) := by
    rw [Int.tdiv_eq_ediv (by positivity) (by positivity)]
    exact Int.mul_ediv_cancel_left _ (by omega)
  have hprod : ((t : Int) * (s : Int)) = ((t * s : Nat) : Int) := by push_cast; ring
  rw [hdiv, hprod, calculatePartialIntegral_eq_trapezoids f _ _ (t * s) (Nat.mul_pos ht hs),
    ← sum_trapezoids, Int.toNat_natCast]
  apply Finset.sum_congr rfl
  intro i hi
  have hi' : i < t := Finset.mem_range.mp hi
  rw [workerResult, calculatePartialIntegral_eq_trapezoids f _ _ s hs]
  simp only [workerEnd, workerStart]
  have hend : (if (i : Int) = (t : Int) - 1 then (b : K)
        else (a : K) + ((i : Int) : K) * (((b - a : Int) : K) / ((t : Int) : K))
          + ((b - a : Int) : K) / ((t : Int) : K))
      = (a : K) + ((i : Int) : K) * (((b - a : Int) : K) / ((t : Int) : K))
          + ((b - a : Int) : K) / ((t : Int) : K) := by
    split_ifs with h
    · have hi1 : ((i : Int) : K) = (t : K) - 1 := by
        rw [h]; push_cast; ring
      rw [hi1]
      push_cast
      field_simp
      ring
    · rfl
  rw [hend]
  push_cast
  congr 1
  · field_simp
    ring
  · field_simp

end Generic

end Integral

/-! ## Convexity of the integrand -/

namespace Integral

open Finset

theorem exp_half_sq (x : ℝ) : Real.exp x = Real.exp (x / 2) ^ 2 := by
  rw [sq, ← Real.exp_add]
  congr 1
  ring

theorem sqrt_one_add_sq_convex (u v s t : ℝ) (hs : 0 ≤ s)
    (ht : 0 ≤ t) (hst : s + t = 1) :
    Real.sqrt (1 + (s * u + t * v) ^ 2)
      ≤ s * Real.sqrt (1 + u ^ 2) + t * Real.sqrt (1 + v ^ 2) := by
  have hA : 0 ≤ Real.sqrt (1 + u ^ 2) := Real.sqrt_nonneg _
  have hB : 0 ≤ Real.sqrt (1 + v ^ 2) := Real.sqrt_nonneg _
  have hA2 : Real.sqrt (1 + u ^ 2) ^ 2 = 1 + u ^ 2 := Real.sq_sqrt (by positivity)
  have hB2 : Real.sqrt (1 + v ^ 2) ^ 2 = 1 + v ^ 2 := Real.sq_sqrt (by positivity)
  have hAB : 1 + u * v ≤ Real.sqrt (1 + u ^ 2) * Real.sqrt (1 + v ^ 2) := by
    rw [← Real.sqrt_mul (by positivity)]
    apply Real.le_sqrt_of_sq_le
    nlinarith [sq_nonneg (u - v)]
  rw [Real.sqrt_le_iff]
  refine ⟨by positivity, ?_⟩
  have hst2 : (1 : ℝ) = (s + t) ^ 2 := by rw [hst]; norm_num
  have key : 1 + (s * u + t * v) ^ 2
      = s ^ 2 * (1 + u ^ 2) + t ^ 2 * (1 + v ^ 2) + 2 * (s * t) * (1 + u * v) := by
    nth_rewrite 1 [hst2]
    ring
  have hmul : 2 * (s * t) * (1 + u * v)
      ≤ 2 * (s * t) * (Real.sqrt (1 + u ^ 2) * Real.sqrt (1 + v ^ 2)) :=
    mul_le_mul_of_nonneg_left hAB (by positivity)
  calc 1 + (s * u + t * v) ^ 2
      = s ^ 2 * (1 + u ^ 2) + t ^ 2 * (1 + v ^ 2) + 2 * (s * t) * (1 + u * v) := key
    _ ≤ s ^ 2 * (1 + u ^ 2) + t ^ 2 * (1 + v ^ 2)
          + 2 * (s * t) * (Real.sqrt (1 + u ^ 2) * Real.sqrt (1 + v ^ 2)) := by linarith
    _ = (s * Real.sqrt (1 + u ^ 2) + t * Real.sqrt (1 + v ^ 2)) ^ 2 := by
        have e : (s * Real.sqrt (1 + u ^ 2) + t * Real.sqrt (1 + v ^ 2)) ^ 2
            = s ^ 2 * Real.sqrt (1 + u ^ 2) ^ 2 + t ^ 2 * Real.sqrt (1 + v ^ 2) ^ 2
              + 2 * (s * t) * (Real.sqrt (1 + u ^ 2) * Real.sqrt (1 + v ^ 2)) := by ring
        rw [e, hA2, hB2]

/-- The integrand `sqrt(1 + e^x)` is convex. -/
theorem integralFunction_convex : ConvexFn integralFunction := by
  intro x y s t hs ht hst
  have hexp : Real.exp (s * (x / 2) + t * (y / 2))
      ≤ s * Real.exp (x / 2) + t * Real.exp (y / 2) := by
    have h := convexOn_exp.2 (Set.mem_univ (x / 2)) (Set.mem_univ (y / 2)) hs ht hst
    simpa [smul_eq_mul] using h
  have hpos : 0 ≤ Real.exp (s * (x / 2) + t * (y / 2)) := (Real.exp_pos _).le
  have hsq : Real.exp (s * x + t * y)
      ≤ (s * Real.exp (x / 2) + t * Real.exp (y / 2)) ^ 2 := by
    rw [exp_half_sq (s * x + t * y)]
    have harg : (s * x + t * y) / 2 = s * (x / 2) + t * (y / 2) := by ring
    rw [harg]
    exact pow_le_pow_left₀ hpos hexp 2
  calc integralFunction (s * x + t * y)
      = Real.sqrt (1 + Real.exp (s * x + t * y)) := rfl
    _ ≤ Real.sqrt (1 + (s * Real.exp (x / 2) + t * Real.exp (y / 2)) ^ 2) :=
        Real.sqrt_le_sqrt (by linarith)
    _ ≤ s * Real.sqrt (1 + Real.exp (x / 2) ^ 2) + t * Real.sqrt (1 + Real.exp (y / 2) ^ 2) :=
        sqrt_one_add_sq_convex _ _ s t hs ht hst
    _ = s * integralFunction x + t * integralFunction y := by
        rw [← exp_half_sq x, ← exp_half_sq y]
        rfl

/-! ## A block of trapezoids of a convex function -/

theorem sum_affine_pairs (P Q : ℝ) (m : Nat) :
    ∑ j ∈ range m, ((P + (j : ℝ) * Q) + (P + ((j : ℝ) + 1) * Q)) / 2
      = (m : ℝ) * (P + (P + (m : ℝ) * Q)) / 2 := by
  induction m with
  | zero => simp
  | succ m ih =>
    rw [Finset.sum_range_succ, ih]
    push_cast
    ring

/-- A convex function lies below its chord at the nodes of a block. -/
theorem convex_node_le_chord (g : ℝ → ℝ) (hg : ConvexFn g) (x H : ℝ) (m : Nat) (hm : 1 ≤ m)
    (j : ℝ) (hj0 : 0 ≤ j) (hjm : j ≤ (m : ℝ)) :
    g (x + j * H) ≤ g x + j * ((g (x + (m : ℝ) * H) - g x) / (m : ℝ)) := by
  have hmpos : (0 : ℝ) < (m : ℝ) := by exact_mod_cast hm
  have h := hg x (x + (m : ℝ) * H) (1 - j / (m : ℝ)) (j / (m : ℝ))
    (by rw [sub_nonneg, div_le_one hmpos]; exact hjm) (div_nonneg hj0 hmpos.le) (by ring)
  have harg : (1 - j / (m : ℝ)) * x + j / (m : ℝ) * (x + (m : ℝ) * H) = x + j * H := by
    field_simp
    ring
  rw [harg] at h
  have hrhs : (1 - j / (m : ℝ)) * g x + j / (m : ℝ) * g (x + (m : ℝ) * H)
      = g x + j * ((g (x + (m : ℝ) * H) - g x) / (m : ℝ)) := by
    field_simp
    ring
  rw [hrhs] at h
  exact h

/-- Upper bound: `m` trapezoids of a convex function are at most the single trapezoid over
the whole block. -/
theorem trapezoids_le_chord (g : ℝ → ℝ) (hg : ConvexFn g) (x H : ℝ) (hH : 0 ≤ H) (m : Nat)
    (hm : 1 ≤ m) :
    trapezoids g x H m ≤ (m : ℝ) * H * ((g x + g (x + (m : ℝ) * H)) / 2) := by
  have hmpos : (0 : ℝ) < (m : ℝ) := by exact_mod_cast hm
  set Q := (g (x + (m : ℝ) * H) - g x) / (m : ℝ) with hQ
  have hsum : ∑ j ∈ range m, (g (x + (j : ℝ) * H) + g (x + ((j : ℝ) + 1) * H)) / 2
      ≤ ∑ j ∈ range m, ((g x + (j : ℝ) * Q) + (g x + ((j : ℝ) + 1) * Q)) / 2 := by
    apply Finset.sum_le_sum
    intro j hj
    have hjm : j < m := Finset.mem_range.mp hj
    have hjm1 : (j : ℝ) + 1 ≤ (m : ℝ) := by exact_mod_cast hjm
    have h1 := convex_node_le_chord g hg x H m hm (j : ℝ) (Nat.cast_nonneg j) (by linarith)
    have h2 := convex_node_le_chord g hg x H m hm ((j : ℝ) + 1)
      (by positivity) hjm1
    linarith
  rw [sum_affine_pairs] at hsum
  have hmQ : (m : ℝ) * Q = g (x + (m : ℝ) * H) - g x := by
    rw [hQ]; field_simp
  rw [hmQ] at hsum
  calc trapezoids g x H m
      = H * ∑ j ∈ range m, (g (x + (j : ℝ) * H) + g (x + ((j : ℝ) + 1) * H)) / 2 := rfl
    _ ≤ H * ((m : ℝ) * (g x + (g x + (g (x + (m : ℝ) * H) - g x))) / 2) :=
        mul_le_mul_of_nonneg_left hsum hH
    _ = (m : ℝ) * H * ((g x + g (x + (m : ℝ) * H)) / 2) := by ring

/-- Lower bound: `m` trapezoids of a convex function are at least the midpoint rectangle of
the block. -/
theorem midpoint_le_trapezoids (g : ℝ → ℝ) (hg : ConvexFn g) (x H : ℝ) (hH : 0 ≤ H) (m : Nat) :
    (m : ℝ) * H * g (x + (m : ℝ) * H / 2) ≤ trapezoids g x H m := by
  set F : Nat → ℝ := fun j => (g (x + (j : ℝ) * H) + g (x + ((j : ℝ) + 1) * H)) / 2 with hF
  have hmid : ∀ d : ℝ, g (x + (m : ℝ) * H / 2)
      ≤ (g (x + (m : ℝ) * H / 2 - d) + g (x + (m : ℝ) * H / 2 + d)) / 2 := by
    intro d
    have h := hg (x + (m : ℝ) * H / 2 - d) (x + (m : ℝ) * H / 2 + d) (1 / 2) (1 / 2)
      (by norm_num) (by norm_num) (by norm_num)
    have harg : 1 / 2 * (x + (m : ℝ) * H / 2 - d) + 1 / 2 * (x + (m : ℝ) * H / 2 + d)
        = x + (m : ℝ) * H / 2 := by ring
    rw [harg] at h
    linarith
  have hpair : ∀ j ∈ range m, 2 * g (x + (m : ℝ) * H / 2) ≤ F j + F (m - 1 - j) := by
    intro j hj
    have hjm : j < m := Finset.mem_range.mp hj
    have hcast : ((m - 1 - j : Nat) : ℝ) = (m : ℝ) - 1 - (j : ℝ) := by
      rw [Nat.sub_sub, Nat.cast_sub (by omega)]
      push_cast
      ring
    have h1 := hmid ((m : ℝ) * H / 2 - (j : ℝ) * H)
    have h2 := hmid ((m : ℝ) * H / 2 - ((j : ℝ) + 1) * H)
    have e1 : x + (m : ℝ) * H / 2 - ((m : ℝ) * H / 2 - (j : ℝ) * H) = x + (j : ℝ) * H := by ring
    have e2 : x + (m : ℝ) * H / 2 + ((m : ℝ) * H / 2 - (j : ℝ) * H)
        = x + (((m - 1 - j : Nat) : ℝ) + 1) * H := by rw [hcast]; ring
    have e3 : x + (m : ℝ) * H / 2 - ((m : ℝ) * H / 2 - ((j : ℝ) + 1) * H)
        = x + ((j : ℝ) + 1) * H := by ring
    have e4 : x + (m : ℝ) * H / 2 + ((m : ℝ) * H / 2 - ((j : ℝ) + 1) * H)
        = x + ((m - 1 - j : Nat) : ℝ) * H := by rw [hcast]; ring
    rw [e1, e2] at h1
    rw [e3, e4] at h2
    simp only [hF]
    linarith
  have hrefl : ∑ j ∈ range m, F (m - 1 - j) = ∑ j ∈ range m, F j :=
    Finset.sum_range_reflect F m
  have hsum : ∑ j ∈ range m, 2 * g (x + (m : ℝ) * H / 2)
      ≤ ∑ j ∈ range m, (F j + F (m - 1 - j)) := Finset.sum_le_sum hpair
  rw [Finset.sum_add_distrib, hrefl, Finset.sum_const, Finset.card_range, nsmul_eq_mul] at hsum
  have hS : (m : ℝ) * g (x + (m : ℝ) * H / 2) ≤ ∑ j ∈ range m, F j := by linarith
  calc (m : ℝ) * H * g (x + (m : ℝ) * H / 2)
      = H * ((m : ℝ) * g (x + (m : ℝ) * H / 2)) := by ring
    _ ≤ H * ∑ j ∈ range m, F j := mul_le_mul_of_nonneg_left hS hH
    _ = trapezoids g x H m := rfl

/-! ## Coarse bounds for the fine rule, and Hermite–Hadamard for the integral -/

theorem midpoints_le_trapezoids (g : ℝ → ℝ) (hg : ConvexFn g) (x H : ℝ) (hH : 0 ≤ H)
    (s t : Nat) :
    midpoints g x ((s : ℝ) * H) t ≤ trapezoids g x H (t * s) := by
  rw [← sum_trapezoids, midpoints, Finset.mul_sum]
  apply Finset.sum_le_sum
  intro i _
  have h := midpoint_le_trapezoids g hg (x + (i : ℝ) * ((s : ℝ) * H)) H hH s
  have e : x + (i : ℝ) * ((s : ℝ) * H) + (s : ℝ) * H / 2
      = x + (i : ℝ) * ((s : ℝ) * H) + (s : ℝ) * H / 2 := rfl
  linarith

theorem trapezoids_le_coarse (g : ℝ → ℝ) (hg : ConvexFn g) (x H : ℝ) (hH : 0 ≤ H)
    (s t : Nat) (hs : 1 ≤ s) :
    trapezoids g x H (t * s) ≤ trapezoids g x ((s : ℝ) * H) t := by
  have hR : trapezoids g x ((s : ℝ) * H) t
      = ∑ i ∈ range t, (s : ℝ) * H * ((g (x + (i : ℝ) * ((s : ℝ) * H))
          + g (x + ((i : ℝ) + 1) * ((s : ℝ) * H))) / 2) := by
    rw [trapezoids, Finset.mul_sum]
  rw [← sum_trapezoids, hR]
  apply Finset.sum_le_sum
  intro i _
  have h := trapezoids_le_chord g hg (x + (i : ℝ) * ((s : ℝ) * H)) H hH s hs
  have e : x + (i : ℝ) * ((s : ℝ) * H) + (s : ℝ) * H = x + ((i : ℝ) + 1) * ((s : ℝ) * H) := by
    ring
  rw [e] at h
  exact h

theorem integral_le_chord (g : ℝ → ℝ) (hg : ConvexFn g) (hc : Continuous g) (p W : ℝ)
    (hW : 0 ≤ W) :
    ∫ y in p..(p + W), g y ≤ W * ((g p + g (p + W)) / 2) := by
  rcases hW.eq_or_lt with h0 | hpos
  · rw [← h0]; simp
  have hle : p ≤ p + W := by linarith
  have hchord : ∀ y ∈ Set.Icc p (p + W),
      g y ≤ g p + (y - p) * ((g (p + W) - g p) / W) := by
    intro y hy
    have h := hg p (p + W) (1 - (y - p) / W) ((y - p) / W)
      (by rw [sub_nonneg, div_le_one hpos]; linarith [hy.2])
      (div_nonneg (by linarith [hy.1]) hpos.le) (by ring)
    have harg : (1 - (y - p) / W) * p + (y - p) / W * (p + W) = y := by
      field_simp
      ring
    rw [harg] at h
    have hrhs : (1 - (y - p) / W) * g p + (y - p) / W * g (p + W)
        = g p + (y - p) * ((g (p + W) - g p) / W) := by
      field_simp
      ring
    rw [hrhs] at h
    exact h
  have hint : ∫ y in p..(p + W), (g p + (y - p) * ((g (p + W) - g p) / W))
      = W * ((g p + g (p + W)) / 2) := by
    rw [intervalIntegral.integral_add (by apply Continuous.intervalIntegrable; fun_prop)
      (by apply Continuous.intervalIntegrable; fun_prop),
      intervalIntegral.integral_mul_const, intervalIntegral.integral_sub
        (by apply Continuous.intervalIntegrable; fun_prop)
        (by apply Continuous.intervalIntegrable; fun_prop)]
    simp only [intervalIntegral.integral_const, integral_id, smul_eq_mul]
    field_simp
    ring
  rw [← hint]
  apply intervalIntegral.integral_mono_on hle (hc.intervalIntegrable _ _)
    (by apply Continuous.intervalIntegrable; fun_prop) hchord

theorem midpoint_le_integral (g : ℝ → ℝ) (hg : ConvexFn g) (hc : Continuous g) (p W : ℝ)
    (hW : 0 ≤ W) :
    W * g (p + W / 2) ≤ ∫ y in p..(p + W), g y := by
  have hle : p ≤ p + W := by linarith
  have hrefl : ∫ y in p..(p + W), g (p + (p + W) - y) = ∫ y in p..(p + W), g y := by
    rw [intervalIntegral.integral_comp_sub_left (fun y => g y) (p + (p + W))]
    congr 1 <;> ring
  have hcr : Continuous fun y => g (p + (p + W) - y) := by fun_prop
  have hpair : ∀ y ∈ Set.Icc p (p + W), 2 * g (p + W / 2) ≤ g y + g (p + (p + W) - y) := by
    intro y _
    have h := hg y (p + (p + W) - y) (1 / 2) (1 / 2) (by norm_num) (by norm_num) (by norm_num)
    have harg : 1 / 2 * y + 1 / 2 * (p + (p + W) - y) = p + W / 2 := by ring
    rw [harg] at h
    linarith
  have hconst : IntervalIntegrable (fun _ : ℝ => 2 * g (p + W / 2)) MeasureTheory.volume
      p (p + W) := continuous_const.intervalIntegrable _ _
  have hmono := intervalIntegral.integral_mono_on hle hconst
    ((hc.add hcr).intervalIntegrable p (p + W)) hpair
  rw [intervalIntegral.integral_const, intervalIntegral.integral_add
    (hc.intervalIntegrable _ _) (hcr.intervalIntegrable _ _), hrefl, smul_eq_mul] at hmono
  have e : p + W - p = W := by ring
  rw [e] at hmono
  linarith

theorem integral_blocks (g : ℝ → ℝ) (hc : Continuous g) (x W : ℝ) (t : Nat) :
    ∑ i ∈ range t, ∫ y in (x + (i : ℝ) * W)..(x + (i : ℝ) * W + W), g y
      = ∫ y in x..(x + (t : ℝ) * W), g y := by
  have h := intervalIntegral.sum_integral_adjacent_intervals
    (f := g) (μ := MeasureTheory.volume) (a := fun k : Nat => x + (k : ℝ) * W) (n := t)
    (fun k _ => hc.intervalIntegrable _ _)
  simp only [Nat.cast_zero, zero_mul, add_zero] at h
  rw [← h]
  apply Finset.sum_congr rfl
  intro i _
  congr 1
  push_cast
  ring

theorem midpoints_le_integral (g : ℝ → ℝ) (hg : ConvexFn g) (hc : Continuous g) (x W : ℝ)
    (hW : 0 ≤ W) (t : Nat) :
    midpoints g x W t ≤ ∫ y in x..(x + (t : ℝ) * W), g y := by
  rw [← integral_blocks g hc, midpoints, Finset.mul_sum]
  apply Finset.sum_le_sum
  intro i _
  exact midpoint_le_integral g hg hc (x + (i : ℝ) * W) W hW

theorem integral_le_trapezoids (g : ℝ → ℝ) (hg : ConvexFn g) (hc : Continuous g) (x W : ℝ)
    (hW : 0 ≤ W) (t : Nat) :
    ∫ y in x..(x + (t : ℝ) * W), g y ≤ trapezoids g x W t := by
  rw [← integral_blocks g hc, trapezoids, Finset.mul_sum]
  apply Finset.sum_le_sum
  intro i _
  have h := integral_le_chord g hg hc (x + (i : ℝ) * W) W hW
  have e : x + (i : ℝ) * W + W = x + ((i : ℝ) + 1) * W := by ring
  rw [e] at h ⊢
  exact h

theorem integralFunction_continuous : Continuous integralFunction :=
  Real.continuous_sqrt.comp (continuous_const.add Real.continuous_exp)

/-! ## The scenario `a = 0, b = 1, n = 1000, tn = 4` -/

theorem exp_twentieth_bounds :
    (1.051271 : ℝ) ≤ Real.exp (1 / 20) ∧ Real.exp (1 / 20) ≤ 1.0512711 := by
  constructor
  · have h := Real.sum_le_exp_of_nonneg (by norm_num : (0 : ℝ) ≤ 1 / 20) 5
    norm_num [Finset.sum_range_succ, Nat.factorial] at h
    linarith
  · have h := Real.exp_bound' (by norm_num : (0 : ℝ) ≤ 1 / 20) (by norm_num : (1 / 20 : ℝ) ≤ 1)
      (by norm_num : 0 < 5)
    norm_num [Finset.sum_range_succ, Nat.factorial] at h
    linarith

theorem node20_eq (j : Nat) : node20 j = Real.sqrt (1 + Real.exp (1 / 20) ^ j) := by
  rw [node20, integralFunction, ← Real.exp_nat_mul]
  congr 3
  ring

theorem node20_le (j : Nat) (U : ℝ) (hU : 0 ≤ U) (h : 1 + (1.0512711 : ℝ) ^ j ≤ U ^ 2) :
    node20 j ≤ U := by
  rw [node20_eq, Real.sqrt_le_iff]
  refine ⟨hU, le_trans ?_ h⟩
  have := pow_le_pow_left₀ (Real.exp_pos (1 / 20)).le exp_twentieth_bounds.2 j
  linarith

theorem le_node20 (j : Nat) (L : ℝ) (h : L ^ 2 ≤ 1 + (1.051271 : ℝ) ^ j) : L ≤ node20 j := by
  rw [node20_eq]
  apply Real.le_sqrt_of_sq_le
  have := pow_le_pow_left₀ (by norm_num : (0 : ℝ) ≤ 1.051271) exp_twentieth_bounds.1 j
  linarith

theorem coarse_trapezoids_eq :
    trapezoids integralFunction 0 (1 / 10) 10
      = 1 / 10 * ∑ i ∈ range 10, (node20 (2 * i) + node20 (2 * i + 2)) / 2 := by
  rw [trapezoids]
  congr 1
  apply Finset.sum_congr rfl
  intro i _
  simp only [node20]
  congr 3
  · push_cast; ring
  · push_cast; ring

theorem coarse_midpoints_eq :
    midpoints integralFunction 0 (1 / 10) 10 = 1 / 10 * ∑ i ∈ range 10, node20 (2 * i + 1) := by
  rw [midpoints]
  congr 1
  apply Finset.sum_congr rfl
  intro i _
  simp only [node20]
  congr 1
  push_cast
  ring

theorem coarse_trapezoids_le : trapezoids integralFunction 0 (1 / 10) 10 ≤ 1.6424 := by
  have hu0 : node20 0 ≤ 1.414214 :=
    node20_le 0 _ (by norm_num) (by norm_num)
  have hu2 : node20 2 ≤ 1.450921 :=
    node20_le 2 _ (by norm_num) (by norm_num)
  have hu4 : node20 4 ≤ 1.490438 :=
    node20_le 4 _ (by norm_num) (by norm_num)
  have hu6 : node20 6 ≤ 1.532925 :=
    node20_le 6 _ (by norm_num) (by norm_num)
  have hu8 : node20 8 ≤ 1.578552 :=
    node20_le 8 _ (by norm_num) (by norm_num)
  have hu10 : node20 10 ≤ 1.627490 :=
    node20_le 10 _ (by norm_num) (by norm_num)
  have hu12 : node20 12 ≤ 1.679917 :=
    node20_le 12 _ (by norm_num) (by norm_num)
  have hu14 : node20 14 ≤ 1.736017 :=
    node20_le 14 _ (by norm_num) (by norm_num)
  have hu16 : node20 16 ≤ 1.795980 :=
    node20_le 16 _ (by norm_num) (by norm_num)
  have hu18 : node20 18 ≤ 1.860001 :=
    node20_le 18 _ (by norm_num) (by norm_num)
  have hu20 : node20 20 ≤ 1.928285 :=
    node20_le 20 _ (by norm_num) (by norm_num)
  rw [coarse_trapezoids_eq]
  simp only [Finset.sum_range_succ, Finset.sum_range_zero]
  norm_num
  linarith

theorem le_coarse_midpoints : 1.6419 ≤ midpoints integralFunction 0 (1 / 10) 10 := by
  have hl1 : 1.432225 ≤ node20 1 :=
    le_node20 1 _ (by norm_num)
  have hl3 : 1.470317 ≤ node20 3 :=
    le_node20 3 _ (by norm_num)
  have hl5 : 1.511299 ≤ node20 5 :=
    le_node20 5 _ (by norm_num)
  have hl7 : 1.555334 ≤ node20 7 :=
    le_node20 7 _ (by norm_num)
  have hl9 : 1.602595 ≤ node20 9 :=
    le_node20 9 _ (by norm_num)
  have hl11 : 1.653254 ≤ node20 11 :=
    le_node20 11 _ (by norm_num)
  have hl13 : 1.707494 ≤ node20 13 :=
    le_node20 13 _ (by norm_num)
  have hl15 : 1.765501 ≤ node20 15 :=
    le_node20 15 _ (by norm_num)
  have hl17 : 1.827469 ≤ node20 17 :=
    le_node20 17 _ (by norm_num)
  have hl19 : 1.893595 ≤ node20 19 :=
    le_node20 19 _ (by norm_num)
  rw [coarse_midpoints_eq]
  simp only [Finset.sum_range_succ, Finset.sum_range_zero]
  norm_num
  linarith

end Integral

namespace Integral

/-- The value of the scenario `0 1 1000 4` and the integral itself both lie between the
midpoint rule and the trapezoidal rule on ten blocks. -/
theorem scenario_bounds :
    (1.6419 ≤ calculateIntegral integralFunction { a := 0, b := 1, n := 1000, tn := 4 }
        ∧ calculateIntegral integralFunction { a := 0, b := 1, n := 1000, tn := 4 } ≤ 1.6424)
      ∧ (1.6419 ≤ ∫ x in (0 : ℝ)..1, integralFunction x)
      ∧ (∫ x in (0 : ℝ)..1, integralFunction x) ≤ 1.6424 := by
  have hT : calculateIntegral integralFunction { a := 0, b := 1, n := 1000, tn := 4 }
      = trapezoids integralFunction 0 (1 / 1000) (10 * 100) := by
    rw [calculateIntegral_eq_whole integralFunction 0 1 1000 4 (by decide) (by decide)
      (by decide) (by decide)]
    have h := calculatePartialIntegral_eq_trapezoids integralFunction (0 : ℝ) 1 1000
      (by decide)
    norm_num at h ⊢
    exact h
  have hW : ((100 : Nat) : ℝ) * (1 / 1000) = 1 / 10 := by norm_num
  have hlow := midpoints_le_trapezoids integralFunction integralFunction_convex 0 (1 / 1000)
    (by norm_num) 100 10
  have hup := trapezoids_le_coarse integralFunction integralFunction_convex 0 (1 / 1000)
    (by norm_num) 100 10 (by decide)
  rw [hW] at hlow hup
  have hIlow := midpoints_le_integral integralFunction integralFunction_convex
    integralFunction_continuous 0 (1 / 10) (by norm_num) 10
  have hIup := integral_le_trapezoids integralFunction integralFunction_convex
    integralFunction_continuous 0 (1 / 10) (by norm_num) 10
  have hend : (0 : ℝ) + ((10 : Nat) : ℝ) * (1 / 10) = 1 := by norm_num
  rw [hend] at hIlow hIup
  have hM := le_coarse_midpoints
  have hC := coarse_trapezoids_le
  rw [hT]
  refine ⟨⟨by linarith, by linarith⟩, by linarith, by linarith⟩

end Integral

/-! ## Refinement: the rule of a kink is monotone in the step -/

namespace Integral

open Finset

theorem fullSquares_closed (σ : ℝ) (N : Nat) (H : ℝ) :
    fullSquares σ N H
      = ((N : ℝ) + 1 / 2) * σ ^ 2 * H - σ * ((N : ℝ) * ((N : ℝ) + 1)) * H ^ 2
        + (N : ℝ) * ((N : ℝ) + 1) * (2 * (N : ℝ) + 1) * H ^ 3 / 6 := by
  induction N with
  | zero => simp [fullSquares]; ring
  | succ N ih =>
    have hstep : fullSquares σ (N + 1) H
        = fullSquares σ N H + H * (σ - ((N : ℝ) + 1) * H) ^ 2 := by
      simp only [fullSquares, Finset.sum_range_succ]
      ring
    rw [hstep, ih]
    push_cast
    ring

theorem fullSquares_mono (σ : ℝ) (N : Nat) (H1 H2 : ℝ) (h : H1 ≤ H2) :
    fullSquares σ N H1 ≤ fullSquares σ N H2 := by
  rw [fullSquares_closed, fullSquares_closed]
  set A : ℝ := (N : ℝ) * ((N : ℝ) + 1) with hA
  set B : ℝ := 2 * (N : ℝ) + 1 with hB
  have hA0 : 0 ≤ A := by positivity
  have hB0 : 0 < B := by positivity
  have hBA : B ^ 2 = 4 * A + 1 := by rw [hA, hB]; ring
  have hN : (N : ℝ) + 1 / 2 = B / 2 := by rw [hB]; ring
  rw [hN]
  have hbr : 0 ≤ 2 * B * (B / 2 * σ ^ 2 - σ * A * (H1 + H2)
      + A * B * (H1 ^ 2 + H1 * H2 + H2 ^ 2) / 6) := by
    have e : 2 * B * (B / 2 * σ ^ 2 - σ * A * (H1 + H2)
        + A * B * (H1 ^ 2 + H1 * H2 + H2 ^ 2) / 6)
        = (B * σ - A * (H1 + H2)) ^ 2 + A ^ 2 / 3 * (H1 - H2) ^ 2
          + A / 3 * (H1 ^ 2 + H1 * H2 + H2 ^ 2) := by
      linear_combination (A * (H1 ^ 2 + H1 * H2 + H2 ^ 2) / 3) * hBA
    rw [e]
    have : 0 ≤ H1 ^ 2 + H1 * H2 + H2 ^ 2 := by nlinarith [sq_nonneg (H1 + H2), sq_nonneg H1, sq_nonneg H2]
    positivity
  have hbr2 : 0 ≤ B / 2 * σ ^ 2 - σ * A * (H1 + H2)
      + A * B * (H1 ^ 2 + H1 * H2 + H2 ^ 2) / 6 := by
    by_contra hneg
    push_neg at hneg
    have : 2 * B * (B / 2 * σ ^ 2 - σ * A * (H1 + H2)
      + A * B * (H1 ^ 2 + H1 * H2 + H2 ^ 2) / 6) < 0 :=
      mul_neg_of_pos_of_neg (by positivity) hneg
    linarith
  have hdiff : (B / 2 * σ ^ 2 * H2 - σ * A * H2 ^ 2 + A * B * H2 ^ 3 / 6)
      - (B / 2 * σ ^ 2 * H1 - σ * A * H1 ^ 2 + A * B * H1 ^ 3 / 6)
      = (H2 - H1) * (B / 2 * σ ^ 2 - σ * A * (H1 + H2)
          + A * B * (H1 ^ 2 + H1 * H2 + H2 ^ 2) / 6) := by ring
  have hnn := mul_nonneg (sub_nonneg.mpr h) hbr2
  linarith

theorem truncSquares_eq_fullSquares (σ : ℝ) (N : Nat) (H : ℝ) (hH : 0 ≤ H)
    (hle : (N : ℝ) * H ≤ σ) : truncSquares σ N H = fullSquares σ N H := by
  rw [truncSquares, fullSquares]
  congr 2
  apply Finset.sum_congr rfl
  intro i hi
  have hiN : (i : ℝ) + 1 ≤ (N : ℝ) := by
    have := Finset.mem_range.mp hi
    exact_mod_cast this
  have : ((i : ℝ) + 1) * H ≤ (N : ℝ) * H := mul_le_mul_of_nonneg_right hiN hH
  rw [max_eq_left (by linarith)]

theorem truncSquares_succ (σ : ℝ) (N : Nat) (H : ℝ) :
    truncSquares σ (N + 1) H
      = truncSquares σ N H + H * (max (σ - ((N : ℝ) + 1) * H) 0) ^ 2 := by
  simp only [truncSquares, Finset.sum_range_succ]
  ring

theorem truncSquares_succ_of_le (σ : ℝ) (N : Nat) (H : ℝ) (hle : σ ≤ ((N : ℝ) + 1) * H) :
    truncSquares σ (N + 1) H = truncSquares σ N H := by
  rw [truncSquares_succ, max_eq_right (by linarith)]
  ring

/-- The rule of a kink at distance `σ ≥ 0` is nondecreasing in the step. -/
theorem truncSquares_mono (σ : ℝ) (hσ : 0 ≤ σ) (N : Nat) (H1 H2 : ℝ) (h1 : 0 ≤ H1)
    (h : H1 ≤ H2) : truncSquares σ N H1 ≤ truncSquares σ N H2 := by
  induction N generalizing H1 H2 with
  | zero =>
    simp only [truncSquares, Finset.range_zero, Finset.sum_empty, add_zero]
    exact mul_le_mul_of_nonneg_right h (by positivity)
  | succ N ih =>
    have hN : (0 : ℝ) < (N : ℝ) + 1 := by positivity
    set c : ℝ := σ / ((N : ℝ) + 1) with hc
    have hcσ : ((N : ℝ) + 1) * c = σ := by rw [hc]; field_simp
    have hc0 : 0 ≤ c := div_nonneg hσ hN.le
    have hfull : ∀ H : ℝ, 0 ≤ H → H ≤ c →
        truncSquares σ (N + 1) H = fullSquares σ (N + 1) H := by
      intro H hH hHc
      apply truncSquares_eq_fullSquares σ (N + 1) H hH
      push_cast
      calc ((N : ℝ) + 1) * H ≤ ((N : ℝ) + 1) * c := mul_le_mul_of_nonneg_left hHc hN.le
        _ = σ := hcσ
    have hdrop : ∀ H : ℝ, c ≤ H → truncSquares σ (N + 1) H = truncSquares σ N H := by
      intro H hcH
      apply truncSquares_succ_of_le
      calc σ = ((N : ℝ) + 1) * c := hcσ.symm
        _ ≤ ((N : ℝ) + 1) * H := mul_le_mul_of_nonneg_left hcH hN.le
    rcases le_total H2 c with h2c | hc2
    · rw [hfull H1 h1 (h.trans h2c), hfull H2 (h1.trans h) h2c]
      exact fullSquares_mono σ (N + 1) H1 H2 h
    · rcases le_total c H1 with hc1 | h1c
      · rw [hdrop H1 hc1, hdrop H2 hc2]
        exact ih H1 H2 h1 h
      · calc truncSquares σ (N + 1) H1
            = fullSquares σ (N + 1) H1 := hfull H1 h1 h1c
          _ ≤ fullSquares σ (N + 1) c := fullSquares_mono σ (N + 1) H1 c h1c
          _ = truncSquares σ (N + 1) c := (hfull c hc0 le_rfl).symm
          _ = truncSquares σ N c := hdrop c le_rfl
          _ ≤ truncSquares σ N H2 := ih c H2 hc0 hc2
          _ = truncSquares σ (N + 1) H2 := (hdrop H2 hc2).symm

theorem truncSquares_extend (σ : ℝ) (m N : Nat) (H : ℝ) (hH : 0 ≤ H) (hmN : m ≤ N)
    (hle : σ ≤ ((m : ℝ) + 1) * H) : truncSquares σ N H = truncSquares σ m H := by
  induction N with
  | zero =>
    have : m = 0 := by omega
    rw [this]
  | succ N ih =>
    rcases Nat.lt_or_ge m (N + 1) with hlt | hge
    · have hmN2 : m ≤ N := by omega
      rw [truncSquares_succ_of_le, ih hmN2]
      have hc : (m : ℝ) ≤ (N : ℝ) := by exact_mod_cast hmN2
      have : ((m : ℝ) + 1) * H ≤ ((N : ℝ) + 1) * H :=
        mul_le_mul_of_nonneg_right (by linarith) hH
      linarith
    · have : m = N + 1 := by omega
      rw [this]

/-- The rule applied to a kink at `s` inside `[a, a + n*H]`, in terms of the distance
`σ` of `s` from the right end. -/
theorem trapezoids_kernel (a s H : ℝ) (m : Nat) (has : a ≤ s)
    (hsb : s ≤ a + ((m : ℝ) + 1) * H) :
    trapezoids (kernel s) a H (m + 1)
      = 1 / 2 * truncSquares (a + ((m : ℝ) + 1) * H - s) m H := by
  have hsum := sum_pairs_eq (fun j : Nat => kernel s (a + (j : ℝ) * H)) m
  simp only [Nat.cast_add, Nat.cast_one, Nat.cast_zero, zero_mul, add_zero] at hsum
  rw [trapezoids, hsum, truncSquares]
  have h0 : kernel s a = 0 := by
    rw [kernel, max_eq_right (by linarith)]
    norm_num
  have hend : kernel s (a + ((m : ℝ) + 1) * H) = (a + ((m : ℝ) + 1) * H - s) ^ 2 / 2 := by
    rw [kernel, max_eq_left (by linarith)]
  have hrefl : ∑ j ∈ range m, kernel s (a + ((j : ℝ) + 1) * H)
      = ∑ j ∈ range m, (max (a + ((m : ℝ) + 1) * H - s - ((j : ℝ) + 1) * H) 0) ^ 2 / 2 := by
    rw [← Finset.sum_range_reflect]
    apply Finset.sum_congr rfl
    intro j hj
    have hjm : j < m := Finset.mem_range.mp hj
    have hcast : ((m - 1 - j : Nat) : ℝ) = (m : ℝ) - 1 - (j : ℝ) := by
      rw [Nat.sub_sub, Nat.cast_sub (by omega)]
      push_cast
      ring
    rw [kernel, hcast]
    congr 3
    ring
  rw [h0, hend, hrefl, ← Finset.sum_div]
  norm_num
  ring

end Integral

/-! ## The derivatives of the integrand and Taylor's formula -/

namespace Integral

open Finset

theorem one_lt_integralFunction (x : ℝ) : 1 < integralFunction x := by
  rw [integralFunction, Real.lt_sqrt (by norm_num)]
  linarith [Real.exp_pos x]

theorem integralFunction_sq (x : ℝ) : integralFunction x ^ 2 = 1 + Real.exp x := by
  rw [integralFunction, Real.sq_sqrt]
  linarith [Real.exp_pos x]

theorem hasDerivAt_integralFunction (x : ℝ) :
    HasDerivAt integralFunction (integralFunctionDeriv x) x := by
  have hv := one_lt_integralFunction x
  have hv0 : integralFunction x ≠ 0 := by linarith
  have h1 : HasDerivAt (fun y => 1 + Real.exp y) (Real.exp x) x :=
    (Real.hasDerivAt_exp x).const_add 1
  have h2 := h1.sqrt (by linarith [Real.exp_pos x])
  have he : Real.exp x / (2 * Real.sqrt (1 + Real.exp x)) = integralFunctionDeriv x := by
    have hsq := integralFunction_sq x
    have hexp : Real.exp x = integralFunction x ^ 2 - 1 := by linarith
    change Real.exp x / (2 * integralFunction x) = integralFunctionDeriv x
    rw [integralFunctionDeriv, hexp]
    field_simp
    ring
  rw [he] at h2
  exact h2

theorem hasDerivAt_integralFunctionDeriv (x : ℝ) :
    HasDerivAt integralFunctionDeriv (integralFunctionDeriv2 x) x := by
  have hv := one_lt_integralFunction x
  have hv0 : integralFunction x ≠ 0 := by linarith
  have hf := hasDerivAt_integralFunction x
  have h := (hf.sub (hf.inv hv0)).div_const 2
  have he : (integralFunctionDeriv x - -integralFunctionDeriv x / integralFunction x ^ 2) / 2
      = integralFunctionDeriv2 x := by
    rw [integralFunctionDeriv, integralFunctionDeriv2]
    field_simp
    ring
  rw [he] at h
  exact h

theorem hasDerivAt_integralFunctionDeriv2 (x : ℝ) :
    HasDerivAt integralFunctionDeriv2 (integralFunctionDeriv3 x) x := by
  have hv := one_lt_integralFunction x
  have hv0 : integralFunction x ≠ 0 := by linarith
  have hv3 : integralFunction x ^ 3 ≠ 0 := pow_ne_zero 3 hv0
  have hf := hasDerivAt_integralFunction x
  have h := (hf.sub ((hf.pow 3).inv hv3)).div_const 4
  have he : (integralFunctionDeriv x
        - -(((3 : ℕ) : ℝ) * integralFunction x ^ (3 - 1) * integralFunctionDeriv x)
            / (integralFunction x ^ 3) ^ 2) / 4
      = integralFunctionDeriv3 x := by
    rw [integralFunctionDeriv, integralFunctionDeriv3]
    field_simp
    ring
  rw [he] at h
  exact h

theorem integralFunctionDeriv2_nonneg (x : ℝ) : 0 ≤ integralFunctionDeriv2 x := by
  have hv := one_lt_integralFunction x
  have h3 : 1 ≤ integralFunction x ^ 3 := one_le_pow₀ hv.le
  have hinv : (integralFunction x ^ 3)⁻¹ ≤ 1 := inv_le_one_of_one_le₀ h3
  rw [integralFunctionDeriv2]
  linarith

theorem integralFunctionDeriv3_nonneg (x : ℝ) : 0 ≤ integralFunctionDeriv3 x := by
  have hv := one_lt_integralFunction x
  have hinv : (integralFunction x)⁻¹ ≤ 1 := inv_le_one_of_one_le₀ hv.le
  have h4 : 0 ≤ (integralFunction x ^ 4)⁻¹ := by positivity
  rw [integralFunctionDeriv3]
  have : 0 ≤ (1 + 3 * (integralFunction x ^ 4)⁻¹) * (integralFunction x - (integralFunction x)⁻¹) :=
    mul_nonneg (by linarith) (by linarith)
  linarith

theorem integralFunctionDeriv3_continuous : Continuous integralFunctionDeriv3 := by
  have hc := integralFunction_continuous
  have hne : ∀ x, integralFunction x ≠ 0 := fun x => by linarith [one_lt_integralFunction x]
  have hne4 : ∀ x, integralFunction x ^ 4 ≠ 0 := fun x => pow_ne_zero 4 (hne x)
  unfold integralFunctionDeriv3
  exact (((continuous_const.add (continuous_const.mul ((hc.pow 4).inv₀ hne4))).mul
    (hc.sub (hc.inv₀ hne))).div_const 8)

theorem kernel_continuous_left (y : ℝ) : Continuous fun s => kernel s y := by
  unfold kernel
  exact (((continuous_const.sub continuous_id).max continuous_const).pow 2).div_const 2

theorem kernel_of_le (s y : ℝ) (h : s ≤ y) : kernel s y = (y - s) ^ 2 / 2 := by
  rw [kernel, max_eq_left (by linarith)]

theorem kernel_of_ge (s y : ℝ) (h : y ≤ s) : kernel s y = 0 := by
  rw [kernel, max_eq_right (by linarith)]
  norm_num

/-- Taylor's formula of order two with integral remainder, expanded at `a`. -/
theorem taylor_integralFunction (a y : ℝ) :
    integralFunction y
      = integralFunction a + integralFunctionDeriv a * (y - a)
        + integralFunctionDeriv2 a * ((y - a) ^ 2 / 2)
        + ∫ s in a..y, integralFunctionDeriv3 s * ((y - s) ^ 2 / 2) := by
  have hderiv : ∀ s ∈ Set.uIcc a y,
      HasDerivAt (fun s => integralFunction s + integralFunctionDeriv s * (y - s)
          + integralFunctionDeriv2 s * ((y - s) ^ 2 / 2))
        (integralFunctionDeriv3 s * ((y - s) ^ 2 / 2)) s := by
    intro s _
    have h0 := hasDerivAt_integralFunction s
    have h1 := hasDerivAt_integralFunctionDeriv s
    have h2 := hasDerivAt_integralFunctionDeriv2 s
    have hys : HasDerivAt (fun s : ℝ => y - s) (-1) s := by
      simpa using (hasDerivAt_id s).const_sub y
    have hsq : HasDerivAt (fun s : ℝ => (y - s) ^ 2 / 2) (-(y - s)) s := by
      have := (hys.pow 2).div_const 2
      convert this using 1
      simp
      ring
    have h := (h0.add (h1.mul hys)).add (h2.mul hsq)
    convert h using 1
    ring
  have hint : IntervalIntegrable (fun s => integralFunctionDeriv3 s * ((y - s) ^ 2 / 2))
      MeasureTheory.volume a y := by
    apply Continuous.intervalIntegrable
    exact integralFunctionDeriv3_continuous.mul (by fun_prop)
  have h := intervalIntegral.integral_eq_sub_of_hasDerivAt hderiv hint
  rw [h]
  simp

/-- The remainder as an integral over the whole interval against the kernel. -/
theorem remainder_eq_kernel (a b y : ℝ) (hay : a ≤ y) (hyb : y ≤ b) :
    ∫ s in a..b, integralFunctionDeriv3 s * kernel s y
      = ∫ s in a..y, integralFunctionDeriv3 s * ((y - s) ^ 2 / 2) := by
  have hc : Continuous fun s => integralFunctionDeriv3 s * kernel s y :=
    integralFunctionDeriv3_continuous.mul (kernel_continuous_left y)
  rw [← intervalIntegral.integral_add_adjacent_intervals (hc.intervalIntegrable a y)
    (hc.intervalIntegrable y b)]
  have h1 : ∫ s in a..y, integralFunctionDeriv3 s * kernel s y
      = ∫ s in a..y, integralFunctionDeriv3 s * ((y - s) ^ 2 / 2) := by
    apply intervalIntegral.integral_congr
    intro s hs
    rw [Set.uIcc_of_le hay] at hs
    simp only [kernel_of_le s y hs.2]
  have h2 : ∫ s in y..b, integralFunctionDeriv3 s * kernel s y = 0 := by
    have : ∫ s in y..b, integralFunctionDeriv3 s * kernel s y = ∫ _s in y..b, (0 : ℝ) := by
      apply intervalIntegral.integral_congr
      intro s hs
      rw [Set.uIcc_of_le hyb] at hs
      simp only [kernel_of_ge s y hs.1, mul_zero]
    rw [this]
    simp
  rw [h1, h2, add_zero]

/-- On `[a, b]` the integrand is an affine function, plus a kink at `a`, plus an integral
of kinks with nonnegative weights. -/
theorem integralFunction_eq_kinks (a b y : ℝ) (hay : a ≤ y) (hyb : y ≤ b) :
    integralFunction y
      = integralFunction a + integralFunctionDeriv a * (y - a)
        + integralFunctionDeriv2 a * kernel a y
        + ∫ s in a..b, integralFunctionDeriv3 s * kernel s y := by
  rw [remainder_eq_kernel a b y hay hyb, kernel_of_le a y hay]
  exact taylor_integralFunction a y

end Integral

/-! ## Refinement of the rule for the integrand -/

namespace Integral

open Finset

theorem trapezoids_congr (g1 g2 : ℝ → ℝ) (a H : ℝ) (hH : 0 ≤ H) (n : Nat)
    (h : ∀ y, a ≤ y → y ≤ a + (n : ℝ) * H → g1 y = g2 y) :
    trapezoids g1 a H n = trapezoids g2 a H n := by
  rw [trapezoids, trapezoids]
  congr 1
  apply Finset.sum_congr rfl
  intro j hj
  have hjn : (j : ℝ) + 1 ≤ (n : ℝ) := by
    have := Finset.mem_range.mp hj
    exact_mod_cast this
  have hj0 : (0 : ℝ) ≤ (j : ℝ) := Nat.cast_nonneg j
  have e1 : (j : ℝ) * H ≤ (n : ℝ) * H := mul_le_mul_of_nonneg_right (by linarith) hH
  have e2 : ((j : ℝ) + 1) * H ≤ (n : ℝ) * H := mul_le_mul_of_nonneg_right hjn hH
  have e3 : 0 ≤ (j : ℝ) * H := mul_nonneg hj0 hH
  have e4 : 0 ≤ ((j : ℝ) + 1) * H := mul_nonneg (by linarith) hH
  rw [h _ (by linarith) (by linarith), h _ (by linarith) (by linarith)]

theorem trapezoids_add_fun (g1 g2 : ℝ → ℝ) (a H : ℝ) (n : Nat) :
    trapezoids (fun y => g1 y + g2 y) a H n = trapezoids g1 a H n + trapezoids g2 a H n := by
  simp only [trapezoids, ← mul_add, ← Finset.sum_add_distrib]
  congr 1
  apply Finset.sum_congr rfl
  intro j _
  ring

theorem trapezoids_const_mul (c : ℝ) (g : ℝ → ℝ) (a H : ℝ) (n : Nat) :
    trapezoids (fun y => c * g y) a H n = c * trapezoids g a H n := by
  simp only [trapezoids, Finset.mul_sum]
  apply Finset.sum_congr rfl
  intro j _
  ring

theorem trapezoids_affine (c0 c1 a H : ℝ) (n : Nat) :
    trapezoids (fun y => c0 + c1 * (y - a)) a H n
      = (n : ℝ) * H * (c0 + c1 * ((n : ℝ) * H) / 2) := by
  have h := sum_affine_pairs c0 (c1 * H) n
  rw [trapezoids]
  have e : ∑ j ∈ range n, ((c0 + c1 * (a + (j : ℝ) * H - a))
        + (c0 + c1 * (a + ((j : ℝ) + 1) * H - a))) / 2
      = ∑ j ∈ range n, ((c0 + (j : ℝ) * (c1 * H)) + (c0 + ((j : ℝ) + 1) * (c1 * H))) / 2 := by
    apply Finset.sum_congr rfl
    intro j _
    ring
  rw [e, h]
  ring

theorem trapezoids_integral (w : ℝ → ℝ) (k : ℝ → ℝ → ℝ) (p q a H : ℝ) (n : Nat)
    (hk : ∀ y, Continuous fun s => w s * k s y) :
    trapezoids (fun y => ∫ s in p..q, w s * k s y) a H n
      = ∫ s in p..q, w s * trapezoids (k s) a H n := by
  have hI : ∀ y, IntervalIntegrable (fun s => w s * k s y) MeasureTheory.volume p q :=
    fun y => (hk y).intervalIntegrable p q
  have hfun : (fun s => w s * trapezoids (k s) a H n)
      = fun s => H * ∑ j ∈ range n,
          (w s * k s (a + (j : ℝ) * H) + w s * k s (a + ((j : ℝ) + 1) * H)) / 2 := by
    funext s
    rw [trapezoids, Finset.mul_sum, Finset.mul_sum, Finset.mul_sum]
    apply Finset.sum_congr rfl
    intro j _
    ring
  rw [hfun, intervalIntegral.integral_const_mul, intervalIntegral.integral_finset_sum]
  · rw [trapezoids]
    congr 1
    apply Finset.sum_congr rfl
    intro j _
    rw [intervalIntegral.integral_div, intervalIntegral.integral_add (hI _) (hI _)]
  · intro j _
    exact ((hI _).add (hI _)).div_const 2

/-- The rule applied to the integrand, split along Taylor's formula. -/
theorem trapezoids_integralFunction (a H : ℝ) (hH : 0 ≤ H) (n : Nat) :
    trapezoids integralFunction a H n
      = trapezoids (fun y => integralFunction a + integralFunctionDeriv a * (y - a)) a H n
        + integralFunctionDeriv2 a * trapezoids (kernel a) a H n
        + ∫ s in a..(a + (n : ℝ) * H), integralFunctionDeriv3 s * trapezoids (kernel s) a H n := by
  have hk : ∀ y, Continuous fun s => integralFunctionDeriv3 s * kernel s y :=
    fun y => integralFunctionDeriv3_continuous.mul (kernel_continuous_left y)
  rw [← trapezoids_integral integralFunctionDeriv3 kernel a (a + (n : ℝ) * H) a H n hk,
    ← trapezoids_const_mul, ← trapezoids_add_fun, ← trapezoids_add_fun]
  apply trapezoids_congr _ _ a H hH n
  intro y hay hyb
  exact integralFunction_eq_kinks a (a + (n : ℝ) * H) y hay hyb

theorem trapezoids_kernel_continuous (a H : ℝ) (n : Nat) :
    Continuous fun s => trapezoids (kernel s) a H n := by
  unfold trapezoids
  apply Continuous.mul continuous_const
  apply continuous_finset_sum
  intro j _
  exact ((kernel_continuous_left _).add (kernel_continuous_left _)).div_const 2

theorem step_mul_eq (L : ℝ) (m : Nat) : ((m : ℝ) + 1) * (L / ((m : ℝ) + 1)) = L := by
  have : ((m : ℝ) + 1) ≠ 0 := by positivity
  field_simp

/-- A finer rule gives a smaller value on a kink inside the interval. -/
theorem trapezoids_kernel_mono (a s L : ℝ) (m1 m2 : Nat) (h12 : m1 ≤ m2) (hL : 0 ≤ L)
    (has : a ≤ s) (hsb : s ≤ a + L) :
    trapezoids (kernel s) a (L / ((m2 : ℝ) + 1)) (m2 + 1)
      ≤ trapezoids (kernel s) a (L / ((m1 : ℝ) + 1)) (m1 + 1) := by
  have hH1 : 0 ≤ L / ((m1 : ℝ) + 1) := div_nonneg hL (by positivity)
  have hH2 : 0 ≤ L / ((m2 : ℝ) + 1) := div_nonneg hL (by positivity)
  have hle : L / ((m2 : ℝ) + 1) ≤ L / ((m1 : ℝ) + 1) := by
    apply div_le_div_of_nonneg_left hL (by positivity)
    have : (m1 : ℝ) ≤ (m2 : ℝ) := by exact_mod_cast h12
    linarith
  rw [trapezoids_kernel a s _ m1 has (by rw [step_mul_eq]; exact hsb),
    trapezoids_kernel a s _ m2 has (by rw [step_mul_eq]; exact hsb),
    step_mul_eq, step_mul_eq]
  have hσ : 0 ≤ a + L - s := by linarith
  have hext := truncSquares_extend (a + L - s) m1 m2 (L / ((m1 : ℝ) + 1)) hH1 h12
    (by rw [step_mul_eq]; linarith)
  have hmono := truncSquares_mono (a + L - s) hσ m2 _ _ hH2 hle
  rw [hext] at hmono
  linarith

/-- A finer rule gives a smaller value on the integrand: for `m1 ≤ m2` the rule with
`m2 + 1` trapezoids over `[a, a + L]` is at most the rule with `m1 + 1` trapezoids. -/
theorem trapezoids_integralFunction_mono (a L : ℝ) (hL : 0 ≤ L) (m1 m2 : Nat)
    (h12 : m1 ≤ m2) :
    trapezoids integralFunction a (L / ((m2 : ℝ) + 1)) (m2 + 1)
      ≤ trapezoids integralFunction a (L / ((m1 : ℝ) + 1)) (m1 + 1) := by
  have hH1 : 0 ≤ L / ((m1 : ℝ) + 1) := div_nonneg hL (by positivity)
  have hH2 : 0 ≤ L / ((m2 : ℝ) + 1) := div_nonneg hL (by positivity)
  rw [trapezoids_integralFunction a _ hH1 (m1 + 1),
    trapezoids_integralFunction a _ hH2 (m2 + 1), trapezoids_affine, trapezoids_affine]
  push_cast
  rw [step_mul_eq, step_mul_eq]
  have hkink := trapezoids_kernel_mono a a L m1 m2 h12 hL le_rfl (by linarith)
  have hkink2 := mul_le_mul_of_nonneg_left hkink (integralFunctionDeriv2_nonneg a)
  have hc : ∀ (H : ℝ) (n : Nat),
      Continuous fun s => integralFunctionDeriv3 s * trapezoids (kernel s) a H n :=
    fun H n => integralFunctionDeriv3_continuous.mul (trapezoids_kernel_continuous a H n)
  have hi2 : IntervalIntegrable
      (fun s => integralFunctionDeriv3 s * trapezoids (kernel s) a (L / ((m2 : ℝ) + 1)) (m2 + 1))
      MeasureTheory.volume a (a + L) := (hc _ _).intervalIntegrable a (a + L)
  have hi1 : IntervalIntegrable
      (fun s => integralFunctionDeriv3 s * trapezoids (kernel s) a (L / ((m1 : ℝ) + 1)) (m1 + 1))
      MeasureTheory.volume a (a + L) := (hc _ _).intervalIntegrable a (a + L)
  have hint := intervalIntegral.integral_mono_on (by linarith : a ≤ a + L) hi2 hi1
    (fun s hs => mul_le_mul_of_nonneg_left
      (trapezoids_kernel_mono a s L m1 m2 h12 hL hs.1 hs.2) (integralFunctionDeriv3_nonneg s))
  linarith

/-- The value of `calculateIntegral` as a rule of `m + 1` trapezoids, for `tn` dividing
`n = m + 1`. -/
theorem calculateIntegral_eq_trapezoids (a b tn : Int) (m : Nat) (htn : 1 ≤ tn)
    (hdvd : tn ∣ ((m + 1 : Nat) : Int)) (hfit : inIntRange (b - a) = true) :
    calculateIntegral integralFunction { a := a, b := b, n := ((m + 1 : Nat) : Int), tn := tn }
      = trapezoids integralFunction (a : ℝ) (((b : ℝ) - (a : ℝ)) / ((m : ℝ) + 1)) (m + 1) := by
  rw [calculateIntegral_eq_whole integralFunction a b _ tn (by omega) htn hdvd hfit,
    calculatePartialIntegral_eq_trapezoids integralFunction _ _ (m + 1) (by omega)]
  push_cast
  rfl

end Integral

/-! ## What the parser rejects -/

theorem takeWhile_isEmpty (cs : List Char) :
    (cs.takeWhile Char.isDigit).isEmpty
      = (match cs with
        | c :: _ => !c.isDigit
        | [] => true) := by
  cases cs with
  | nil => rfl
  | cons c rest =>
    cases hc : c.isDigit <;> simp [List.takeWhile, hc]

/-- The function `stoi` in closed form: rejected texts raise `std::invalid_argument` when
there is no leading number and `std::out_of_range` otherwise; all other texts yield
their leading number. -/
theorem stoi_eq (t : String) :
    stoi t
      = if noLeadingNumber t then Except.error (Error.invalidArgument "stoi")
        else if inIntRange (leadingValue t) then Except.ok (leadingValue t)
        else Except.error (Error.outOfRange "stoi") := by
  have hcore : ∀ (neg : Bool) (cs : List Char),
      (if (cs.takeWhile Char.isDigit).isEmpty = true then
          (Except.error (Error.invalidArgument "stoi") : Except Error Int)
        else
          if (if neg = true then -(digitsValue (cs.takeWhile Char.isDigit) : Int)
                else (digitsValue (cs.takeWhile Char.isDigit) : Int)) < -2147483648
              ∨ 2147483647 < (if neg = true then -(digitsValue (cs.takeWhile Char.isDigit) : Int)
                else (digitsValue (cs.takeWhile Char.isDigit) : Int)) then
            Except.error (Error.outOfRange "stoi")
          else
            Except.ok (if neg = true then -(digitsValue (cs.takeWhile Char.isDigit) : Int)
              else (digitsValue (cs.takeWhile Char.isDigit) : Int)))
        = if (match cs with
              | c :: _ => !c.isDigit
              | [] => true) = true then Except.error (Error.invalidArgument "stoi")
          else if (decide (-2147483648
                ≤ (if neg = true then -(digitsValue (cs.takeWhile Char.isDigit) : Int)
                    else (digitsValue (cs.takeWhile Char.isDigit) : Int)))
              && decide ((if neg = true then -(digitsValue (cs.takeWhile Char.isDigit) : Int)
                    else (digitsValue (cs.takeWhile Char.isDigit) : Int)) ≤ 2147483647)) = true
            then Except.ok (if neg = true then -(digitsValue (cs.takeWhile Char.isDigit) : Int)
              else (digitsValue (cs.takeWhile Char.isDigit) : Int))
          else Except.error (Error.outOfRange "stoi") := by
    intro neg cs
    rw [takeWhile_isEmpty cs]
    generalize (if neg = true then -(digitsValue (cs.takeWhile Char.isDigit) : Int)
      else (digitsValue (cs.takeWhile Char.isDigit) : Int)) = v
    by_cases h0 : (match cs with
        | c :: _ => !c.isDigit
        | [] => true) = true
    · rw [if_pos h0, if_pos h0]
    · rw [if_neg h0, if_neg h0]
      by_cases hr : v < -2147483648 ∨ 2147483647 < v
      · rw [if_pos hr, if_neg]
        simp only [Bool.and_eq_true, decide_eq_true_eq]
        omega
      · rw [if_neg hr, if_pos]
        simp only [Bool.and_eq_true, decide_eq_true_eq]
        omega
  unfold stoi noLeadingNumber afterSign leadingValue inIntRange
  simp only []
  generalize t.toList.dropWhile isSpace = cs
  rcases cs with _ | ⟨c, rest⟩
  · exact hcore false []
  · by_cases hm : c = '-'
    · subst hm
      exact hcore true rest
    · by_cases hp : c = '+'
      · subst hp
        exact hcore false rest
      · have e1 : (match c :: rest with
            | '-' :: r => (true, r)
            | '+' :: r => (false, r)
            | _ => (false, c :: rest)) = (false, c :: rest) := by
          split
          · rename_i r h; exact absurd (List.cons.inj h).1 hm
          · rename_i r h; exact absurd (List.cons.inj h).1 hp
          · rfl
        have e2 : (match c :: rest with
            | '-' :: r => r
            | '+' :: r => r
            | cs => cs) = c :: rest := by
          split
          · rename_i r h; exact absurd (List.cons.inj h).1 hm
          · rename_i r h; exact absurd (List.cons.inj h).1 hp
          · rfl
        have e3 : (match c :: rest with
            | '-' :: r => -(digitsValue (r.takeWhile Char.isDigit) : Int)
            | '+' :: r => (digitsValue (r.takeWhile Char.isDigit) : Int)
            | cs => (digitsValue (cs.takeWhile Char.isDigit) : Int))
            = (digitsValue ((c :: rest).takeWhile Char.isDigit) : Int) := by
          split
          · rename_i r h; exact absurd (List.cons.inj h).1 hm
          · rename_i r h; exact absurd (List.cons.inj h).1 hp
          · rfl
        simp only [e1, e2, e3]
        exact hcore false (c :: rest)

theorem stoi_unreadable (t : String) (h : unreadable t = true) :
    stoi t = Except.error (Error.invalidArgument "stoi")
      ∨ stoi t = Except.error (Error.outOfRange "stoi") := by
  rw [stoi_eq]
  unfold unreadable at h
  cases h1 : noLeadingNumber t
  · rw [h1] at h
    simp only [Bool.false_or, Bool.not_eq_true'] at h
    right
    simp [h]
  · left
    simp

theorem stoi_ok_iff (t : String) (v : Int) :
    stoi t = Except.ok v ↔ unreadable t = false ∧ v = leadingValue t := by
  rw [stoi_eq]
  unfold unreadable
  cases h1 : noLeadingNumber t <;> cases h2 : inIntRange (leadingValue t) <;> simp [eq_comm]

theorem stoi_total (t : String) :
    (unreadable t = false ∧ stoi t = Except.ok (leadingValue t))
      ∨ (unreadable t = true
          ∧ (stoi t = Except.error (Error.invalidArgument "stoi")
            ∨ stoi t = Except.error (Error.outOfRange "stoi"))) := by
  cases h : unreadable t
  · left
    exact ⟨rfl, (stoi_ok_iff t _).mpr ⟨h, rfl⟩⟩
  · right
    exact ⟨rfl, stoi_unreadable t h⟩

/-! ## Uneven division, orientation, and the lower bound `b - a` -/

namespace Integral

section Generic

open Finset

variable {K : Type} [Field K]

theorem workerResult_eq (f : K → K) (a b tn spt : Int) (r : K) (i : Int) :
    workerResult f a b tn spt r i
      = calculatePartialIntegral f (workerStart a r i) (workerEnd a b tn r i) spt := rfl

theorem tdiv_mul_self (n tn : Int) (hn : 0 ≤ n) (htn : 1 ≤ tn) :
    Int.tdiv (tn * (n / tn)) tn = Int.tdiv n tn := by
  have hq : 0 ≤ n / tn := Int.ediv_nonneg hn (by omega)
  rw [Int.tdiv_eq_ediv (mul_nonneg (by omega) hq) (by omega), Int.tdiv_eq_ediv hn (by omega),
    Int.mul_ediv_cancel_left _ (by omega)]

theorem one_le_ediv (n tn : Int) (htn : 1 ≤ tn) (hn : tn ≤ n) : 1 ≤ n / tn :=
  (Int.le_ediv_iff_mul_le (by omega)).mpr (by omega)

/-- The workers see `n` only through `n / tn`: rounding `n` down to a multiple of `tn`
changes nothing, whatever `a` and `b` are. -/
theorem calculateIntegral_same_quotient (f : K → K) (a b n tn : Int) (htn : 1 ≤ tn)
    (hn : tn ≤ n) :
    calculateIntegral f { a := a, b := b, n := n, tn := tn }
      = calculateIntegral f { a := a, b := b, n := tn * (n / tn), tn := tn } := by
  have hq := one_le_ediv n tn htn hn
  have hpos : 1 ≤ tn * (n / tn) := by
    have : 1 * 1 ≤ tn * (n / tn) := mul_le_mul htn hq (by omega) (by omega)
    omega
  rw [calculateIntegral_eq_sum f a b n tn (by omega) htn,
    calculateIntegral_eq_sum f a b (tn * (n / tn)) tn hpos htn,
    tdiv_mul_self n tn (by omega) htn]

/-- Whatever the remainder of `n` by `tn`, the workers compute the sequential rule with
`tn * (n / tn)` trapezoids, provided `b - a` fits in `int`. -/
theorem calculateIntegral_eq_truncated [CharZero K] (f : K → K) (a b n tn : Int)
    (htn : 1 ≤ tn) (hn : tn ≤ n) (hfit : inIntRange (b - a) = true) :
    calculateIntegral f { a := a, b := b, n := n, tn := tn }
      = calculatePartialIntegral f (a : K) (b : K) (tn * (n / tn)) := by
  have hq := one_le_ediv n tn htn hn
  have hpos : 1 ≤ tn * (n / tn) := by
    have : 1 * 1 ≤ tn * (n / tn) := mul_le_mul htn hq (by omega) (by omega)
    omega
  rw [calculateIntegral_same_quotient f a b n tn htn hn]
  exact calculateIntegral_eq_whole f a b _ tn hpos htn (Dvd.intro _ rfl) hfit

/-- The rule run from the right end with the opposite step is minus the rule. -/
theorem trapezoids_reverse (f : K → K) (x H : K) (m : Nat) :
    trapezoids f (x + (m : K) * H) (-H) m = -trapezoids f x H m := by
  rw [trapezoids, trapezoids, ← Finset.sum_range_reflect, neg_mul]
  congr 2
  apply Finset.sum_congr rfl
  intro j hj
  have hjm : j < m := Finset.mem_range.mp hj
  have hcast : ((m - 1 - j : Nat) : K) = (m : K) - 1 - (j : K) := by
    rw [Nat.sub_sub, Nat.cast_sub (by omega)]
    push_cast
    ring
  rw [hcast]
  have e1 : x + (m : K) * H + ((m : K) - 1 - (j : K)) * -H = x + ((j : K) + 1) * H := by ring
  have e2 : x + (m : K) * H + ((m : K) - 1 - (j : K) + 1) * -H = x + (j : K) * H := by ring
  rw [e1, e2, add_comm]

theorem calculatePartialIntegral_swap [CharZero K] (f : K → K) (s e : K) (m : Nat)
    (hm : 1 ≤ m) :
    calculatePartialIntegral f e s (m : Int) = -calculatePartialIntegral f s e (m : Int) := by
  have hne : (m : K) ≠ 0 := Nat.cast_ne_zero.mpr (by omega)
  rw [calculatePartialIntegral_eq_trapezoids f e s m hm,
    calculatePartialIntegral_eq_trapezoids f s e m hm, ← trapezoids_reverse]
  have e1 : s + (m : K) * ((e - s) / (m : K)) = e := by
    rw [mul_div_cancel₀ _ hne]; ring
  have e2 : -((e - s) / (m : K)) = (s - e) / (m : K) := by ring
  rw [e1, e2]

end Generic

end Integral

namespace Integral

open Finset

theorem trapezoids_ge_of_one_lt (g : ℝ → ℝ) (hg : ∀ y, 1 < g y) (x H : ℝ) (hH : 0 ≤ H)
    (m : Nat) : (m : ℝ) * H ≤ trapezoids g x H m := by
  have hsum : ∑ _j ∈ range m, (1 : ℝ)
      ≤ ∑ j ∈ range m, (g (x + (j : ℝ) * H) + g (x + ((j : ℝ) + 1) * H)) / 2 := by
    apply Finset.sum_le_sum
    intro j _
    linarith [hg (x + (j : ℝ) * H), hg (x + ((j : ℝ) + 1) * H)]
  rw [Finset.sum_const, Finset.card_range, nsmul_eq_mul, mul_one] at hsum
  calc (m : ℝ) * H = H * (m : ℝ) := by ring
    _ ≤ trapezoids g x H m := mul_le_mul_of_nonneg_left hsum hH

theorem trapezoids_gt_of_one_lt (g : ℝ → ℝ) (hg : ∀ y, 1 < g y) (x H : ℝ) (hH : 0 < H)
    (m : Nat) (hm : 1 ≤ m) : (m : ℝ) * H < trapezoids g x H m := by
  have hne : (range m).Nonempty := Finset.nonempty_range_iff.mpr (by omega)
  have hsum : ∑ _j ∈ range m, (1 : ℝ)
      < ∑ j ∈ range m, (g (x + (j : ℝ) * H) + g (x + ((j : ℝ) + 1) * H)) / 2 := by
    apply Finset.sum_lt_sum_of_nonempty hne
    intro j _
    linarith [hg (x + (j : ℝ) * H), hg (x + ((j : ℝ) + 1) * H)]
  rw [Finset.sum_const, Finset.card_range, nsmul_eq_mul, mul_one] at hsum
  calc (m : ℝ) * H = H * (m : ℝ) := by ring
    _ < trapezoids g x H m := mul_lt_mul_of_pos_left hsum hH

/-- For `n ≥ tn ≥ 1` and `b - a` within `int` the value is a rule of
`m + 1 = tn * (n / tn)` trapezoids over `[a, b]`. -/
theorem calculateIntegral_eq_trapezoids_truncated (a b n tn : Int) (htn : 1 ≤ tn)
    (hn : tn ≤ n) (hfit : inIntRange (b - a) = true) :
    ∃ m : Nat, ((m + 1 : Nat) : Int) = tn * (n / tn)
      ∧ calculateIntegral integralFunction { a := a, b := b, n := n, tn := tn }
        = trapezoids integralFunction (a : ℝ) (((b : ℝ) - (a : ℝ)) / ((m : ℝ) + 1)) (m + 1) := by
  have hq := one_le_ediv n tn htn hn
  have hpos : 1 ≤ tn * (n / tn) := by
    have : 1 * 1 ≤ tn * (n / tn) := mul_le_mul htn hq (by omega) (by omega)
    omega
  obtain ⟨m, hm⟩ : ∃ m : Nat, ((m + 1 : Nat) : Int) = tn * (n / tn) :=
    ⟨(tn * (n / tn) - 1).toNat, by omega⟩
  refine ⟨m, hm, ?_⟩
  rw [calculateIntegral_eq_truncated integralFunction a b n tn htn hn hfit, ← hm,
    calculatePartialIntegral_eq_trapezoids integralFunction _ _ _ (by omega)]
  push_cast
  rfl

end Integral

/-! ## The integrand far from the origin, and `b - a` beyond `int` -/

namespace Integral

theorem integralFunction_le_of_nonpos (x : ℝ) (hx : x ≤ 0) : integralFunction x ≤ 3 / 2 := by
  rw [integralFunction, Real.sqrt_le_iff]
  refine ⟨by norm_num, ?_⟩
  have : Real.exp x ≤ 1 := Real.exp_le_one_iff.mpr hx
  linarith

theorem integralFunction_zero_bounds :
    (7 / 5 : ℝ) ≤ integralFunction 0 ∧ integralFunction 0 ≤ 3 / 2 := by
  refine ⟨?_, integralFunction_le_of_nonpos 0 le_rfl⟩
  rw [integralFunction, Real.exp_zero]
  apply Real.le_sqrt_of_sq_le
  norm_num

/-- Far to the left the integrand is close to `1`: `f(-y) ≤ 1 + 1 / (2 * (1 + y))`. -/
theorem integralFunction_neg_le (y : ℝ) (hy : 0 ≤ y) :
    integralFunction (-y) ≤ 1 + 1 / (2 * (1 + y)) := by
  have hexp : Real.exp (-y) ≤ 1 / (1 + y) := by
    rw [Real.exp_neg, ← one_div]
    apply one_div_le_one_div_of_le (by linarith)
    linarith [Real.add_one_le_exp y]
  have hpos : 0 < 1 / (1 + y) := by positivity
  rw [integralFunction, Real.sqrt_le_iff]
  refine ⟨by positivity, ?_⟩
  have e : 1 / (2 * (1 + y)) = 1 / (1 + y) / 2 := by field_simp; ring
  rw [e]
  nlinarith [sq_nonneg (1 / (1 + y))]

theorem calculatePartialIntegral_two (s e : ℝ) :
    calculatePartialIntegral integralFunction s e 2
      = (e - s) / 2 * (0.5 * (integralFunction s + integralFunction e)
          + integralFunction (s + (e - s) / 2)) := by
  rw [calculatePartialIntegral_eq]
  have ht : ((2 : Int) - 1).toNat = 1 := rfl
  rw [ht]
  norm_num

/-- With one worker the program is the sequential rule, whatever `b - a` is: the range is
multiplied by `0` and the right end is `b`. -/
theorem calculateIntegral_one_worker (f : ℝ → ℝ) (a b n : Int) (hn : 1 ≤ n) :
    calculateIntegral f { a := a, b := b, n := n, tn := 1 }
      = calculatePartialIntegral f (a : ℝ) (b : ℝ) n := by
  have hguard : ¬ ((1 : Int) ≤ 0 ∨ n ≤ 0) := by omega
  simp only [calculateIntegral]
  rw [if_neg hguard]
  simp [workerLoop, workerStart, workerEnd, segmentsPerThread]

theorem inIntRange_of_le (a b : Int) (hab : a ≤ b) (hfit : b - a ≤ 2147483647) :
    inIntRange (b - a) = true := by
  simp only [inIntRange, Bool.and_eq_true, decide_eq_true_eq]
  omega

/-- The value of the program at `a = -2^31, b = 0, n = 2, tn = 2`, where `b - a` is `2^31`
and wraps to `-2^31`: worker `0` integrates from `-2^31` to `-3 * 2^30`, worker `1` from
`-3 * 2^30` to `0`. -/
theorem calculateIntegral_at_wrapped_range :
    calculateIntegral integralFunction { a := -2147483648, b := 0, n := 2, tn := 2 }
      = 536870912 * (3 * integralFunction 0 + 2 * integralFunction (-3221225472)
          - integralFunction (-2147483648)) := by
  rw [calculateIntegral_eq_sum _ _ _ _ _ (by decide) (by decide)]
  have hw : wrapInt (0 - -2147483648) = -2147483648 := by decide
  have hd : Int.tdiv 2 2 = 1 := by decide
  have ht : (2 : Int).toNat = 2 := rfl
  rw [hw, hd, ht]
  simp only [Finset.sum_range_succ, Finset.sum_range_zero, workerResult,
    workerStart, workerEnd, calculatePartialIntegral_eq]
  norm_num
  ring

/-- At `a = -2^31, b = 0, n = 2, tn = 2` the program does not compute the rule with two
trapezoids over `[a, b]`. -/
theorem calculateIntegral_at_wrapped_range_ne :
    calculateIntegral integralFunction { a := -2147483648, b := 0, n := 2, tn := 2 }
      ≠ calculatePartialIntegral integralFunction (-2147483648) 0 2 := by
  rw [calculateIntegral_at_wrapped_range, calculatePartialIntegral_two]
  have h1 := integralFunction_zero_bounds.1
  have h2 := one_lt_integralFunction (-3221225472)
  have h3 := integralFunction_neg_le 2147483648 (by norm_num)
  have h4 := integralFunction_neg_le 1073741824 (by norm_num)
  intro h
  norm_num at h h3 h4
  linarith

end Integral

namespace Integral

/-! ## The value when `b - a` wraps -/

theorem integralFunction_mono (x y : ℝ) (h : x ≤ y) : integralFunction x ≤ integralFunction y := by
  rw [integralFunction, integralFunction]
  apply Real.sqrt_le_sqrt
  have := Real.exp_le_exp.mpr h
  linarith

theorem integralFunction_sub_one_le (x : ℝ) : integralFunction x - 1 ≤ Real.exp x / 2 := by
  have hpos : 0 < Real.exp x := Real.exp_pos x
  have h : integralFunction x ≤ 1 + Real.exp x / 2 := by
    rw [integralFunction, Real.sqrt_le_iff]
    refine ⟨by positivity, ?_⟩
    nlinarith [sq_nonneg (Real.exp x)]
  linarith

/-- A rule whose nodes all give at most `M` is at most `m * H * M`. -/
theorem trapezoids_le_of_le (g : ℝ → ℝ) (M x H : ℝ) (hH : 0 ≤ H) (m : Nat)
    (h : ∀ j : Nat, j ≤ m → g (x + (j : ℝ) * H) ≤ M) :
    trapezoids g x H m ≤ (m : ℝ) * H * M := by
  have hsum : ∑ j ∈ Finset.range m, (g (x + (j : ℝ) * H) + g (x + ((j : ℝ) + 1) * H)) / 2
      ≤ ∑ _j ∈ Finset.range m, M := by
    apply Finset.sum_le_sum
    intro j hj
    have hjm : j < m := Finset.mem_range.mp hj
    have h1 := h j (by omega)
    have h2 := h (j + 1) (by omega)
    push_cast at h2
    linarith
  rw [Finset.sum_const, Finset.card_range, nsmul_eq_mul] at hsum
  calc trapezoids g x H m
      = H * ∑ j ∈ Finset.range m, (g (x + (j : ℝ) * H) + g (x + ((j : ℝ) + 1) * H)) / 2 := rfl
    _ ≤ H * ((m : ℝ) * M) := mul_le_mul_of_nonneg_left hsum hH
    _ = (m : ℝ) * H * M := by ring

/-- A worker that runs leftwards from `start ≤ A` over a width `ρ` contributes at least
`-ρ * f(A)`. -/
theorem calculatePartialIntegral_leftwards_ge (start A ρ : ℝ) (hA : start ≤ A) (hρ : 0 ≤ ρ)
    (m : Nat) (hm : 1 ≤ m) :
    -(ρ * integralFunction A)
      ≤ calculatePartialIntegral integralFunction start (start - ρ) (m : Int) := by
  have hmpos : (0 : ℝ) < (m : ℝ) := by exact_mod_cast hm
  rw [calculatePartialIntegral_swap integralFunction (start - ρ) start m hm,
    calculatePartialIntegral_eq_trapezoids integralFunction _ _ m hm, neg_le_neg_iff]
  have e : (start - (start - ρ)) / (m : ℝ) = ρ / (m : ℝ) := by ring
  rw [e]
  have hH : 0 ≤ ρ / (m : ℝ) := div_nonneg hρ hmpos.le
  have h := trapezoids_le_of_le integralFunction (integralFunction A) (start - ρ) (ρ / (m : ℝ))
    hH m (by
      intro j hj
      apply integralFunction_mono
      have hj' : (j : ℝ) ≤ (m : ℝ) := by exact_mod_cast hj
      have : (j : ℝ) * (ρ / (m : ℝ)) ≤ ρ := by
        calc (j : ℝ) * (ρ / (m : ℝ)) ≤ (m : ℝ) * (ρ / (m : ℝ)) :=
              mul_le_mul_of_nonneg_right hj' hH
          _ = ρ := by field_simp
      linarith)
  have e2 : (m : ℝ) * (ρ / (m : ℝ)) * integralFunction A = ρ * integralFunction A := by
    field_simp
  rw [e2] at h
  exact h

/-- The algebra of the second difference: with `p² = 1 + E u²`, `m² = 1 + E u`,
`q² = 1 + E` and `u ≤ 8/13`, `p + q - 2 m ≥ E / (32 q)`. -/
theorem second_difference_algebra (E u p q m : ℝ) (hE : 0 < E) (hu0 : 0 < u)
    (hu1 : u ≤ 8 / 13) (hp2 : p ^ 2 = 1 + E * u ^ 2) (hq2 : q ^ 2 = 1 + E)
    (hm2 : m ^ 2 = 1 + E * u) (hp1 : 1 < p) (hq1 : 1 < q) (hm1 : 1 < m) (hpq : p ≤ q)
    (hmq : m ≤ q) :
    E / (32 * q) ≤ p + q - 2 * m := by
  have hprod : m ^ 2 ≤ p * q := by
    have h0 : (1 + E * u ^ 2) * (1 + E) - (1 + E * u) ^ 2 = E * (1 - u) ^ 2 := by ring
    have h1 : (m ^ 2) ^ 2 ≤ (p * q) ^ 2 := by
      rw [mul_pow, hp2, hq2, hm2]
      have : 0 ≤ E * (1 - u) ^ 2 := by positivity
      linarith
    exact (pow_le_pow_iff_left₀ (by positivity) (by positivity) (by norm_num)).mp h1
  have h3 : (25 / 169 : ℝ) ≤ (1 - u) ^ 2 := by
    have h5 : (5 / 13 : ℝ) ≤ 1 - u := by linarith
    have := pow_le_pow_left₀ (by norm_num : (0 : ℝ) ≤ 5 / 13) h5 2
    norm_num at this
    linarith
  have hG : E / 8 ≤ (p + q - 2 * m) * (p + q + 2 * m) := by
    have h1 : (p + q - 2 * m) * (p + q + 2 * m)
        = p ^ 2 + q ^ 2 + 2 * (p * q) - 4 * m ^ 2 := by ring
    have h2 : p ^ 2 + q ^ 2 - 2 * m ^ 2 = E * (1 - u) ^ 2 := by
      rw [hp2, hq2, hm2]
      ring
    have h4 : E * (25 / 169) ≤ E * (1 - u) ^ 2 := mul_le_mul_of_nonneg_left h3 hE.le
    rw [h1]
    linarith
  have hden : 0 < p + q + 2 * m := by linarith
  have hden2 : p + q + 2 * m ≤ 4 * q := by linarith
  have hD : 0 ≤ p + q - 2 * m := by
    by_contra hneg
    push_neg at hneg
    have : (p + q - 2 * m) * (p + q + 2 * m) < 0 := mul_neg_of_neg_of_pos hneg hden
    linarith [div_pos hE (by norm_num : (0 : ℝ) < 8)]
  have h4 : (p + q - 2 * m) * (p + q + 2 * m) ≤ (p + q - 2 * m) * (4 * q) :=
    mul_le_mul_of_nonneg_left hden2 hD
  rw [div_le_iff₀ (by positivity)]
  linarith

/-- The second difference of the integrand over a cell of width `H ≥ 1` that ends at
`y`. -/
theorem second_difference_ge (y H : ℝ) (hH : 1 ≤ H) :
    Real.exp y / (32 * integralFunction y)
      ≤ integralFunction (y - H) + integralFunction y - 2 * integralFunction (y - H / 2) := by
  have hu1 : Real.exp (-(H / 2)) ≤ 8 / 13 := by
    have h1 : (13 / 8 : ℝ) ≤ Real.exp (1 / 2) := by
      have h := Real.quadratic_le_exp_of_nonneg (by norm_num : (0 : ℝ) ≤ 1 / 2)
      norm_num at h
      linarith
    have h2 : Real.exp (1 / 2) ≤ Real.exp (H / 2) := Real.exp_le_exp.mpr (by linarith)
    rw [Real.exp_neg, inv_le_comm₀ (Real.exp_pos _) (by norm_num)]
    norm_num
    linarith
  have e1 : Real.exp (y - H / 2) = Real.exp y * Real.exp (-(H / 2)) := by
    rw [← Real.exp_add]
    congr 1
  have e2 : Real.exp (y - H) = Real.exp y * Real.exp (-(H / 2)) ^ 2 := by
    rw [← Real.exp_nat_mul, ← Real.exp_add]
    congr 1
    push_cast
    ring
  exact second_difference_algebra (Real.exp y) (Real.exp (-(H / 2))) _ _ _
    (Real.exp_pos y) (Real.exp_pos _) hu1
    (by rw [integralFunction_sq, e2]) (integralFunction_sq y)
    (by rw [integralFunction_sq, e1])
    (one_lt_integralFunction _) (one_lt_integralFunction _) (one_lt_integralFunction _)
    (integralFunction_mono _ _ (by linarith)) (integralFunction_mono _ _ (by linarith))

/-- A rule with cells of width `H ≥ 1` exceeds the integral by at least the gain of its
last cell, `e^y / (128 f(y))` at the right end `y`. -/
theorem trapezoids_ge_integral_add (x H : ℝ) (hH : 1 ≤ H) (k : Nat) :
    (∫ t in x..(x + ((k : ℝ) + 1) * H), integralFunction t)
        + Real.exp (x + ((k : ℝ) + 1) * H) / (128 * integralFunction (x + ((k : ℝ) + 1) * H))
      ≤ trapezoids integralFunction x H (k + 1) := by
  have hH0 : 0 ≤ H := by linarith
  set z := x + (k : ℝ) * H with hz
  have hy : x + ((k : ℝ) + 1) * H = z + H := by rw [hz]; ring
  rw [hy, trapezoids_add]
  have h1 := integral_le_trapezoids integralFunction integralFunction_convex
    integralFunction_continuous x H hH0 k
  have h2 := integral_le_trapezoids integralFunction integralFunction_convex
    integralFunction_continuous z (H / 2) (by linarith) 2
  have hend : z + ((2 : Nat) : ℝ) * (H / 2) = z + H := by push_cast; ring
  rw [hend] at h2
  have hcell : trapezoids integralFunction z H 1
      = H * ((integralFunction z + integralFunction (z + H)) / 2) := by
    simp [trapezoids]
  have hhalf : trapezoids integralFunction z (H / 2) 2
      = H / 2 * ((integralFunction z + integralFunction (z + H / 2)) / 2
          + (integralFunction (z + H / 2) + integralFunction (z + H)) / 2) := by
    simp only [trapezoids, Finset.sum_range_succ, Finset.sum_range_zero]
    have e0 : z + ((0 : Nat) : ℝ) * (H / 2) = z := by push_cast; ring
    have e1 : z + (((0 : Nat) : ℝ) + 1) * (H / 2) = z + H / 2 := by push_cast; ring
    have e2 : z + ((1 : Nat) : ℝ) * (H / 2) = z + H / 2 := by push_cast; ring
    have e3 : z + (((1 : Nat) : ℝ) + 1) * (H / 2) = z + H := by push_cast; ring
    rw [e0, e1, e2, e3]
    ring
  have hD := second_difference_ge (z + H) H hH
  have ea : z + H - H = z := by ring
  have eb : z + H - H / 2 = z + H / 2 := by ring
  rw [ea, eb] at hD
  have hadd : (∫ t in x..z, integralFunction t) + (∫ t in z..(z + H), integralFunction t)
      = ∫ t in x..(z + H), integralFunction t :=
    intervalIntegral.integral_add_adjacent_intervals
      (integralFunction_continuous.intervalIntegrable _ _)
      (integralFunction_continuous.intervalIntegrable _ _)
  have hq : 0 < integralFunction (z + H) := by linarith [one_lt_integralFunction (z + H)]
  have hg : 0 ≤ Real.exp (z + H) / (32 * integralFunction (z + H)) := by positivity
  have hg2 : Real.exp (z + H) / (128 * integralFunction (z + H))
      = 1 / 4 * (Real.exp (z + H) / (32 * integralFunction (z + H))) := by
    field_simp
    ring
  have hmul : 1 / 4 * (Real.exp (z + H) / (32 * integralFunction (z + H)))
      ≤ H / 4 * (integralFunction z + integralFunction (z + H)
          - 2 * integralFunction (z + H / 2)) := by
    have : 1 / 4 * (Real.exp (z + H) / (32 * integralFunction (z + H)))
        ≤ H / 4 * (Real.exp (z + H) / (32 * integralFunction (z + H))) :=
      mul_le_mul_of_nonneg_right (by linarith) hg
    have h3 : H / 4 * (Real.exp (z + H) / (32 * integralFunction (z + H)))
        ≤ H / 4 * (integralFunction z + integralFunction (z + H)
          - 2 * integralFunction (z + H / 2)) :=
      mul_le_mul_of_nonneg_left hD (by linarith)
    linarith
  rw [hcell, ← hadd, hg2]
  rw [hhalf] at h2
  have hz2 : x + (k : ℝ) * H = z := rfl
  rw [hz2] at h1
  nlinarith

theorem sub_le_integral (x y : ℝ) (h : x ≤ y) :
    y - x ≤ ∫ t in x..y, integralFunction t := by
  have hm := midpoint_le_integral integralFunction integralFunction_convex
    integralFunction_continuous x (y - x) (by linarith)
  have e : x + (y - x) = y := by ring
  rw [e] at hm
  have h1 := one_lt_integralFunction (x + (y - x) / 2)
  have : (y - x) * 1 ≤ (y - x) * integralFunction (x + (y - x) / 2) :=
    mul_le_mul_of_nonneg_left h1.le (by linarith)
  linarith

theorem exp_two_pow_30_ge : (2 : ℝ) ^ 64 ≤ Real.exp (2 ^ 30) := by
  have h1 : (2 : ℝ) ≤ Real.exp (2 ^ 24) := by
    have := Real.add_one_le_exp ((2 : ℝ) ^ 24)
    have h2 : (1 : ℝ) ≤ 2 ^ 24 := one_le_pow₀ (by norm_num)
    linarith
  have h3 : Real.exp (2 ^ 30) = Real.exp (2 ^ 24) ^ 64 := by
    rw [← Real.exp_nat_mul]
    congr 1
    norm_num
  rw [h3]
  exact pow_le_pow_left₀ (by norm_num) h1 64

/-- When `y` lies at least `2^31` to the right of `x`, the gain of the last cell at `y`
exceeds `2^30 * e^x`. -/
theorem gain_gt (x y : ℝ) (h1 : x + 2 ^ 31 ≤ y) (h2 : y ≤ 2 ^ 31) :
    2 ^ 30 * Real.exp x < Real.exp y / (128 * integralFunction y) := by
  set Y := Real.exp (2 ^ 30) with hY
  have hY64 : (2 : ℝ) ^ 64 ≤ Y := exp_two_pow_30_ge
  have hYpos : 0 < Y := Real.exp_pos _
  have hexp31 : Real.exp (2 ^ 31) = Y * Y := by
    rw [hY, ← Real.exp_add]
    congr 1
    norm_num
  have hfy : integralFunction y ≤ 1 + Y := by
    have h := integralFunction_mono y (2 ^ 31) h2
    have h3 : integralFunction (2 ^ 31) ≤ 1 + Y := by
      rw [integralFunction, Real.sqrt_le_iff]
      refine ⟨by positivity, ?_⟩
      rw [hexp31]
      nlinarith
    linarith
  have hfy0 : 0 < integralFunction y := by linarith [one_lt_integralFunction y]
  have hx : Real.exp x * (Y * Y) ≤ Real.exp y := by
    rw [← hexp31, ← Real.exp_add]
    exact Real.exp_le_exp.mpr h1
  have hxpos : 0 < Real.exp x := Real.exp_pos x
  rw [lt_div_iff₀ (by positivity)]
  have hkey : (2 : ℝ) ^ 37 * (1 + Y) < Y * Y := by
    have h64 : (2 : ℝ) ^ 37 * 2 ≤ 2 ^ 64 := by norm_num
    nlinarith
  calc 2 ^ 30 * Real.exp x * (128 * integralFunction y)
      ≤ 2 ^ 30 * Real.exp x * (128 * (1 + Y)) := by
        apply mul_le_mul_of_nonneg_left _ (by positivity)
        linarith
    _ = Real.exp x * (2 ^ 37 * (1 + Y)) := by ring
    _ < Real.exp x * (Y * Y) := mul_lt_mul_of_pos_left hkey hxpos
    _ ≤ Real.exp y := hx

/-- The workers of a run whose range has wrapped: `k` workers step leftwards from `a` by
`ρ` each, the last one integrates from `a - k * ρ` to `b`. Their sum still exceeds the
integral over `[a, b]`. -/
theorem wrapped_sum_gt (a b ρ : ℝ) (k m : Nat) (hm : 1 ≤ m) (hm2 : (m : ℝ) ≤ 2 ^ 31)
    (hρ : 0 ≤ ρ) (hkρ : (k : ℝ) * ρ ≤ 2 ^ 31) (hab : a + 2 ^ 31 ≤ b) (hb : b ≤ 2 ^ 31) :
    ∫ t in a..b, integralFunction t
      < ∑ i ∈ Finset.range k,
            calculatePartialIntegral integralFunction (a + (i : ℝ) * -ρ)
              (a + (i : ℝ) * -ρ + -ρ) (m : Int)
          + calculatePartialIntegral integralFunction (a + (k : ℝ) * -ρ) b (m : Int) := by
  have hmpos : (0 : ℝ) < (m : ℝ) := by exact_mod_cast hm
  have hkρ0 : 0 ≤ (k : ℝ) * ρ := by positivity
  -- the leftward workers
  have hleft : -((k : ℝ) * ρ * integralFunction a)
      ≤ ∑ i ∈ Finset.range k,
          calculatePartialIntegral integralFunction (a + (i : ℝ) * -ρ)
            (a + (i : ℝ) * -ρ + -ρ) (m : Int) := by
    have hsum : ∑ _i ∈ Finset.range k, -(ρ * integralFunction a)
        ≤ ∑ i ∈ Finset.range k,
          calculatePartialIntegral integralFunction (a + (i : ℝ) * -ρ)
            (a + (i : ℝ) * -ρ + -ρ) (m : Int) := by
      apply Finset.sum_le_sum
      intro i _
      have hi : (0 : ℝ) ≤ (i : ℝ) * ρ := by positivity
      have h := calculatePartialIntegral_leftwards_ge (a + (i : ℝ) * -ρ) a ρ (by linarith) hρ
        m hm
      have e : a + (i : ℝ) * -ρ - ρ = a + (i : ℝ) * -ρ + -ρ := by ring
      rw [e] at h
      exact h
    rw [Finset.sum_const, Finset.card_range, nsmul_eq_mul] at hsum
    linarith
  -- the last worker
  obtain ⟨j, rfl⟩ : ∃ j, m = j + 1 := ⟨m - 1, by omega⟩
  set x := a + (k : ℝ) * -ρ with hx
  have hxa : x ≤ a := by rw [hx]; linarith
  have hL : (2 : ℝ) ^ 31 ≤ b - x := by linarith
  have hH : 1 ≤ (b - x) / ((j + 1 : Nat) : ℝ) := by
    rw [le_div_iff₀ hmpos]
    linarith
  have hlast := trapezoids_ge_integral_add x ((b - x) / ((j + 1 : Nat) : ℝ)) hH j
  have hend : x + ((j : ℝ) + 1) * ((b - x) / ((j + 1 : Nat) : ℝ)) = b := by
    push_cast
    field_simp
  rw [hend] at hlast
  rw [calculatePartialIntegral_eq_trapezoids integralFunction x b (j + 1) hm]
  have hsplit : (∫ t in x..a, integralFunction t) + (∫ t in a..b, integralFunction t)
      = ∫ t in x..b, integralFunction t :=
    intervalIntegral.integral_add_adjacent_intervals
      (integralFunction_continuous.intervalIntegrable _ _)
      (integralFunction_continuous.intervalIntegrable _ _)
  have hxa2 := sub_le_integral x a hxa
  have hax : a - x = (k : ℝ) * ρ := by rw [hx]; ring
  have hgain := gain_gt a b hab hb
  have hfa := integralFunction_sub_one_le a
  have hfa1 := one_lt_integralFunction a
  have hprod : (k : ℝ) * ρ * (integralFunction a - 1) ≤ 2 ^ 31 * (Real.exp a / 2) := by
    apply mul_le_mul hkρ hfa (by linarith) (by positivity)
  have e30 : (2 : ℝ) ^ 31 * (Real.exp a / 2) = 2 ^ 30 * Real.exp a := by ring
  rw [e30] at hprod
  rw [hax] at hxa2
  have hexpand : (k : ℝ) * ρ * (integralFunction a - 1)
      = (k : ℝ) * ρ * integralFunction a - (k : ℝ) * ρ := by ring
  linarith

/-- The value of the program when `b - a` overflows `int` and there are `k + 1 ≥ 2`
workers: with `ρ = (2^32 - (b - a)) / (k + 1)`, worker `i < k` integrates from `a - i ρ`
to `a - i ρ - ρ` and the last worker from `a - k ρ` to `b`. -/
theorem calculateIntegral_wrapped_eq (a b n : Int) (k m : Nat) (hn : 1 ≤ n)
    (hq : n / ((k + 1 : Nat) : Int) = (m : Int)) (hw : 2147483648 ≤ b - a)
    (hw2 : b - a ≤ 4294967295) :
    calculateIntegral integralFunction
        { a := a, b := b, n := n, tn := ((k + 1 : Nat) : Int) }
      = ∑ i ∈ Finset.range k,
            calculatePartialIntegral integralFunction
              ((a : ℝ) + (i : ℝ) * -((4294967296 - ((b : ℝ) - (a : ℝ))) / ((k : ℝ) + 1)))
              ((a : ℝ) + (i : ℝ) * -((4294967296 - ((b : ℝ) - (a : ℝ))) / ((k : ℝ) + 1))
                + -((4294967296 - ((b : ℝ) - (a : ℝ))) / ((k : ℝ) + 1))) (m : Int)
          + calculatePartialIntegral integralFunction
              ((a : ℝ) + (k : ℝ) * -((4294967296 - ((b : ℝ) - (a : ℝ))) / ((k : ℝ) + 1)))
              (b : ℝ) (m : Int) := by
  have hwrap : wrapInt (b - a) = b - a - 4294967296 := by
    unfold wrapInt
    omega
  have hdiv : Int.tdiv n ((k + 1 : Nat) : Int) = n / ((k + 1 : Nat) : Int) :=
    Int.tdiv_eq_ediv (by omega) (by omega)
  have hkpos : (0 : ℝ) < (k : ℝ) + 1 := by positivity
  set ρ : ℝ := (4294967296 - ((b : ℝ) - (a : ℝ))) / ((k : ℝ) + 1) with hρdef
  have hr : ((wrapInt (b - a) : Int) : ℝ) / ((((k + 1 : Nat) : Int)) : ℝ) = -ρ := by
    rw [hwrap, hρdef]
    push_cast
    field_simp
  rw [calculateIntegral_eq_sum integralFunction a b n _ hn (by omega), hr, hdiv, hq]
  have htoNat : (((k + 1 : Nat) : Int)).toNat = k + 1 := by omega
  rw [htoNat, Finset.sum_range_succ]
  have hlast : workerResult integralFunction a b ((k + 1 : Nat) : Int) (m : Int) (-ρ)
        ((k : Nat) : Int)
      = calculatePartialIntegral integralFunction ((a : ℝ) + (k : ℝ) * -ρ) (b : ℝ) (m : Int) := by
    have hi : ((k : Nat) : Int) = ((k + 1 : Nat) : Int) - 1 := by omega
    simp only [workerResult, workerStart, workerEnd, if_pos hi]
    push_cast
    rfl
  have hrest : ∑ i ∈ Finset.range k,
        workerResult integralFunction a b ((k + 1 : Nat) : Int) (m : Int) (-ρ) ((i : Nat) : Int)
      = ∑ i ∈ Finset.range k,
          calculatePartialIntegral integralFunction ((a : ℝ) + (i : ℝ) * -ρ)
            ((a : ℝ) + (i : ℝ) * -ρ + -ρ) (m : Int) := by
    apply Finset.sum_congr rfl
    intro i hi
    have hik : i < k := Finset.mem_range.mp hi
    have hne : ¬ ((i : Nat) : Int) = ((k + 1 : Nat) : Int) - 1 := by omega
    simp only [workerResult, workerStart, workerEnd, if_neg hne]
    push_cast
    rfl
  rw [hlast, hrest]

/-- The size of the steps of a run whose range has wrapped. -/
theorem wrapped_step_bounds (a b : Int) (k : Nat) (hk : 1 ≤ k) (hw : 2147483648 ≤ b - a)
    (hw2 : b - a ≤ 4294967295) :
    0 < (4294967296 - ((b : ℝ) - (a : ℝ))) / ((k : ℝ) + 1)
      ∧ (k : ℝ) * ((4294967296 - ((b : ℝ) - (a : ℝ))) / ((k : ℝ) + 1)) ≤ 2 ^ 31
      ∧ (k : ℝ) * ((4294967296 - ((b : ℝ) - (a : ℝ))) / ((k : ℝ) + 1)) ≤ (b : ℝ) - (a : ℝ)
      ∧ 2 * ((4294967296 - ((b : ℝ) - (a : ℝ))) / ((k : ℝ) + 1))
        ≤ (k : ℝ) * ((4294967296 - ((b : ℝ) - (a : ℝ))) / ((k : ℝ) + 1))
          + ((b : ℝ) - (a : ℝ)) := by
  have hwr : (2147483648 : ℝ) ≤ (b : ℝ) - (a : ℝ) := by exact_mod_cast hw
  have hwr2 : (b : ℝ) - (a : ℝ) ≤ 4294967295 := by exact_mod_cast hw2
  have hkr : (1 : ℝ) ≤ (k : ℝ) := by exact_mod_cast hk
  have hkpos : (0 : ℝ) < (k : ℝ) + 1 := by positivity
  set ρ : ℝ := (4294967296 - ((b : ℝ) - (a : ℝ))) / ((k : ℝ) + 1) with hρdef
  have hρ : 0 < ρ := div_pos (by linarith) hkpos
  have h2 : ((k : ℝ) + 1) * ρ = 4294967296 - ((b : ℝ) - (a : ℝ)) := by
    rw [hρdef]
    field_simp
  have h3 : ρ ≤ (k : ℝ) * ρ := by nlinarith
  refine ⟨hρ, ?_, ?_, ?_⟩
  · norm_num
    linarith
  · linarith
  · linarith

/-- When `b - a` overflows `int` and there are at least two workers, the value of the
program is still more than the integral over `[a, b]`. -/
theorem calculateIntegral_wrapped_gt_integral (a b n tn : Int) (ha : -2147483648 ≤ a)
    (hb : b ≤ 2147483647) (hw : 2147483648 ≤ b - a) (htn : 2 ≤ tn) (hn : tn ≤ n)
    (hn2 : n ≤ 2147483647) :
    ∫ t in (a : ℝ)..(b : ℝ), integralFunction t
      < calculateIntegral integralFunction { a := a, b := b, n := n, tn := tn } := by
  have hq1 := one_le_ediv n tn (by omega) hn
  have hq2 : n / tn ≤ n := Int.ediv_le_self _ (by omega)
  obtain ⟨k, rfl⟩ : ∃ k : Nat, tn = ((k + 1 : Nat) : Int) := ⟨(tn - 1).toNat, by omega⟩
  obtain ⟨m, hm⟩ : ∃ m : Nat, n / ((k + 1 : Nat) : Int) = (m : Int) :=
    ⟨(n / ((k + 1 : Nat) : Int)).toNat, by omega⟩
  have hk1 : 1 ≤ k := by omega
  have hm1 : 1 ≤ m := by omega
  have hmr : (m : ℝ) ≤ 2 ^ 31 := by
    have : (m : Int) ≤ 2147483648 := by omega
    have h2 : ((m : Int) : ℝ) ≤ 2147483648 := by exact_mod_cast this
    norm_num at h2 ⊢
    exact h2
  have har : (-2147483648 : ℝ) ≤ (a : ℝ) := by exact_mod_cast ha
  have hbr : (b : ℝ) ≤ 2147483647 := by exact_mod_cast hb
  have hwr : (2147483648 : ℝ) ≤ (b : ℝ) - (a : ℝ) := by exact_mod_cast hw
  obtain ⟨hρ, hkρ, _, _⟩ := wrapped_step_bounds a b k hk1 hw (by omega)
  rw [calculateIntegral_wrapped_eq a b n k m (by omega) hm hw (by omega)]
  exact wrapped_sum_gt (a : ℝ) (b : ℝ) _ k m hm1 hmr hρ.le hkρ
    (by norm_num; linarith) (by norm_num; linarith)

/-- A rule of `m + 1` trapezoids over `[a, b]`, `a ≤ b`, is at least the integral, at
least `b - a`, and more than `b - a` when `a < b`. -/
theorem trapezoids_ge_integral_and_width (a b : ℝ) (hab : a ≤ b) (m : Nat) :
    (∫ x in a..b, integralFunction x)
        ≤ trapezoids integralFunction a ((b - a) / ((m : ℝ) + 1)) (m + 1)
      ∧ b - a ≤ trapezoids integralFunction a ((b - a) / ((m : ℝ) + 1)) (m + 1)
      ∧ (a < b → b - a < trapezoids integralFunction a ((b - a) / ((m : ℝ) + 1)) (m + 1)) := by
  have hL : (0 : ℝ) ≤ b - a := by linarith
  have hH : (0 : ℝ) ≤ (b - a) / ((m : ℝ) + 1) := div_nonneg hL (by positivity)
  have hmul : ((m + 1 : Nat) : ℝ) * ((b - a) / ((m : ℝ) + 1)) = b - a := by
    push_cast
    exact step_mul_eq _ m
  refine ⟨?_, ?_, ?_⟩
  · have hI := integral_le_trapezoids integralFunction integralFunction_convex
      integralFunction_continuous a _ hH (m + 1)
    rw [hmul] at hI
    have hend : a + (b - a) = b := by ring
    rw [hend] at hI
    exact hI
  · have h := trapezoids_ge_of_one_lt integralFunction one_lt_integralFunction a _ hH (m + 1)
    rw [hmul] at h
    exact h
  · intro hlt
    have hHpos : (0 : ℝ) < (b - a) / ((m : ℝ) + 1) := div_pos (by linarith) (by positivity)
    have h := trapezoids_gt_of_one_lt integralFunction one_lt_integralFunction a _
      hHpos (m + 1) (by omega)
    rw [hmul] at h
    exact h

/-! ## Refinement when `b - a` wraps -/

/-- The cubic `θ (2θ - 1) (θ - 1)` on `[0, 1]`. -/
theorem abs_cubic_le (θ : ℝ) (h0 : 0 ≤ θ) (h1 : θ ≤ 1) :
    |θ * (2 * θ - 1) * (θ - 1)| ≤ 1 / 4 := by
  have hq : 0 ≤ θ * (1 - θ) := mul_nonneg h0 (by linarith)
  have hq4 : θ * (1 - θ) ≤ 1 / 4 := by nlinarith [sq_nonneg (θ - 1 / 2)]
  have hl : |2 * θ - 1| ≤ 1 := by
    rw [abs_le]
    constructor <;> linarith
  have e : θ * (2 * θ - 1) * (θ - 1) = -(θ * (1 - θ)) * (2 * θ - 1) := by ring
  rw [e, abs_mul, abs_neg, abs_of_nonneg hq]
  calc θ * (1 - θ) * |2 * θ - 1| ≤ 1 / 4 * 1 :=
        mul_le_mul hq4 hl (abs_nonneg _) (by norm_num)
    _ = 1 / 4 := by ring

/-- The rule of a kink at distance `d` from the right end, with `N` steps of width `H`
reaching it exactly: it is `d³/3 + d H²/6` up to `H³/24`. -/
theorem fullSquares_bounds (d H : ℝ) (hH : 0 < H) (N : Nat) (h1 : (N : ℝ) * H ≤ d)
    (h2 : d ≤ ((N : ℝ) + 1) * H) :
    |fullSquares d N H - (d ^ 3 / 3 + d * H ^ 2 / 6)| ≤ H ^ 3 / 24 := by
  set θ : ℝ := d / H - (N : ℝ) with hθ
  have hd : d = ((N : ℝ) + θ) * H := by
    rw [hθ]
    field_simp
    ring
  have hθ0 : 0 ≤ θ := by
    rw [hθ, sub_nonneg, le_div_iff₀ hH]
    exact h1
  have hθ1 : θ ≤ 1 := by
    rw [hθ, sub_le_iff_le_add, div_le_iff₀ hH]
    linarith
  have e : fullSquares d N H - (d ^ 3 / 3 + d * H ^ 2 / 6)
      = -(H ^ 3 / 6) * (θ * (2 * θ - 1) * (θ - 1)) := by
    rw [fullSquares_closed, hd]
    ring
  rw [e, abs_mul, abs_neg, abs_of_nonneg (by positivity)]
  calc H ^ 3 / 6 * |θ * (2 * θ - 1) * (θ - 1)| ≤ H ^ 3 / 6 * (1 / 4) :=
        mul_le_mul_of_nonneg_left (abs_cubic_le θ hθ0 hθ1) (by positivity)
    _ = H ^ 3 / 24 := by ring

/-- The rule of a kink at distance `d ≥ 0` from the right end, inside the interval
covered by `N + 1` steps of width `H`: it is `d³/3 + d H²/6` up to `H³/24`. -/
theorem truncSquares_bounds (d H : ℝ) (hd : 0 ≤ d) (hH : 0 < H) (N : Nat)
    (hN : d ≤ ((N : ℝ) + 1) * H) :
    |truncSquares d N H - (d ^ 3 / 3 + d * H ^ 2 / 6)| ≤ H ^ 3 / 24 := by
  induction N with
  | zero =>
    rw [truncSquares_eq_fullSquares d 0 H hH.le (by simpa using hd)]
    exact fullSquares_bounds d H hH 0 (by simpa using hd) hN
  | succ N ih =>
    rcases le_total d (((N : ℝ) + 1) * H) with hle | hge
    · rw [truncSquares_succ_of_le d N H hle]
      exact ih hle
    · have h1 : ((N + 1 : Nat) : ℝ) * H ≤ d := by push_cast; exact hge
      rw [truncSquares_eq_fullSquares d (N + 1) H hH.le h1]
      exact fullSquares_bounds d H hH (N + 1) h1 hN

/-- Between two different numbers of cells `s1 < s2` the squares of the steps differ by
more than their cubes: `9 (1/s1³ + 1/s2³) ≤ 16 (1/s1² - 1/s2²)`. -/
theorem steps_gap (s1 s2 : ℝ) (hs1 : 1 ≤ s1) (hs2 : s1 + 1 ≤ s2) :
    9 * ((1 / s1) ^ 3 + (1 / s2) ^ 3) ≤ 16 * ((1 / s1) ^ 2 - (1 / s2) ^ 2) := by
  have h1 : 0 < s1 := by linarith
  have h2 : 0 < s2 := by linarith
  set d := s2 - s1 with hd
  have hd1 : 1 ≤ d := by rw [hd]; linarith
  have hprod : 1 + d ≤ s1 * s2 := by
    have : s2 = s1 + d := by rw [hd]; ring
    rw [this]
    nlinarith
  have hcore : 0 ≤ s1 * s2 * (16 * d - 9) - 9 * d ^ 2 := by
    have h3 : (1 + d) * (16 * d - 9) ≤ s1 * s2 * (16 * d - 9) :=
      mul_le_mul_of_nonneg_right hprod (by linarith)
    nlinarith
  have hnum : 9 * (s1 ^ 3 + s2 ^ 3) ≤ 16 * (s1 * s2 * (s2 ^ 2 - s1 ^ 2)) := by
    have e : 16 * (s1 * s2 * (s2 ^ 2 - s1 ^ 2)) - 9 * (s1 ^ 3 + s2 ^ 3)
        = (s1 + s2) * (s1 * s2 * (16 * d - 9) - 9 * d ^ 2) := by
      rw [hd]
      ring
    have : 0 ≤ (s1 + s2) * (s1 * s2 * (16 * d - 9) - 9 * d ^ 2) :=
      mul_nonneg (by linarith) hcore
    linarith
  have e1 : 9 * ((1 / s1) ^ 3 + (1 / s2) ^ 3) = 9 * (s1 ^ 3 + s2 ^ 3) / (s1 ^ 3 * s2 ^ 3) := by
    field_simp
    ring
  have e2 : 16 * ((1 / s1) ^ 2 - (1 / s2) ^ 2)
      = 16 * (s1 * s2 * (s2 ^ 2 - s1 ^ 2)) / (s1 ^ 3 * s2 ^ 3) := by
    field_simp
    ring
  rw [e1, e2]
  exact div_le_div_of_nonneg_right hnum (by positivity)

/-- The rule of a kink at `σ` inside `[x, x + (m + 1) H]`: it is `d³/6 + d H²/12` up to
`H³/48`, where `d` is the distance of `σ` from the right end. -/
theorem trapezoids_kernel_bounds (x σ H : ℝ) (hH : 0 < H) (m : Nat) (hx : x ≤ σ)
    (hσ : σ ≤ x + ((m : ℝ) + 1) * H) :
    |trapezoids (kernel σ) x H (m + 1)
        - ((x + ((m : ℝ) + 1) * H - σ) ^ 3 / 6 + (x + ((m : ℝ) + 1) * H - σ) * H ^ 2 / 12)|
      ≤ H ^ 3 / 48 := by
  rw [trapezoids_kernel x σ H m hx hσ]
  have h := truncSquares_bounds (x + ((m : ℝ) + 1) * H - σ) H (by linarith) hH m (by linarith)
  rw [abs_le] at h ⊢
  constructor <;> linarith [h.1, h.2]

/-- The comparison behind `kernel_refinement_gap`, on the bounds of the four rules. -/
theorem refinement_gap_algebra (TL1 TL2 TR1 TR2 dR D L ρ u v : ℝ) (hρ : 0 ≤ ρ)
    (hρL : ρ ≤ L / 2) (hDL : L / 2 ≤ D) (hdR0 : 0 ≤ dR) (hu0 : 0 < u) (hv0 : 0 < v)
    (hgap : 9 * (u ^ 3 + v ^ 3) ≤ 16 * (u ^ 2 - v ^ 2))
    (hL1 : -((L * u) ^ 3 / 48)
      ≤ TL1 - ((dR + D) ^ 3 / 6 + (dR + D) * (L * u) ^ 2 / 12))
    (hL2 : TL2 - ((dR + D) ^ 3 / 6 + (dR + D) * (L * v) ^ 2 / 12) ≤ (L * v) ^ 3 / 48)
    (hR1 : TR1 - (dR ^ 3 / 6 + dR * (ρ * u) ^ 2 / 12) ≤ (ρ * u) ^ 3 / 48)
    (hR2 : -((ρ * v) ^ 3 / 48) ≤ TR2 - (dR ^ 3 / 6 + dR * (ρ * v) ^ 2 / 12)) :
    TR1 - TR2 ≤ TL1 - TL2 := by
  have hL0 : 0 ≤ L := by linarith
  have hP : 0 ≤ u ^ 2 - v ^ 2 := by
    have : 0 ≤ 9 * (u ^ 3 + v ^ 3) := by positivity
    linarith
  have hQ : 0 ≤ u ^ 3 + v ^ 3 := by positivity
  have hρ3 : ρ ^ 3 ≤ L ^ 3 / 8 := by
    have := pow_le_pow_left₀ hρ hρL 3
    calc ρ ^ 3 ≤ (L / 2) ^ 3 := this
      _ = L ^ 3 / 8 := by ring
  have hρ2 : ρ ^ 2 ≤ L ^ 2 := pow_le_pow_left₀ hρ (by linarith : ρ ≤ L) 2
  have h2 : dR * ρ ^ 2 ≤ dR * L ^ 2 := mul_le_mul_of_nonneg_left hρ2 hdR0
  have h3 : L / 2 * L ^ 2 ≤ D * L ^ 2 := mul_le_mul_of_nonneg_right hDL (by positivity)
  have h1 : L ^ 3 / 2 ≤ (dR + D) * L ^ 2 - dR * ρ ^ 2 := by
    have e : L / 2 * L ^ 2 = L ^ 3 / 2 := by ring
    have e2 : (dR + D) * L ^ 2 = dR * L ^ 2 + D * L ^ 2 := by ring
    rw [e] at h3
    rw [e2]
    linarith
  have h4 : (u ^ 3 + v ^ 3) * (L ^ 3 + ρ ^ 3) ≤ (u ^ 3 + v ^ 3) * (9 / 8 * L ^ 3) :=
    mul_le_mul_of_nonneg_left (by linarith) hQ
  have h5 : 9 * (u ^ 3 + v ^ 3) * (L ^ 3 / 8) ≤ 16 * (u ^ 2 - v ^ 2) * (L ^ 3 / 8) :=
    mul_le_mul_of_nonneg_right hgap (by positivity)
  have h6 : 4 * (u ^ 2 - v ^ 2) * (L ^ 3 / 2)
      ≤ 4 * (u ^ 2 - v ^ 2) * ((dR + D) * L ^ 2 - dR * ρ ^ 2) :=
    mul_le_mul_of_nonneg_left h1 (by linarith)
  have hmain : (u ^ 3 + v ^ 3) * (L ^ 3 + ρ ^ 3)
      ≤ 4 * (u ^ 2 - v ^ 2) * ((dR + D) * L ^ 2 - dR * ρ ^ 2) := by
    have e1 : (u ^ 3 + v ^ 3) * (9 / 8 * L ^ 3) = 9 * (u ^ 3 + v ^ 3) * (L ^ 3 / 8) := by ring
    have e2 : 16 * (u ^ 2 - v ^ 2) * (L ^ 3 / 8) = 4 * (u ^ 2 - v ^ 2) * (L ^ 3 / 2) := by ring
    linarith
  have hfin : TL1 - TL2 - (TR1 - TR2)
      ≥ (4 * (u ^ 2 - v ^ 2) * ((dR + D) * L ^ 2 - dR * ρ ^ 2)
          - (u ^ 3 + v ^ 3) * (L ^ 3 + ρ ^ 3)) / 48 := by
    have e : (4 * (u ^ 2 - v ^ 2) * ((dR + D) * L ^ 2 - dR * ρ ^ 2)
          - (u ^ 3 + v ^ 3) * (L ^ 3 + ρ ^ 3)) / 48
        = ((dR + D) ^ 3 / 6 + (dR + D) * (L * u) ^ 2 / 12 - (L * u) ^ 3 / 48)
          - ((dR + D) ^ 3 / 6 + (dR + D) * (L * v) ^ 2 / 12 + (L * v) ^ 3 / 48)
          - ((dR ^ 3 / 6 + dR * (ρ * u) ^ 2 / 12 + (ρ * u) ^ 3 / 48)
            - (dR ^ 3 / 6 + dR * (ρ * v) ^ 2 / 12 - (ρ * v) ^ 3 / 48)) := by ring
    rw [e]
    linarith
  linarith

/-- A kink at `σ` to the left of `a = x + k ρ`: refining the rule of the last worker over
`[x, a + D]` lowers its value at least as much as refining the rules of the `k` workers
of width `ρ` over `[x, a]`, when `D ≥ k ρ`. -/
theorem kernel_refinement_gap (x σ ρ D : ℝ) (k m1 m2 : Nat) (hk : 1 ≤ k) (h12 : m1 < m2)
    (hρ : 0 < ρ) (hx : x ≤ σ) (hσ : σ ≤ x + (k : ℝ) * ρ) (hD : (k : ℝ) * ρ ≤ D)
    (hρD : 2 * ρ ≤ (k : ℝ) * ρ + D) :
    trapezoids (kernel σ) x (ρ / ((m1 : ℝ) + 1)) (k * (m1 + 1))
        - trapezoids (kernel σ) x (ρ / ((m2 : ℝ) + 1)) (k * (m2 + 1))
      ≤ trapezoids (kernel σ) x (((k : ℝ) * ρ + D) / ((m1 : ℝ) + 1)) (m1 + 1)
        - trapezoids (kernel σ) x (((k : ℝ) * ρ + D) / ((m2 : ℝ) + 1)) (m2 + 1) := by
  set L := (k : ℝ) * ρ + D with hL
  have hkr : (1 : ℝ) ≤ (k : ℝ) := by exact_mod_cast hk
  have hLpos : 0 < L := by rw [hL]; nlinarith
  have hs1 : (0 : ℝ) < (m1 : ℝ) + 1 := by positivity
  have hs2 : (0 : ℝ) < (m2 : ℝ) + 1 := by positivity
  -- the four rules, each written with `n + 1` cells
  have hcells : ∀ m : Nat, ∃ n : Nat, k * (m + 1) = n + 1
      ∧ ((n : ℝ) + 1) * (ρ / ((m : ℝ) + 1)) = (k : ℝ) * ρ := by
    intro m
    refine ⟨k * (m + 1) - 1, ?_, ?_⟩
    · have : 1 ≤ k * (m + 1) := Nat.mul_pos hk (by omega)
      omega
    · have h1 : 1 ≤ k * (m + 1) := Nat.mul_pos hk (by omega)
      have h2 : ((k * (m + 1) - 1 : Nat) : ℝ) + 1 = (k : ℝ) * ((m : ℝ) + 1) := by
        rw [Nat.cast_sub h1]
        push_cast
        ring
      rw [h2]
      field_simp
      ring
  obtain ⟨n1, hn1, he1⟩ := hcells m1
  obtain ⟨n2, hn2, he2⟩ := hcells m2
  have hR1 := trapezoids_kernel_bounds x σ (ρ / ((m1 : ℝ) + 1)) (div_pos hρ hs1) n1 hx
    (by rw [he1]; exact hσ)
  have hR2 := trapezoids_kernel_bounds x σ (ρ / ((m2 : ℝ) + 1)) (div_pos hρ hs2) n2 hx
    (by rw [he2]; exact hσ)
  have hL1 := trapezoids_kernel_bounds x σ (L / ((m1 : ℝ) + 1)) (div_pos hLpos hs1) m1 hx
    (by rw [step_mul_eq]; linarith)
  have hL2 := trapezoids_kernel_bounds x σ (L / ((m2 : ℝ) + 1)) (div_pos hLpos hs2) m2 hx
    (by rw [step_mul_eq]; linarith)
  rw [he1] at hR1
  rw [he2] at hR2
  rw [step_mul_eq] at hL1 hL2
  rw [hn1, hn2]
  rw [abs_le] at hR1 hR2 hL1 hL2
  -- the steps
  set u := 1 / ((m1 : ℝ) + 1) with hu
  set v := 1 / ((m2 : ℝ) + 1) with hv
  have eu : ∀ c : ℝ, c / ((m1 : ℝ) + 1) = c * u := fun c => by rw [hu]; ring
  have ev : ∀ c : ℝ, c / ((m2 : ℝ) + 1) = c * v := fun c => by rw [hv]; ring
  simp only [eu] at hR1 hL1 ⊢
  simp only [ev] at hR2 hL2 ⊢
  have hgap := steps_gap ((m1 : ℝ) + 1) ((m2 : ℝ) + 1) (by linarith [Nat.cast_nonneg (α := ℝ) m1])
    (by
      have : (m1 : ℝ) + 1 ≤ (m2 : ℝ) := by exact_mod_cast h12
      linarith)
  rw [← hu, ← hv] at hgap
  have hu0 : 0 < u := by rw [hu]; positivity
  have hv0 : 0 < v := by rw [hv]; positivity
  have hdL : x + L - σ = x + (k : ℝ) * ρ - σ + D := by rw [hL]; ring
  rw [hdL] at hL1 hL2
  exact refinement_gap_algebra _ _ _ _ (x + (k : ℝ) * ρ - σ) D L ρ u v hρ.le
    (by rw [hL]; linarith) (by rw [hL]; linarith) (by linarith) hu0 hv0 hgap
    hL1.1 hL2.2 hR1.2 hR2.1

/-- The workers of a run whose range has wrapped, as two rules that start at
`x = a - k ρ`: the last worker's rule over `[x, a + D]` minus the rule over `[x, a]` of the
`k` workers that run leftwards. -/
theorem wrapped_sum_eq (a ρ D : ℝ) (k m : Nat) :
    ∑ i ∈ Finset.range k,
          calculatePartialIntegral integralFunction (a + (i : ℝ) * -ρ)
            (a + (i : ℝ) * -ρ + -ρ) ((m + 1 : Nat) : Int)
        + calculatePartialIntegral integralFunction (a + (k : ℝ) * -ρ) (a + D)
            ((m + 1 : Nat) : Int)
      = trapezoids integralFunction (a + (k : ℝ) * -ρ) (((k : ℝ) * ρ + D) / ((m : ℝ) + 1))
          (m + 1)
        - trapezoids integralFunction (a + (k : ℝ) * -ρ) (ρ / ((m : ℝ) + 1)) (k * (m + 1)) := by
  have hm : (0 : ℝ) < (m : ℝ) + 1 := by positivity
  have hlast : calculatePartialIntegral integralFunction (a + (k : ℝ) * -ρ) (a + D)
        ((m + 1 : Nat) : Int)
      = trapezoids integralFunction (a + (k : ℝ) * -ρ) (((k : ℝ) * ρ + D) / ((m : ℝ) + 1))
          (m + 1) := by
    rw [calculatePartialIntegral_eq_trapezoids integralFunction _ _ (m + 1) (by omega)]
    congr 1
    push_cast
    ring
  have hrest : ∑ i ∈ Finset.range k,
        calculatePartialIntegral integralFunction (a + (i : ℝ) * -ρ)
          (a + (i : ℝ) * -ρ + -ρ) ((m + 1 : Nat) : Int)
      = -trapezoids integralFunction (a + (k : ℝ) * -ρ) (ρ / ((m : ℝ) + 1)) (k * (m + 1)) := by
    rw [← sum_trapezoids integralFunction (a + (k : ℝ) * -ρ) (ρ / ((m : ℝ) + 1)) (m + 1) k,
      ← Finset.sum_range_reflect, ← Finset.sum_neg_distrib]
    apply Finset.sum_congr rfl
    intro j hj
    have hjk : j < k := Finset.mem_range.mp hj
    have hcast : ((k - 1 - j : Nat) : ℝ) = (k : ℝ) - 1 - (j : ℝ) := by
      rw [Nat.sub_sub, Nat.cast_sub (by omega)]
      push_cast
      ring
    rw [calculatePartialIntegral_swap integralFunction (a + ((k - 1 - j : Nat) : ℝ) * -ρ + -ρ)
        (a + ((k - 1 - j : Nat) : ℝ) * -ρ) (m + 1) (by omega),
      calculatePartialIntegral_eq_trapezoids integralFunction _ _ (m + 1) (by omega), hcast]
    congr 2
    · push_cast
      field_simp
      ring
    · push_cast
      ring
  rw [hlast, hrest]
  ring

/-- With more cells per worker the value of a run whose range has wrapped does not go
up: the last worker's rule over `[x, x + k ρ + D]` loses at least what the leftward
workers' rules over `[x, x + k ρ]` lose, kink by kink. -/
theorem wrapped_rules_antitone (x ρ D : ℝ) (k m1 m2 : Nat) (hk : 1 ≤ k) (h12 : m1 < m2)
    (hρ : 0 < ρ) (hD : (k : ℝ) * ρ ≤ D) (hρD : 2 * ρ ≤ (k : ℝ) * ρ + D) :
    trapezoids integralFunction x (((k : ℝ) * ρ + D) / ((m2 : ℝ) + 1)) (m2 + 1)
        - trapezoids integralFunction x (ρ / ((m2 : ℝ) + 1)) (k * (m2 + 1))
      ≤ trapezoids integralFunction x (((k : ℝ) * ρ + D) / ((m1 : ℝ) + 1)) (m1 + 1)
        - trapezoids integralFunction x (ρ / ((m1 : ℝ) + 1)) (k * (m1 + 1)) := by
  have hkr : (1 : ℝ) ≤ (k : ℝ) := by exact_mod_cast hk
  have hR0 : 0 ≤ (k : ℝ) * ρ := by positivity
  have hL0 : 0 ≤ (k : ℝ) * ρ + D := by linarith
  have hc : ∀ (H : ℝ) (n : Nat),
      Continuous fun s => integralFunctionDeriv3 s * trapezoids (kernel s) x H n :=
    fun H n => integralFunctionDeriv3_continuous.mul (trapezoids_kernel_continuous x H n)
  -- the two rules along Taylor's formula
  have hTL : ∀ m : Nat,
      trapezoids integralFunction x (((k : ℝ) * ρ + D) / ((m : ℝ) + 1)) (m + 1)
        = ((k : ℝ) * ρ + D) * (integralFunction x
            + integralFunctionDeriv x * ((k : ℝ) * ρ + D) / 2)
          + integralFunctionDeriv2 x
              * trapezoids (kernel x) x (((k : ℝ) * ρ + D) / ((m : ℝ) + 1)) (m + 1)
          + ∫ s in x..(x + ((k : ℝ) * ρ + D)), integralFunctionDeriv3 s
              * trapezoids (kernel s) x (((k : ℝ) * ρ + D) / ((m : ℝ) + 1)) (m + 1) := by
    intro m
    have hH : 0 ≤ ((k : ℝ) * ρ + D) / ((m : ℝ) + 1) := div_nonneg hL0 (by positivity)
    rw [trapezoids_integralFunction x _ hH (m + 1), trapezoids_affine]
    push_cast
    rw [step_mul_eq]
  have hTR : ∀ m : Nat,
      trapezoids integralFunction x (ρ / ((m : ℝ) + 1)) (k * (m + 1))
        = ((k : ℝ) * ρ) * (integralFunction x + integralFunctionDeriv x * ((k : ℝ) * ρ) / 2)
          + integralFunctionDeriv2 x
              * trapezoids (kernel x) x (ρ / ((m : ℝ) + 1)) (k * (m + 1))
          + ∫ s in x..(x + (k : ℝ) * ρ), integralFunctionDeriv3 s
              * trapezoids (kernel s) x (ρ / ((m : ℝ) + 1)) (k * (m + 1)) := by
    intro m
    have hH : 0 ≤ ρ / ((m : ℝ) + 1) := div_nonneg hρ.le (by positivity)
    have e : ((k * (m + 1) : Nat) : ℝ) * (ρ / ((m : ℝ) + 1)) = (k : ℝ) * ρ := by
      push_cast
      field_simp
      ring
    rw [trapezoids_integralFunction x _ hH (k * (m + 1)), trapezoids_affine, e]
  rw [hTL m1, hTL m2, hTR m1, hTR m2]
  -- the kink at `x`
  have hkink := kernel_refinement_gap x x ρ D k m1 m2 hk h12 hρ le_rfl (by linarith) hD hρD
  have hkink2 := mul_le_mul_of_nonneg_left hkink (integralFunctionDeriv2_nonneg x)
  have hI : ∀ (H : ℝ) (n : Nat) (p q : ℝ),
      IntervalIntegrable (fun s => integralFunctionDeriv3 s * trapezoids (kernel s) x H n)
        MeasureTheory.volume p q :=
    fun H n p q => (hc H n).intervalIntegrable p q
  -- the kinks to the right of `a = x + k ρ`
  have hright : (∫ s in (x + (k : ℝ) * ρ)..(x + ((k : ℝ) * ρ + D)), integralFunctionDeriv3 s
          * trapezoids (kernel s) x (((k : ℝ) * ρ + D) / ((m2 : ℝ) + 1)) (m2 + 1))
      ≤ ∫ s in (x + (k : ℝ) * ρ)..(x + ((k : ℝ) * ρ + D)), integralFunctionDeriv3 s
          * trapezoids (kernel s) x (((k : ℝ) * ρ + D) / ((m1 : ℝ) + 1)) (m1 + 1) :=
    intervalIntegral.integral_mono_on
      (by linarith : x + (k : ℝ) * ρ ≤ x + ((k : ℝ) * ρ + D)) (hI _ _ _ _) (hI _ _ _ _)
      (fun s hs => mul_le_mul_of_nonneg_left
        (trapezoids_kernel_mono x s ((k : ℝ) * ρ + D) m1 m2 h12.le hL0 (by linarith [hs.1])
          hs.2)
        (integralFunctionDeriv3_nonneg s))
  -- the kinks between `x` and `a`
  have hleft : (∫ s in x..(x + (k : ℝ) * ρ),
        (integralFunctionDeriv3 s * trapezoids (kernel s) x (ρ / ((m1 : ℝ) + 1)) (k * (m1 + 1))
          + integralFunctionDeriv3 s
            * trapezoids (kernel s) x (((k : ℝ) * ρ + D) / ((m2 : ℝ) + 1)) (m2 + 1)))
      ≤ ∫ s in x..(x + (k : ℝ) * ρ),
        (integralFunctionDeriv3 s
            * trapezoids (kernel s) x (((k : ℝ) * ρ + D) / ((m1 : ℝ) + 1)) (m1 + 1)
          + integralFunctionDeriv3 s
            * trapezoids (kernel s) x (ρ / ((m2 : ℝ) + 1)) (k * (m2 + 1))) :=
    intervalIntegral.integral_mono_on (by linarith : x ≤ x + (k : ℝ) * ρ)
      ((hI _ _ _ _).add (hI _ _ _ _)) ((hI _ _ _ _).add (hI _ _ _ _))
      (fun s hs => by
        have h := mul_le_mul_of_nonneg_left
          (kernel_refinement_gap x s ρ D k m1 m2 hk h12 hρ hs.1 hs.2 hD hρD)
          (integralFunctionDeriv3_nonneg s)
        simp only [mul_sub] at h
        linarith)
  rw [intervalIntegral.integral_add (hI _ _ _ _) (hI _ _ _ _),
    intervalIntegral.integral_add (hI _ _ _ _) (hI _ _ _ _)] at hleft
  have hsplit : ∀ m : Nat,
      (∫ s in x..(x + ((k : ℝ) * ρ + D)), integralFunctionDeriv3 s
          * trapezoids (kernel s) x (((k : ℝ) * ρ + D) / ((m : ℝ) + 1)) (m + 1))
        = (∫ s in x..(x + (k : ℝ) * ρ), integralFunctionDeriv3 s
            * trapezoids (kernel s) x (((k : ℝ) * ρ + D) / ((m : ℝ) + 1)) (m + 1))
          + ∫ s in (x + (k : ℝ) * ρ)..(x + ((k : ℝ) * ρ + D)), integralFunctionDeriv3 s
            * trapezoids (kernel s) x (((k : ℝ) * ρ + D) / ((m : ℝ) + 1)) (m + 1) := by
    intro m
    exact (intervalIntegral.integral_add_adjacent_intervals (hI _ _ _ _) (hI _ _ _ _)).symm
  rw [hsplit m1, hsplit m2]
  simp only [mul_sub] at hkink2
  linarith

/-- When `b - a` overflows `int` and there are at least two workers, more segments do not
raise the value of the program. -/
theorem calculateIntegral_wrapped_antitone (a b tn n1 n2 : Int) (hw : 2147483648 ≤ b - a)
    (hw2 : b - a ≤ 4294967295) (htn : 2 ≤ tn) (hn1 : 1 ≤ n1) (h12 : n1 < n2)
    (hd1 : tn ∣ n1) (hd2 : tn ∣ n2) :
    calculateIntegral integralFunction { a := a, b := b, n := n2, tn := tn }
      ≤ calculateIntegral integralFunction { a := a, b := b, n := n1, tn := tn } := by
  obtain ⟨k, rfl⟩ : ∃ k : Nat, tn = ((k + 1 : Nat) : Int) := ⟨(tn - 1).toNat, by omega⟩
  have hk1 : 1 ≤ k := by omega
  obtain ⟨q1, rfl⟩ := hd1
  obtain ⟨q2, rfl⟩ := hd2
  have htpos : (0 : Int) < ((k + 1 : Nat) : Int) := by omega
  have hq1 : 1 ≤ q1 := by
    by_contra h
    have : ((k + 1 : Nat) : Int) * q1 ≤ 0 :=
      mul_nonpos_of_nonneg_of_nonpos (by omega) (by omega)
    omega
  have hq12 : q1 < q2 := lt_of_mul_lt_mul_left h12 (by omega)
  obtain ⟨m1, rfl⟩ : ∃ m : Nat, q1 = ((m + 1 : Nat) : Int) := ⟨(q1 - 1).toNat, by omega⟩
  obtain ⟨m2, rfl⟩ : ∃ m : Nat, q2 = ((m + 1 : Nat) : Int) := ⟨(q2 - 1).toNat, by omega⟩
  have hm12 : m1 < m2 := by omega
  obtain ⟨hρ, _, hD, hρD⟩ := wrapped_step_bounds a b k hk1 hw hw2
  have hb : (b : ℝ) = (a : ℝ) + ((b : ℝ) - (a : ℝ)) := by ring
  rw [calculateIntegral_wrapped_eq a b _ k (m1 + 1) hn1
      (Int.mul_ediv_cancel_left _ (by omega)) hw hw2,
    calculateIntegral_wrapped_eq a b _ k (m2 + 1) (by omega)
      (Int.mul_ediv_cancel_left _ (by omega)) hw hw2]
  set ρ : ℝ := (4294967296 - ((b : ℝ) - (a : ℝ))) / ((k : ℝ) + 1) with hρdef
  have e1 := wrapped_sum_eq (a : ℝ) ρ ((b : ℝ) - (a : ℝ)) k m1
  have e2 := wrapped_sum_eq (a : ℝ) ρ ((b : ℝ) - (a : ℝ)) k m2
  rw [← hb] at e1 e2
  rw [e1, e2]
  exact wrapped_rules_antitone _ ρ _ k m1 m2 hk1 hm12 hρ hD hρD

end Integral

/-! ## `double` up to rounding: infinities and NaN -/

namespace Dbl

theorem lt_overflowThreshold : (2 : ℝ) ^ 1023 + 1 < overflowThreshold := by
  unfold overflowThreshold
  norm_num

/-- A real result of moderate size is represented by itself. -/
theorem ofReal_eq_fin (x : ℝ) (h1 : -((2 : ℝ) ^ 1023 + 1) ≤ x) (h2 : x ≤ 2 ^ 1023 + 1) :
    ofReal x = fin x := by
  have h := lt_overflowThreshold
  unfold ofReal
  rw [if_neg (not_le.mpr (by linarith)), if_neg (not_le.mpr (by linarith))]

theorem ofReal_zero : ofReal 0 = fin 0 :=
  ofReal_eq_fin 0 (by norm_num) (by norm_num)

theorem add_fin (x y : ℝ) : (fin x + fin y : Dbl) = ofReal (x + y) := rfl

theorem sub_fin (x y : ℝ) : (fin x - fin y : Dbl) = ofReal (x + -y) := rfl

theorem mul_fin (x y : ℝ) : (fin x * fin y : Dbl) = ofReal (x * y) := rfl

theorem div_fin (x y : ℝ) (hy : y ≠ 0) : (fin x / fin y : Dbl) = ofReal (x / y) := by
  show div (fin x) (fin y) = _
  simp [div, hy]

theorem zero_def : (0 : Dbl) = fin 0 := rfl

theorem intCast_def (z : Int) : ((z : Int) : Dbl) = ofReal (z : ℝ) := rfl

/-- The conversion of an `int` to `double` is exact. -/
theorem intCast_eq_fin (z : Int) (h1 : -2147483648 ≤ z) (h2 : z ≤ 2147483648) :
    ((z : Int) : Dbl) = fin (z : ℝ) := by
  rw [intCast_def]
  have e1 : (-2147483648 : ℝ) ≤ (z : ℝ) := by exact_mod_cast h1
  have e2 : (z : ℝ) ≤ 2147483648 := by exact_mod_cast h2
  apply ofReal_eq_fin
  · have : (0 : ℝ) ≤ 2 ^ 1023 - 2147483648 := by norm_num
    linarith
  · have : (0 : ℝ) ≤ 2 ^ 1023 - 2147483648 := by norm_num
    linarith

theorem half_def : (0.5 : Dbl) = fin 0.5 := by
  show ofReal (0.5 : ℝ) = fin 0.5
  apply ofReal_eq_fin
  · norm_num
  · norm_num

theorem add_nan (x : Dbl) : x + nan = nan := by
  cases x <;> rfl

/-- A sum with an infinity or NaN is an infinity or NaN. -/
theorem isNonfinite_add (x y : Dbl) (hy : IsNonfinite y) : IsNonfinite (x + y) := by
  cases y with
  | fin v => exact hy.elim
  | posInf => cases x <;> trivial
  | negInf => cases x <;> trivial
  | nan => cases x <;> trivial

theorem isNonfinite_signedInf (s : ℝ) : IsNonfinite (signedInf s) := by
  unfold signedInf
  split_ifs <;> trivial

/-- A product with an infinity or NaN on the left is an infinity or NaN. -/
theorem isNonfinite_mul (x y : Dbl) (hx : IsNonfinite x) : IsNonfinite (x * y) := by
  cases x with
  | fin v => exact hx.elim
  | posInf =>
    cases y with
    | fin w => exact isNonfinite_signedInf w
    | posInf => trivial
    | negInf => trivial
    | nan => trivial
  | negInf =>
    cases y with
    | fin w => exact isNonfinite_signedInf (-w)
    | posInf => trivial
    | negInf => trivial
    | nan => trivial
  | nan => cases y <;> trivial

/-- A quotient by zero is an infinity or NaN, whatever is divided. -/
theorem isNonfinite_div_zero (x : Dbl) : IsNonfinite (x / fin 0) := by
  cases x with
  | fin v =>
    show IsNonfinite (div (fin v) (fin 0))
    simp only [div, if_true]
    exact isNonfinite_signedInf v
  | posInf =>
    show IsNonfinite (div posInf (fin 0))
    simp [div, IsNonfinite]
  | negInf =>
    show IsNonfinite (div negInf (fin 0))
    simp [div, IsNonfinite]
  | nan => trivial

end Dbl

/-! ## The program on `double` up to rounding -/

namespace Integral

open Dbl

theorem exp_709_lt : Real.exp 709 < 2 ^ 1023 := by
  have h := Real.log_two_gt_d9
  have h2 : (709 : ℝ) < ((1023 : ℕ) : ℝ) * Real.log 2 := by
    push_cast
    linarith
  calc Real.exp 709 < Real.exp (((1023 : ℕ) : ℝ) * Real.log 2) := Real.exp_lt_exp.mpr h2
    _ = 2 ^ 1023 := by rw [Real.exp_nat_mul, Real.exp_log (by norm_num)]

theorem le_exp_710 : (2 : ℝ) ^ 1024 ≤ Real.exp 710 := by
  have h := Real.log_two_lt_d9
  have h2 : ((1024 : ℕ) : ℝ) * Real.log 2 ≤ 710 := by
    push_cast
    linarith
  calc (2 : ℝ) ^ 1024 = Real.exp (((1024 : ℕ) : ℝ) * Real.log 2) := by
        rw [Real.exp_nat_mul, Real.exp_log (by norm_num)]
    _ ≤ Real.exp 710 := Real.exp_le_exp.mpr h2

/-- Up to `x = 709` the integrand is finite on `double`: `e^x` does not overflow. -/
theorem integralFunctionDouble_of_le (x : ℝ) (hx : x ≤ 709) :
    integralFunctionDouble (fin x) = fin (integralFunction x)
      ∧ 0 ≤ integralFunction x ∧ integralFunction x ≤ 2 ^ 512 := by
  have he : Real.exp x < 2 ^ 1023 := lt_of_le_of_lt (Real.exp_le_exp.mpr hx) exp_709_lt
  have hpos : 0 < Real.exp x := Real.exp_pos x
  have h1 : Dbl.exp (fin x) = fin (Real.exp x) := by
    show ofReal (Real.exp x) = _
    exact ofReal_eq_fin _ (by linarith) (by linarith)
  have h2 : (fin 1 + fin (Real.exp x) : Dbl) = fin (1 + Real.exp x) := by
    rw [add_fin]
    exact ofReal_eq_fin _ (by linarith) (by linarith)
  have h3 : Dbl.sqrt (fin (1 + Real.exp x)) = fin (Real.sqrt (1 + Real.exp x)) := by
    show (if 1 + Real.exp x < 0 then nan else fin (Real.sqrt (1 + Real.exp x))) = _
    rw [if_neg (not_lt.mpr (by linarith))]
  refine ⟨?_, Real.sqrt_nonneg _, ?_⟩
  · rw [integralFunctionDouble, h1, h2, h3]
    rfl
  · rw [integralFunction, Real.sqrt_le_iff]
    refine ⟨by positivity, ?_⟩
    have : ((2 : ℝ) ^ 512) ^ 2 = 2 ^ 1023 + 2 ^ 1023 := by norm_num
    rw [this]
    have : (1 : ℝ) ≤ 2 ^ 1023 := one_le_pow₀ (by norm_num)
    linarith

/-- From `x = 710` on `e^x` overflows and the integrand is `+inf` on `double`. -/
theorem integralFunctionDouble_of_ge (x : ℝ) (hx : 710 ≤ x) :
    integralFunctionDouble (fin x) = posInf := by
  have he : (2 : ℝ) ^ 1024 ≤ Real.exp x := le_trans le_exp_710 (Real.exp_le_exp.mpr hx)
  have h1 : Dbl.exp (fin x) = posInf := by
    show ofReal (Real.exp x) = _
    unfold ofReal
    rw [if_pos]
    unfold overflowThreshold
    have : (0 : ℝ) ≤ 2 ^ 970 := by positivity
    linarith
  rw [integralFunctionDouble, h1]
  rfl

/-- The accumulation loop on `double`, all points giving the same finite value `v`: the
sum stays finite while `sum + k * 2^512` is moderate. -/
theorem sumLoop_finite (f : Dbl → Dbl) (start h : Dbl) (v : ℝ) (hv0 : 0 ≤ v)
    (hv : v ≤ 2 ^ 512) (k : Nat) :
    ∀ (i : Int) (s : ℝ), 0 ≤ s → s + (k : ℝ) * 2 ^ 512 ≤ 2 ^ 1023 →
      (∀ j : Int, i ≤ j → j < i + k → f (start + (j : Dbl) * h) = fin v) →
      ∃ s2 : ℝ, sumLoop f start h k i (fin s) = fin s2 := by
  induction k with
  | zero =>
    intro i s _ _ _
    exact ⟨s, rfl⟩
  | succ k ih =>
    intro i s hs0 hs hpt
    rw [sumLoop, hpt i le_rfl (by push_cast; omega), add_fin]
    push_cast at hs
    have hk : (0 : ℝ) ≤ (k : ℝ) * 2 ^ 512 := by positivity
    rw [ofReal_eq_fin _ (by linarith [show (0 : ℝ) ≤ 2 ^ 1023 by positivity]) (by linarith)]
    apply ih (i + 1) (s + v) (by linarith) (by linarith)
    intro j hj1 hj2
    exact hpt j (by omega) (by push_cast; omega)

/-- The accumulation loop on `double`, all points giving `+inf`. -/
theorem sumLoop_posInf (f : Dbl → Dbl) (start h : Dbl) (k : Nat) :
    ∀ (i : Int), (∀ j : Int, i ≤ j → j < i + k → f (start + (j : Dbl) * h) = posInf) →
      sumLoop f start h k i posInf = posInf := by
  induction k with
  | zero =>
    intro i _
    rfl
  | succ k ih =>
    intro i hpt
    rw [sumLoop, hpt i le_rfl (by push_cast; omega)]
    apply ih (i + 1)
    intro j hj1 hj2
    exact hpt j (by omega) (by push_cast; omega)

/-- The points of a rule of step `0` on `double`: all of them are the left end. -/
theorem point_of_zero_step (a : ℝ) (ha1 : -2147483648 ≤ a) (ha2 : a ≤ 2147483647) (j : Int)
    (hj1 : 0 ≤ j) (hj2 : j ≤ 2147483647) :
    (fin a + (j : Dbl) * fin 0 : Dbl) = fin a := by
  rw [intCast_eq_fin j (by omega) (by omega), mul_fin, mul_zero, ofReal_zero, add_fin,
    add_zero]
  have : (0 : ℝ) ≤ 2 ^ 1023 - 2147483648 := by norm_num
  exact ofReal_eq_fin _ (by linarith) (by linarith)

/-- The step of a rule over `[a, a]` on `double` is `0`. -/
theorem step_of_zero_width (a : ℝ) (seg : Int) (h1 : 1 ≤ seg) (h2 : seg ≤ 2147483647) :
    ((fin a - fin a) / (seg : Dbl) : Dbl) = fin 0 := by
  have hseg : ((seg : Int) : ℝ) ≠ 0 := by
    have : (0 : ℝ) < (seg : ℝ) := by exact_mod_cast (by omega : (0 : Int) < seg)
    exact ne_of_gt this
  rw [sub_fin, add_neg_cancel, ofReal_zero, intCast_eq_fin seg (by omega) (by omega),
    div_fin _ _ hseg, zero_div, ofReal_zero]

/-- On `double`, a partial integral over `[a, a]` with `a ≤ 709` is `0`: the step is `0`
and the sum is finite. -/
theorem calculatePartialIntegral_zero_width_of_le (a : ℝ) (ha1 : -2147483648 ≤ a)
    (ha2 : a ≤ 709) (seg : Int) (h1 : 1 ≤ seg) (h2 : seg ≤ 2147483647) :
    calculatePartialIntegral integralFunctionDouble (fin a) (fin a) seg = fin 0 := by
  obtain ⟨hf, hv0, hv⟩ := integralFunctionDouble_of_le a ha2
  have hsum0 : (0.5 * (integralFunctionDouble (fin a) + integralFunctionDouble (fin a)) : Dbl)
      = fin (0.5 * (integralFunction a + integralFunction a)) := by
    have h512 : (2 : ℝ) ^ 512 + 2 ^ 512 ≤ 2 ^ 1023 := by norm_num
    rw [hf, add_fin, ofReal_eq_fin _ (by linarith) (by linarith), half_def, mul_fin]
    exact ofReal_eq_fin _ (by linarith) (by linarith)
  have hk : (((seg - 1).toNat : Nat) : ℝ) ≤ 2147483647 := by
    have : (((seg - 1).toNat : Nat) : Int) ≤ 2147483647 := by omega
    exact_mod_cast this
  have hbound : 0.5 * (integralFunction a + integralFunction a)
      + (((seg - 1).toNat : Nat) : ℝ) * 2 ^ 512 ≤ 2 ^ 1023 := by
    have h3 : (((seg - 1).toNat : Nat) : ℝ) * 2 ^ 512 ≤ 2147483647 * 2 ^ 512 :=
      mul_le_mul_of_nonneg_right hk (by positivity)
    have h4 : (2 : ℝ) ^ 512 + 2147483647 * 2 ^ 512 ≤ 2 ^ 1023 := by norm_num
    linarith
  obtain ⟨s2, hs2⟩ := sumLoop_finite integralFunctionDouble (fin a) (fin 0)
    (integralFunction a) hv0 hv (seg - 1).toNat 1
    (0.5 * (integralFunction a + integralFunction a)) (by linarith) hbound
    (by
      intro j hj1 hj2
      rw [point_of_zero_step a ha1 (by linarith) j (by omega) (by omega)]
      exact hf)
  unfold calculatePartialIntegral
  simp only []
  rw [step_of_zero_width a seg h1 h2, hsum0, hs2, mul_fin, zero_mul, ofReal_zero]

/-- On `double`, a partial integral over `[a, a]` with `a ≥ 710` is NaN: the integrand is
`+inf`, so is the sum, and the result is `0 * inf`. -/
theorem calculatePartialIntegral_zero_width_of_ge (a : ℝ) (ha1 : 710 ≤ a)
    (ha2 : a ≤ 2147483647) (seg : Int) (h1 : 1 ≤ seg) (h2 : seg ≤ 2147483647) :
    calculatePartialIntegral integralFunctionDouble (fin a) (fin a) seg = nan := by
  have hf := integralFunctionDouble_of_ge a ha1
  have hsum0 : (0.5 * (integralFunctionDouble (fin a) + integralFunctionDouble (fin a)) : Dbl)
      = posInf := by
    rw [hf, half_def]
    show signedInf 0.5 = posInf
    unfold signedInf
    rw [if_pos (by norm_num)]
  have hloop := sumLoop_posInf integralFunctionDouble (fin a) (fin 0) (seg - 1).toNat 1
    (by
      intro j hj1 hj2
      rw [point_of_zero_step a (by linarith) ha2 j (by omega) (by omega)]
      exact hf)
  unfold calculatePartialIntegral
  simp only []
  rw [step_of_zero_width a seg h1 h2, hsum0, hloop]
  show signedInf 0 = nan
  unfold signedInf
  rw [if_neg (lt_irrefl _), if_neg (lt_irrefl _)]

/-- On `double`, a partial integral with `0` segments is an infinity or NaN, whatever the
interval: its step is a quotient by zero. -/
theorem calculatePartialIntegral_zero_segments (f : Dbl → Dbl) (s e : Dbl) :
    IsNonfinite (calculatePartialIntegral f s e 0) := by
  unfold calculatePartialIntegral
  simp only []
  have h0 : (((0 : Int) : Int) : Dbl) = fin 0 := by
    rw [intCast_eq_fin 0 (by decide) (by decide), Int.cast_zero]
  rw [h0]
  exact isNonfinite_mul _ _ (isNonfinite_div_zero _)

end Integral

namespace Integral

open Dbl

theorem foldl_fin_zero (g : Nat → Dbl) (t : Nat) (h : ∀ j : Nat, j < t → g j = fin 0) :
    ((List.range t).map g).foldl (fun acc x => acc + x) 0 = fin 0 := by
  induction t with
  | zero => rfl
  | succ t ih =>
    rw [List.range_succ, List.map_append, List.foldl_append,
      ih (fun j hj => h j (Nat.lt_succ_of_lt hj))]
    simp only [List.map_cons, List.map_nil, List.foldl_cons, List.foldl_nil]
    rw [h t (Nat.lt_succ_self t), add_fin, add_zero, ofReal_zero]

theorem foldl_nan (g : Nat → Dbl) (t : Nat) (ht : 1 ≤ t) (h : ∀ j : Nat, j < t → g j = nan) :
    ((List.range t).map g).foldl (fun acc x => acc + x) 0 = nan := by
  obtain ⟨k, rfl⟩ : ∃ k, t = k + 1 := ⟨t - 1, by omega⟩
  rw [List.range_succ, List.map_append, List.foldl_append]
  simp only [List.map_cons, List.map_nil, List.foldl_cons, List.foldl_nil]
  rw [h k (Nat.lt_succ_self k), add_nan]

theorem foldl_isNonfinite (g : Nat → Dbl) (t : Nat) (ht : 1 ≤ t)
    (h : ∀ j : Nat, j < t → IsNonfinite (g j)) :
    IsNonfinite (((List.range t).map g).foldl (fun acc x => acc + x) 0) := by
  obtain ⟨k, rfl⟩ : ∃ k, t = k + 1 := ⟨t - 1, by omega⟩
  rw [List.range_succ, List.map_append, List.foldl_append]
  simp only [List.map_cons, List.map_nil, List.foldl_cons, List.foldl_nil]
  exact isNonfinite_add _ _ (h k (Nat.lt_succ_self k))

/-- On `double`, with `a = b` every worker gets the interval `[a, a]`. -/
theorem workerResult_zero_width (a n tn : Int) (ha1 : -2147483648 ≤ a) (ha2 : a ≤ 2147483647)
    (htn : 1 ≤ tn) (htn2 : tn ≤ 2147483647) (j : Nat) (hj : j < tn.toNat) :
    workerResult integralFunctionDouble a a tn
        (segmentsPerThread { a := a, b := a, n := n, tn := tn })
        (rangePerThread { a := a, b := a, n := n, tn := tn }) (j : Int)
      = calculatePartialIntegral integralFunctionDouble (fin (a : ℝ)) (fin (a : ℝ))
          (Int.tdiv n tn) := by
  have htn0 : ((tn : Int) : ℝ) ≠ 0 := by
    have : (0 : ℝ) < (tn : ℝ) := by exact_mod_cast (by omega : (0 : Int) < tn)
    exact ne_of_gt this
  have hr : (rangePerThread { a := a, b := a, n := n, tn := tn } : Dbl) = fin 0 := by
    have hw : wrapInt (a - a) = 0 := by rw [sub_self]; decide
    simp only [rangePerThread]
    rw [hw, intCast_eq_fin 0 (by decide) (by decide), intCast_eq_fin tn (by omega) (by omega),
      div_fin _ _ htn0, Int.cast_zero, zero_div, ofReal_zero]
  have e1 : (-2147483648 : ℝ) ≤ (a : ℝ) := by exact_mod_cast ha1
  have e2 : (a : ℝ) ≤ 2147483647 := by exact_mod_cast ha2
  have hstart : (workerStart a (fin 0) (j : Int) : Dbl) = fin (a : ℝ) := by
    simp only [workerStart]
    rw [intCast_eq_fin a (by omega) (by omega)]
    exact point_of_zero_step (a : ℝ) e1 e2 (j : Int) (by omega) (by omega)
  have hend : (workerEnd a a tn (fin 0) (j : Int) : Dbl) = fin (a : ℝ) := by
    simp only [workerEnd]
    split_ifs
    · exact intCast_eq_fin a (by omega) (by omega)
    · rw [hstart, add_fin, add_zero]
      have : (0 : ℝ) ≤ 2 ^ 1023 - 2147483648 := by norm_num
      exact ofReal_eq_fin _ (by linarith) (by linarith)
  rw [workerResult, hr, hstart, hend]
  rfl

/-- On `double`, for `a = b ≤ 709` and `n ≥ tn ≥ 1` the program returns `0`. -/
theorem calculateIntegral_double_zero_width_of_le (a n tn : Int) (ha1 : -2147483648 ≤ a)
    (ha2 : a ≤ 709) (htn : 1 ≤ tn) (hn : tn ≤ n) (hn2 : n ≤ 2147483647) :
    calculateIntegral integralFunctionDouble { a := a, b := a, n := n, tn := tn } = fin 0 := by
  rw [calculateIntegral_eq_foldl _ _ (by show 1 ≤ n; omega) htn]
  apply foldl_fin_zero
  intro j hj
  have hq : Int.tdiv n tn = n / tn := Int.tdiv_eq_ediv (by omega) (by omega)
  have hq1 : 1 ≤ n / tn := (Int.le_ediv_iff_mul_le (by omega)).mpr (by omega)
  have hq2 : n / tn ≤ n := Int.ediv_le_self _ (by omega)
  rw [workerResult_zero_width a n tn ha1 (by omega) htn (by omega) j hj, hq]
  exact calculatePartialIntegral_zero_width_of_le (a : ℝ) (by exact_mod_cast ha1)
    (by exact_mod_cast ha2) _ hq1 (by omega)

/-- On `double`, for `a = b ≥ 710` and `n ≥ tn ≥ 1` the program returns NaN. -/
theorem calculateIntegral_double_zero_width_of_ge (a n tn : Int) (ha1 : 710 ≤ a)
    (ha2 : a ≤ 2147483647) (htn : 1 ≤ tn) (hn : tn ≤ n) (hn2 : n ≤ 2147483647) :
    calculateIntegral integralFunctionDouble { a := a, b := a, n := n, tn := tn } = nan := by
  rw [calculateIntegral_eq_foldl _ _ (by show 1 ≤ n; omega) htn]
  apply foldl_nan _ _ (by show 1 ≤ tn.toNat; omega)
  intro j hj
  have hq : Int.tdiv n tn = n / tn := Int.tdiv_eq_ediv (by omega) (by omega)
  have hq1 : 1 ≤ n / tn := (Int.le_ediv_iff_mul_le (by omega)).mpr (by omega)
  have hq2 : n / tn ≤ n := Int.ediv_le_self _ (by omega)
  rw [workerResult_zero_width a n tn (by omega) ha2 htn (by omega) j hj, hq]
  exact calculatePartialIntegral_zero_width_of_ge (a : ℝ) (by exact_mod_cast ha1)
    (by exact_mod_cast ha2) _ hq1 (by omega)

/-- On `double`, for `1 ≤ n < tn` the program returns an infinity or NaN: every worker
divides by `0` segments. -/
theorem calculateIntegral_double_zero_segments (a b n tn : Int) (hn : 1 ≤ n) (hlt : n < tn) :
    IsNonfinite
      (calculateIntegral integralFunctionDouble { a := a, b := b, n := n, tn := tn }) := by
  rw [calculateIntegral_eq_foldl _ _ hn (by show 1 ≤ tn; omega)]
  apply foldl_isNonfinite _ _ (by show 1 ≤ tn.toNat; omega)
  intro j _
  have hq : segmentsPerThread { a := a, b := b, n := n, tn := tn } = 0 := by
    show Int.tdiv n tn = 0
    rw [Int.tdiv_eq_ediv (by omega) (by omega)]
    exact Int.ediv_eq_zero_of_lt (by omega) hlt
  rw [workerResult, hq]
  exact calculatePartialIntegral_zero_segments _ _ _

end Integral

/-! ## The program: `K = ℝ`, `f = integralFunction` -/

namespace Integral

/-- C1 as stated fails: at `a = -2^31, b = 0, n = 2`, arguments the constructor accepts,
the hypotheses of the claim hold for `tn = 2` and for `tn = 1`, the `int` subtraction
`b - a` overflows, and with `tn = 2` `calculateIntegral` differs both from
`calculatePartialIntegral(a, b, n)` and from its own value with `tn = 1`. -/
theorem calculateIntegral_ne_sequential_of_overflow :
    ((-2147483648 : Int) ≤ 0 ∧ (1 : Int) ≤ 2 ∧ (1 : Int) ≤ 2 ∧ (2 : Int) ∣ 2 ∧ (1 : Int) ∣ 2)
      ∧ ctor 5 ["prog", "-2147483648", "0", "2", "2"]
        = Except.ok { a := -2147483648, b := 0, n := 2, tn := 2 }
      ∧ calculateIntegral integralFunction { a := -2147483648, b := 0, n := 2, tn := 2 }
        ≠ calculatePartialIntegral integralFunction ((-2147483648 : Int) : ℝ) ((0 : Int) : ℝ) 2
      ∧ calculateIntegral integralFunction { a := -2147483648, b := 0, n := 2, tn := 2 }
        ≠ calculateIntegral integralFunction { a := -2147483648, b := 0, n := 2, tn := 1 } := by
  have h := calculateIntegral_at_wrapped_range_ne
  refine ⟨by decide, rfl, ?_, ?_⟩
  · intro he
    apply h
    rw [he]
    norm_num
  · intro he
    apply h
    rw [he, calculateIntegral_one_worker integralFunction _ _ _ (by decide)]
    norm_num

/-- C1, amended. Over exact real arithmetic, for integers `a ≤ b` with
`b - a ≤ 2147483647` (the `int` subtraction `b - a` does not overflow), `n ≥ 1`, `tn ≥ 1`
and `tn` dividing `n`, `calculateIntegral(a, b, n, tn)` equals
`calculatePartialIntegral(a, b, n)`; hence the result is the same for every other positive
divisor `tn2` of `n`. -/
theorem calculateIntegral_eq_sequential_of_dvd (a b n tn : Int) (hab : a ≤ b)
    (hfit : b - a ≤ 2147483647) (hn : 1 ≤ n) (htn : 1 ≤ tn) (hdvd : tn ∣ n) :
    calculateIntegral integralFunction { a := a, b := b, n := n, tn := tn }
        = calculatePartialIntegral integralFunction (a : ℝ) (b : ℝ) n
      ∧ ∀ tn2 : Int, 1 ≤ tn2 → tn2 ∣ n →
          calculateIntegral integralFunction { a := a, b := b, n := n, tn := tn2 }
            = calculateIntegral integralFunction { a := a, b := b, n := n, tn := tn } := by
  have hr := inIntRange_of_le a b hab hfit
  refine ⟨calculateIntegral_eq_whole _ a b n tn hn htn hdvd hr, ?_⟩
  intro tn2 h2 hd2
  rw [calculateIntegral_eq_whole _ a b n tn hn htn hdvd hr,
    calculateIntegral_eq_whole _ a b n tn2 hn h2 hd2 hr]

/-- The spec scenario of C1: `a = 0, b = 2, n = 100`, `tn = 2` against `tn = 1`. -/
theorem calculateIntegral_eq_sequential_of_dvd_witness :
    ((0 : Int) ≤ 2 ∧ (2 : Int) - 0 ≤ 2147483647 ∧ (1 : Int) ≤ 100 ∧ (1 : Int) ≤ 2
        ∧ (2 : Int) ∣ 100)
      ∧ calculateIntegral integralFunction { a := 0, b := 2, n := 100, tn := 2 }
          = calculatePartialIntegral integralFunction ((0 : Int) : ℝ) ((2 : Int) : ℝ) 100
      ∧ calculateIntegral integralFunction { a := 0, b := 2, n := 100, tn := 1 }
          = calculateIntegral integralFunction { a := 0, b := 2, n := 100, tn := 2 } :=
  ⟨by decide,
    (calculateIntegral_eq_sequential_of_dvd 0 2 100 2 (by decide) (by decide) (by decide)
      (by decide) (by decide)).1,
    (calculateIntegral_eq_sequential_of_dvd 0 2 100 2 (by decide) (by decide) (by decide)
      (by decide) (by decide)).2 1 (by decide) (by decide)⟩

/-- C2. With `tn = 1` and `n ≥ 1` the worker loop fills the single slot with
`calculatePartialIntegral(a, b, n)` (start `a`, end `b`, `n` segments), whatever the value
of `rangePerThread`, and `calculateIntegral` returns exactly that value: the reduction
adds it to `0`. -/
theorem calculateIntegral_single_thread (a b n : Int) (hn : 1 ≤ n) :
    (∀ rangePerThread : ℝ,
        workerLoop integralFunction a b 1 (Int.tdiv n 1) rangePerThread 1 0
            (List.replicate 1 0)
          = [calculatePartialIntegral integralFunction (a : ℝ) (b : ℝ) n])
      ∧ calculateIntegral integralFunction { a := a, b := b, n := n, tn := 1 }
        = calculatePartialIntegral integralFunction (a : ℝ) (b : ℝ) n := by
  constructor
  · intro r
    simp [workerLoop, workerStart, workerEnd]
  · exact calculateIntegral_one_worker integralFunction a b n hn

/-- An instance of C2: `a = 0, b = 1, n = 10`. -/
theorem calculateIntegral_single_thread_witness :
    (1 : Int) ≤ 10
      ∧ calculateIntegral integralFunction { a := 0, b := 1, n := 10, tn := 1 }
        = calculatePartialIntegral integralFunction ((0 : Int) : ℝ) ((1 : Int) : ℝ) 10 :=
  ⟨by decide, (calculateIntegral_single_thread 0 1 10 (by decide)).2⟩

/-- C3. For reals `start`, `end` and `segments ≥ 1`, `calculatePartialIntegral` is
`h * (0.5 * (f(start) + f(end)) + Σ_{i=1}^{segments-1} f(start + i*h))` with
`h = (end - start) / segments` and `f(x) = sqrt(1 + e^x)`; for `segments = 1` it is
`(end - start) * (f(start) + f(end)) / 2`. -/
theorem calculatePartialIntegral_formula (start end_ : ℝ) (segments : Int)
    (_hseg : 1 ≤ segments) :
    calculatePartialIntegral integralFunction start end_ segments
        = (end_ - start) / (segments : ℝ)
            * (0.5 * (Real.sqrt (1 + Real.exp start) + Real.sqrt (1 + Real.exp end_))
                + ∑ i ∈ Finset.Ico (1 : Int) segments,
                    Real.sqrt (1 + Real.exp (start + (i : ℝ) * ((end_ - start) / (segments : ℝ)))))
      ∧ (segments = 1 →
          calculatePartialIntegral integralFunction start end_ segments
            = (end_ - start)
                * (Real.sqrt (1 + Real.exp start) + Real.sqrt (1 + Real.exp end_)) / 2) := by
  have hform : calculatePartialIntegral integralFunction start end_ segments
        = (end_ - start) / (segments : ℝ)
            * (0.5 * (Real.sqrt (1 + Real.exp start) + Real.sqrt (1 + Real.exp end_))
                + ∑ i ∈ Finset.Ico (1 : Int) segments,
                    Real.sqrt (1 + Real.exp (start + (i : ℝ) * ((end_ - start) / (segments : ℝ))))) := by
    rw [calculatePartialIntegral_eq, Int.Ico_eq_finset_map, Finset.sum_map]
    rfl
  refine ⟨hform, ?_⟩
  intro h1
  rw [hform, h1]
  norm_num
  ring

/-- An instance of C3: two segments over `[0, 1]`. -/
theorem calculatePartialIntegral_formula_witness :
    (1 : Int) ≤ 2
      ∧ calculatePartialIntegral integralFunction 0 1 2
        = (1 - 0) / ((2 : Int) : ℝ)
            * (0.5 * (Real.sqrt (1 + Real.exp 0) + Real.sqrt (1 + Real.exp 1))
                + ∑ i ∈ Finset.Ico (1 : Int) 2,
                    Real.sqrt (1 + Real.exp (0 + (i : ℝ) * ((1 - 0) / ((2 : Int) : ℝ))))) :=
  ⟨by decide, (calculatePartialIntegral_formula 0 1 2 (by decide)).1⟩

/-- C4 as stated fails: at `a = -2^31, b = 0, n = 2, tn = 2`, arguments the constructor
accepts, the value of `calculateIntegral` is not the sum of the partial integrals taken with
`rangePerThread = (b - a) / tn`, the quotient of the mathematical difference: the program
divides the `int` difference, which has wrapped to `-2^31`. -/
theorem calculateIntegral_ne_sum_of_exact_ranges :
    ((1 : Int) ≤ 2 ∧ (1 : Int) ≤ 2)
      ∧ ctor 5 ["prog", "-2147483648", "0", "2", "2"]
        = Except.ok { a := -2147483648, b := 0, n := 2, tn := 2 }
      ∧ calculateIntegral integralFunction { a := -2147483648, b := 0, n := 2, tn := 2 }
        ≠ ∑ i ∈ Finset.range (2 : Int).toNat,
            calculatePartialIntegral integralFunction
              (((-2147483648 : Int) : ℝ)
                + (i : ℝ) * ((((0 : Int) : ℝ) - ((-2147483648 : Int) : ℝ)) / ((2 : Int) : ℝ)))
              (if (i : Int) = 2 - 1 then ((0 : Int) : ℝ)
                else ((-2147483648 : Int) : ℝ)
                  + (i : ℝ) * ((((0 : Int) : ℝ) - ((-2147483648 : Int) : ℝ)) / ((2 : Int) : ℝ))
                  + (((0 : Int) : ℝ) - ((-2147483648 : Int) : ℝ)) / ((2 : Int) : ℝ))
              (Int.tdiv 2 2) := by
  refine ⟨by decide, rfl, ?_⟩
  have hd : Int.tdiv 2 2 = 1 := by decide
  have ht : (2 : Int).toNat = 2 := rfl
  rw [calculateIntegral_at_wrapped_range, hd, ht]
  simp only [Finset.sum_range_succ, Finset.sum_range_zero, calculatePartialIntegral_eq]
  have h1 := integralFunction_zero_bounds.1
  have h2 := one_lt_integralFunction (-3221225472)
  have h3 := integralFunction_neg_le 2147483648 (by norm_num)
  have h4 := integralFunction_neg_le 1073741824 (by norm_num)
  intro h
  norm_num at h h3 h4
  linarith

/-- C4, amended. For integers `a`, `b` and `n ≥ 1`, `tn ≥ 1`, `calculateIntegral` returns
the sum over the worker ids `i = 0 .. tn - 1` of
`calculatePartialIntegral(start_i, end_i, n / tn)`, where `rangePerThread = d / tn` with
`d` the `int` difference `b - a`, `start_i = a + i * rangePerThread`,
`end_i = start_i + rangePerThread` for `i < tn - 1`, `end_(tn-1) = b`, and `n / tn` is the
truncating integer division (here the floor): `tn` partial results, all with the same
segment count. On `double` the slots are added from `0` in the order of the workers, for
every `n ≥ 1`; over exact reals the sum is stated for `n ≥ tn`, where the segment count is
not `0`. The `int` difference is the mathematical `b - a` when that lies in
`[-2^31, 2^31 - 1]`. -/
theorem calculateIntegral_eq_sum_of_workers (a b n tn : Int) (hn : 1 ≤ n) (htn : 1 ≤ tn) :
    calculateIntegral integralFunctionDouble { a := a, b := b, n := n, tn := tn }
        = ((List.range tn.toNat).map (fun i : Nat =>
            calculatePartialIntegral integralFunctionDouble
              (workerStart a (rangePerThread { a := a, b := b, n := n, tn := tn }) (i : Int))
              (workerEnd a b tn (rangePerThread { a := a, b := b, n := n, tn := tn }) (i : Int))
              (Int.tdiv n tn))).foldl (fun acc x => acc + x) 0
      ∧ (tn ≤ n →
          calculateIntegral integralFunction { a := a, b := b, n := n, tn := tn }
            = ∑ i ∈ Finset.range tn.toNat,
                calculatePartialIntegral integralFunction
                  ((a : ℝ) + (i : ℝ) * (((wrapInt (b - a) : Int) : ℝ) / (tn : ℝ)))
                  (if (i : Int) = tn - 1 then (b : ℝ)
                    else (a : ℝ) + (i : ℝ) * (((wrapInt (b - a) : Int) : ℝ) / (tn : ℝ))
                      + ((wrapInt (b - a) : Int) : ℝ) / (tn : ℝ))
                  (Int.tdiv n tn))
      ∧ (-2147483648 ≤ b - a → b - a ≤ 2147483647 →
          wrapInt (b - a) = b - a
            ∧ (rangePerThread { a := a, b := b, n := n, tn := tn } : ℝ)
              = ((b : ℝ) - (a : ℝ)) / (tn : ℝ))
      ∧ ((List.range tn.toNat).length : Int) = tn
      ∧ Int.tdiv n tn = n / tn := by
  refine ⟨?_, ?_, ?_, ?_, ?_⟩
  · exact calculateIntegral_eq_foldl integralFunctionDouble _ hn htn
  · intro _
    rw [calculateIntegral_eq_sum _ a b n tn hn htn]
    apply Finset.sum_congr rfl
    intro i _
    simp only [workerResult, workerStart, workerEnd]
    push_cast
    rfl
  · intro h1 h2
    have hw : wrapInt (b - a) = b - a := by
      apply wrapInt_of_inIntRange
      simp only [inIntRange, Bool.and_eq_true, decide_eq_true_eq]
      omega
    refine ⟨hw, ?_⟩
    simp only [rangePerThread]
    rw [hw]
    push_cast
    rfl
  · rw [List.length_range]
    omega
  · exact Int.tdiv_eq_ediv (by omega) (by omega)

/-- An instance of C4 where `tn` does not divide `n`: `a = 0, b = 3, n = 7, tn = 2`. -/
theorem calculateIntegral_eq_sum_of_workers_witness :
    ((1 : Int) ≤ 7 ∧ (1 : Int) ≤ 2 ∧ (2 : Int) ≤ 7)
      ∧ calculateIntegral integralFunction { a := 0, b := 3, n := 7, tn := 2 }
        = ∑ i ∈ Finset.range (2 : Int).toNat,
            calculatePartialIntegral integralFunction
              (((0 : Int) : ℝ) + (i : ℝ) * (((wrapInt (3 - 0) : Int) : ℝ) / ((2 : Int) : ℝ)))
              (if (i : Int) = 2 - 1 then ((3 : Int) : ℝ)
                else ((0 : Int) : ℝ) + (i : ℝ) * (((wrapInt (3 - 0) : Int) : ℝ) / ((2 : Int) : ℝ))
                  + ((wrapInt (3 - 0) : Int) : ℝ) / ((2 : Int) : ℝ))
              (Int.tdiv 7 2) :=
  ⟨by decide,
    (calculateIntegral_eq_sum_of_workers 0 3 7 2 (by decide) (by decide)).2.1 (by decide)⟩

end Integral

/-- C5. If `tn ≤ 0` or `n ≤ 0` then `calculateIntegral` returns exactly `0`, whatever the
integrand (it is never evaluated), and `main` then ends normally with that value rather
than with an exception. -/
theorem calculateIntegral_degenerate (a b n tn : Int) (h : tn ≤ 0 ∨ n ≤ 0) :
    (∀ f : ℝ → ℝ, Integral.calculateIntegral f { a := a, b := b, n := n, tn := tn } = 0)
      ∧ ∀ argv : List String,
          Integral.ctor argv.length argv = Except.ok { a := a, b := b, n := n, tn := tn } →
            main Integral.integralFunction argv = Except.ok 0 := by
  have h0 : ∀ f : ℝ → ℝ,
      Integral.calculateIntegral f { a := a, b := b, n := n, tn := tn } = 0 := by
    intro f
    simp only [Integral.calculateIntegral]
    rw [if_pos h]
  refine ⟨h0, ?_⟩
  intro argv hargv
  rw [main, hargv]
  exact congrArg Except.ok (h0 _)

/-- The spec scenario of C5: `tn = 0`. -/
theorem calculateIntegral_degenerate_witness :
    ((0 : Int) ≤ 0 ∨ (10 : Int) ≤ 0)
      ∧ Integral.calculateIntegral Integral.integralFunction
          { a := 0, b := 1, n := 10, tn := 0 } = 0 :=
  ⟨by decide, (calculateIntegral_degenerate 0 1 10 0 (by decide)).1 _⟩

namespace Integral

/-- C6 as stated fails: for `a = 0, b = 1, n = 1000, tn = 4` the value returned by
`calculateIntegral` is farther than `0.0005` from `1.6269`, and so is the integral of
`sqrt(1 + e^x)` over `[0, 1]`. -/
theorem scenario_not_within_tolerance_of_16269 :
    ¬ (|calculateIntegral integralFunction { a := 0, b := 1, n := 1000, tn := 4 } - 1.6269|
          ≤ 0.0005)
      ∧ ¬ (|(∫ x in (0 : ℝ)..1, Real.sqrt (1 + Real.exp x)) - 1.6269| ≤ 0.0005) := by
  obtain ⟨⟨h1, _⟩, h3, _⟩ := scenario_bounds
  constructor
  · rw [abs_le]
    intro h
    linarith [h.2]
  · rw [abs_le]
    intro h
    have h2 := h.2
    change (∫ x in (0 : ℝ)..1, integralFunction x) - 1.6269 ≤ 0.0005 at h2
    linarith

/-- C6, amended: for `a = 0, b = 1, n = 1000, tn = 4` the value returned by
`calculateIntegral` lies within `0.0005` of `1.6421`, and `1.6421` approximates the
integral of `sqrt(1 + e^x)` over `[0, 1]` to the same tolerance. -/
theorem scenario_within_tolerance_of_16421 :
    |calculateIntegral integralFunction { a := 0, b := 1, n := 1000, tn := 4 } - 1.6421|
        ≤ 0.0005
      ∧ |(∫ x in (0 : ℝ)..1, Real.sqrt (1 + Real.exp x)) - 1.6421| ≤ 0.0005 := by
  obtain ⟨⟨h1, h2⟩, h3, h4⟩ := scenario_bounds
  constructor
  · rw [abs_le]
    constructor <;> linarith
  · change |(∫ x in (0 : ℝ)..1, integralFunction x) - 1.6421| ≤ 0.0005
    rw [abs_le]
    constructor <;> linarith

/-- C7. Monotonic refinement over exact real arithmetic: for all `a ≤ b`, `tn ≥ 1` and
positive multiples `n1 < n2` of `tn` that are values of `int`, the estimate with `n2` is at
least as close to the integral of `sqrt(1 + e^x)` over `[a, b]` as the estimate with `n1`.
This holds also where the `int` subtraction `b - a` overflows: there both estimates lie
above the integral and the one with `n2` is the smaller. -/
theorem calculateIntegral_monotone_refinement (a b tn n1 n2 : Int) (hab : a ≤ b)
    (htn : 1 ≤ tn) (hn1 : 1 ≤ n1) (h12 : n1 < n2) (hd1 : tn ∣ n1) (hd2 : tn ∣ n2)
    (ha : -2147483648 ≤ a) (hb : b ≤ 2147483647) (hn2 : n2 ≤ 2147483647) :
    |calculateIntegral integralFunction { a := a, b := b, n := n2, tn := tn }
        - ∫ x in (a : ℝ)..(b : ℝ), Real.sqrt (1 + Real.exp x)|
      ≤ |calculateIntegral integralFunction { a := a, b := b, n := n1, tn := tn }
        - ∫ x in (a : ℝ)..(b : ℝ), Real.sqrt (1 + Real.exp x)| := by
  change |_ - ∫ x in (a : ℝ)..(b : ℝ), integralFunction x|
    ≤ |_ - ∫ x in (a : ℝ)..(b : ℝ), integralFunction x|
  by_cases hrule : b - a ≤ 2147483647 ∨ tn = 1
  · -- the value is the rule over `[a, b]`
    have hT : ∀ m : Nat, tn ∣ ((m + 1 : Nat) : Int) →
        calculateIntegral integralFunction
            { a := a, b := b, n := ((m + 1 : Nat) : Int), tn := tn }
          = trapezoids integralFunction (a : ℝ) (((b : ℝ) - (a : ℝ)) / ((m : ℝ) + 1))
              (m + 1) := by
      intro m hd
      rcases hrule with hfit | h1
      · exact calculateIntegral_eq_trapezoids a b tn m htn hd (inIntRange_of_le a b hab hfit)
      · subst h1
        rw [calculateIntegral_one_worker integralFunction a b _ (by omega),
          calculatePartialIntegral_eq_trapezoids integralFunction _ _ (m + 1) (by omega)]
        push_cast
        rfl
    obtain ⟨m1, rfl⟩ : ∃ m : Nat, n1 = ((m + 1 : Nat) : Int) := ⟨(n1 - 1).toNat, by omega⟩
    obtain ⟨m2, rfl⟩ : ∃ m : Nat, n2 = ((m + 1 : Nat) : Int) := ⟨(n2 - 1).toNat, by omega⟩
    have hm : m1 ≤ m2 := by omega
    have hL : (0 : ℝ) ≤ (b : ℝ) - (a : ℝ) := by
      have : (a : ℝ) ≤ (b : ℝ) := by exact_mod_cast hab
      linarith
    rw [hT m1 hd1, hT m2 hd2]
    have hmono := trapezoids_integralFunction_mono (a : ℝ) ((b : ℝ) - (a : ℝ)) hL m1 m2 hm
    have hI := integral_le_trapezoids integralFunction integralFunction_convex
      integralFunction_continuous (a : ℝ) (((b : ℝ) - (a : ℝ)) / ((m2 : ℝ) + 1))
      (div_nonneg hL (by positivity)) (m2 + 1)
    have hend : (a : ℝ) + ((m2 + 1 : Nat) : ℝ) * (((b : ℝ) - (a : ℝ)) / ((m2 : ℝ) + 1))
        = (b : ℝ) := by
      push_cast
      rw [step_mul_eq]
      ring
    rw [hend] at hI
    rw [abs_of_nonneg (by linarith), abs_of_nonneg (by linarith)]
    linarith
  · -- `b - a` has wrapped and there are at least two workers
    push_neg at hrule
    obtain ⟨hw, htn1⟩ := hrule
    have htn2 : 2 ≤ tn := by omega
    have hle1 : tn ≤ n1 := Int.le_of_dvd (by omega) hd1
    have hle2 : tn ≤ n2 := Int.le_of_dvd (by omega) hd2
    have hgt2 := calculateIntegral_wrapped_gt_integral a b n2 tn ha hb (by omega) htn2 hle2 hn2
    have hanti := calculateIntegral_wrapped_antitone a b tn n1 n2 (by omega) (by omega) htn2
      hn1 h12 hd1 hd2
    rw [abs_of_nonneg (by linarith), abs_of_nonneg (by linarith)]
    linarith

/-- Two instances of C7: `[0, 1]` with two workers, `n1 = 2` against `n2 = 4`; and
`[-2^31, 0]`, where `b - a` overflows, with the same workers and segments. -/
theorem calculateIntegral_monotone_refinement_witness :
    (((0 : Int) ≤ 1 ∧ (1 : Int) ≤ 2 ∧ (1 : Int) ≤ 2 ∧ (2 : Int) < 4 ∧ (2 : Int) ∣ 2
          ∧ (2 : Int) ∣ 4)
        ∧ |calculateIntegral integralFunction { a := 0, b := 1, n := 4, tn := 2 }
            - ∫ x in ((0 : Int) : ℝ)..((1 : Int) : ℝ), Real.sqrt (1 + Real.exp x)|
          ≤ |calculateIntegral integralFunction { a := 0, b := 1, n := 2, tn := 2 }
            - ∫ x in ((0 : Int) : ℝ)..((1 : Int) : ℝ), Real.sqrt (1 + Real.exp x)|)
      ∧ ((-2147483648 : Int) ≤ 0
        ∧ |calculateIntegral integralFunction { a := -2147483648, b := 0, n := 4, tn := 2 }
            - ∫ x in ((-2147483648 : Int) : ℝ)..((0 : Int) : ℝ), Real.sqrt (1 + Real.exp x)|
          ≤ |calculateIntegral integralFunction { a := -2147483648, b := 0, n := 2, tn := 2 }
            - ∫ x in ((-2147483648 : Int) : ℝ)..((0 : Int) : ℝ),
                Real.sqrt (1 + Real.exp x)|) :=
  ⟨⟨by decide, calculateIntegral_monotone_refinement 0 1 2 2 4 (by decide) (by decide)
      (by decide) (by decide) (by decide) (by decide) (by decide) (by decide) (by decide)⟩,
    ⟨by decide, calculateIntegral_monotone_refinement (-2147483648) 0 2 2 4 (by decide)
      (by decide) (by decide) (by decide) (by decide) (by decide) (by decide) (by decide)
      (by decide)⟩⟩

/-- C8 as stated fails: for `a = b = 710, n = 10, tn = 1`, arguments the constructor
accepts, the hypotheses of the claim hold and `calculateIntegral`, and so `main`, returns
NaN on `double`, not `0`: the step is `0`, but `e^710` overflows, so the sum is `+inf` and
the result is `0 * inf`. -/
theorem calculateIntegral_zero_width_nan :
    ((710 : Int) = 710 ∧ (1 : Int) ≤ 1 ∧ (1 : Int) ≤ 10)
      ∧ calculateIntegral integralFunctionDouble { a := 710, b := 710, n := 10, tn := 1 }
        = Dbl.nan
      ∧ main integralFunctionDouble ["prog", "710", "710", "10", "1"] = Except.ok Dbl.nan
      ∧ calculateIntegral integralFunctionDouble { a := 710, b := 710, n := 10, tn := 1 }
        ≠ 0 := by
  have h := calculateIntegral_double_zero_width_of_ge 710 10 1 (by decide) (by decide)
    (by decide) (by decide) (by decide)
  have hm : main integralFunctionDouble ["prog", "710", "710", "10", "1"]
      = Except.ok (calculateIntegral integralFunctionDouble
          { a := 710, b := 710, n := 10, tn := 1 }) := rfl
  refine ⟨by decide, h, ?_, ?_⟩
  · rw [hm, h]
  · rw [h]
    intro h0
    cases h0

/-- C8, amended. Zero-width interval: for integers `a = b` and `n ≥ tn ≥ 1`,
`calculateIntegral` returns exactly `0` over exact real arithmetic, because a partial
integral over `[x, x]` has step `h = 0`; on `double` (`a` and `n` within `int`) it returns
exactly `0` when `a ≤ 709`, and NaN when `a ≥ 710`, where `e^a` overflows. -/
theorem calculateIntegral_zero_width (a b n tn : Int) (hab : a = b) (htn : 1 ≤ tn)
    (hn : tn ≤ n) :
    calculateIntegral integralFunction { a := a, b := b, n := n, tn := tn } = 0
      ∧ (∀ (x : ℝ) (segments : Int), 1 ≤ segments →
          (x - x) / (segments : ℝ) = 0
            ∧ calculatePartialIntegral integralFunction x x segments = 0)
      ∧ (-2147483648 ≤ a → a ≤ 709 → n ≤ 2147483647 →
          calculateIntegral integralFunctionDouble { a := a, b := b, n := n, tn := tn } = 0)
      ∧ (710 ≤ a → a ≤ 2147483647 → n ≤ 2147483647 →
          calculateIntegral integralFunctionDouble { a := a, b := b, n := n, tn := tn }
            = Dbl.nan) := by
  have hzero : ∀ (x : ℝ) (segments : Int),
      calculatePartialIntegral integralFunction x x segments = 0 := by
    intro x segments
    rw [calculatePartialIntegral_eq]
    simp
  subst hab
  refine ⟨?_, ?_, ?_, ?_⟩
  · rw [calculateIntegral_eq_sum _ a a n tn (by omega) htn]
    apply Finset.sum_eq_zero
    intro i _
    have hw : wrapInt (a - a) = 0 := by rw [sub_self]; decide
    simp only [workerResult, workerStart, workerEnd]
    rw [hw]
    have hend : (if (i : Int) = tn - 1 then (a : ℝ)
          else (a : ℝ) + ((i : Int) : ℝ) * (((0 : Int) : ℝ) / (tn : ℝ))
            + ((0 : Int) : ℝ) / (tn : ℝ))
        = (a : ℝ) + ((i : Int) : ℝ) * (((0 : Int) : ℝ) / (tn : ℝ)) := by
      split_ifs <;> simp
    rw [hend]
    exact hzero _ _
  · intro x segments _
    exact ⟨by simp, hzero x segments⟩
  · intro h1 h2 h3
    exact calculateIntegral_double_zero_width_of_le a n tn h1 h2 htn hn h3
  · intro h1 h2 h3
    exact calculateIntegral_double_zero_width_of_ge a n tn h1 h2 htn hn h3

/-- The spec scenario of C8: `a = 0, b = 0, n = 10, tn = 1`, on `double`. -/
theorem calculateIntegral_zero_width_witness :
    ((0 : Int) = 0 ∧ (1 : Int) ≤ 1 ∧ (1 : Int) ≤ 10)
      ∧ calculateIntegral integralFunctionDouble { a := 0, b := 0, n := 10, tn := 1 } = 0 :=
  ⟨by decide,
    (calculateIntegral_zero_width 0 0 10 1 rfl (by decide) (by decide)).2.2.1 (by decide)
      (by decide) (by decide)⟩

/-- C9. For every real `x`, `integralFunction x` is `sqrt(1 + e^x)`; the argument of the
square root is strictly positive, and the value is strictly greater than `1`. -/
theorem integralFunction_spec (x : ℝ) :
    integralFunction x = Real.sqrt (1 + Real.exp x)
      ∧ 0 < 1 + Real.exp x
      ∧ 1 < integralFunction x := by
  have hpos : 0 < Real.exp x := Real.exp_pos x
  refine ⟨rfl, by linarith, ?_⟩
  rw [integralFunction, Real.lt_sqrt (by norm_num)]
  linarith

/-- C10. The constructor raises `std::invalid_argument` whenever `argc ≠ 5`, whatever the
arguments are, and `main` then ends with that exception without computing anything; with
`argc = 5` and four plain integer texts within `int` it succeeds and stores their values
as `a, b, n, tn` in that order. -/
theorem ctor_argument_count (argc : Int) (argv : List String) :
    (argc ≠ 5 →
        ctor argc argv = Except.error (Error.invalidArgument "Wrong number of arguments"))
      ∧ (argv.length ≠ 5 →
          main integralFunction argv
            = Except.error (Error.invalidArgument "Wrong number of arguments"))
      ∧ (argc = 5 →
          ∀ prog ta tb tn ttn : String, argv = [prog, ta, tb, tn, ttn] →
            isIntText ta = true → inIntRange (intTextValue ta) = true →
            isIntText tb = true → inIntRange (intTextValue tb) = true →
            isIntText tn = true → inIntRange (intTextValue tn) = true →
            isIntText ttn = true → inIntRange (intTextValue ttn) = true →
            ctor argc argv
              = Except.ok { a := intTextValue ta, b := intTextValue tb,
                            n := intTextValue tn, tn := intTextValue ttn }) := by
  have hbad : ∀ (c : Int) (v : List String), c ≠ 5 →
      ctor c v = Except.error (Error.invalidArgument "Wrong number of arguments") := by
    intro c v hc
    rw [ctor, if_pos hc]
  refine ⟨hbad argc argv, ?_, ?_⟩
  · intro hlen
    have hc : ((argv.length : Nat) : Int) ≠ 5 := by omega
    rw [main, hbad _ _ hc]
    rfl
  · intro hargc prog ta tb tn ttn hargv ha ha2 hb hb2 hn hn2 ht ht2
    subst hargv
    subst hargc
    rw [ctor, if_neg (by decide)]
    simp only [List.getD_cons_succ, List.getD_cons_zero]
    rw [stoi_intText ta ha ha2, stoi_intText tb hb hb2, stoi_intText tn hn hn2,
      stoi_intText ttn ht ht2]
    rfl

/-- Two invocations for C10: two arguments too few, and `0 1 1000 4`. -/
theorem ctor_argument_count_witness :
    ctor 3 ["prog", "0", "1"]
        = Except.error (Error.invalidArgument "Wrong number of arguments")
      ∧ ctor 5 ["prog", "0", "1", "1000", "4"]
        = Except.ok { a := 0, b := 1, n := 1000, tn := 4 } :=
  ⟨(ctor_argument_count 3 ["prog", "0", "1"]).1 (by decide),
    (ctor_argument_count 5 ["prog", "0", "1", "1000", "4"]).2.2 rfl
      "prog" "0" "1" "1000" "4" rfl (by decide) (by decide) (by decide) (by decide)
      (by decide) (by decide) (by decide) (by decide)⟩

end Integral

/-! ## The program, continued -/

namespace Integral

/-- C11 as stated fails: with four positional arguments, the text `12abc` (trailing
non-digit characters) is read as `12` and the text ` 7` (leading white space) as `7`;
construction succeeds and `main` goes on to compute. -/
theorem ctor_accepts_trailing_characters_and_leading_space :
    ctor 5 ["prog", "12abc", "20", "10", "2"]
        = Except.ok { a := 12, b := 20, n := 10, tn := 2 }
      ∧ ctor 5 ["prog", " 7", "20", "10", "2"]
        = Except.ok { a := 7, b := 20, n := 10, tn := 2 }
      ∧ main integralFunction ["prog", "12abc", "20", "10", "2"]
        = Except.ok (calculateIntegral integralFunction { a := 12, b := 20, n := 10, tn := 2 }) := by
  refine ⟨rfl, rfl, rfl⟩

/-- C11, amended: with four positional arguments, if some argument has no decimal digit
right after its leading white space and one optional sign, or begins with a number
outside `int`, then construction fails with the `std::invalid_argument` or the
`std::out_of_range` of `std::stoi` and `main` computes nothing; and if every argument
begins with a number within `int`, construction succeeds with these leading numbers,
whatever follows the digits. -/
theorem ctor_unreadable_argument (prog ta tb tn ttn : String) :
    ((unreadable ta = true ∨ unreadable tb = true ∨ unreadable tn = true
          ∨ unreadable ttn = true) →
        ∃ e : Error, (e = Error.invalidArgument "stoi" ∨ e = Error.outOfRange "stoi")
          ∧ ctor 5 [prog, ta, tb, tn, ttn] = Except.error e
          ∧ main integralFunction [prog, ta, tb, tn, ttn] = Except.error e)
      ∧ ((unreadable ta = false ∧ unreadable tb = false ∧ unreadable tn = false
            ∧ unreadable ttn = false) →
          ctor 5 [prog, ta, tb, tn, ttn]
            = Except.ok { a := leadingValue ta, b := leadingValue tb,
                          n := leadingValue tn, tn := leadingValue ttn }) := by
  have hctor : ctor 5 [prog, ta, tb, tn, ttn]
      = (stoi ta).bind fun a => (stoi tb).bind fun b => (stoi tn).bind fun n =>
          (stoi ttn).bind fun t => Except.ok { a := a, b := b, n := n, tn := t } := by
    rw [ctor, if_neg (by decide)]
    rfl
  have hmain : ∀ e : Error, ctor 5 [prog, ta, tb, tn, ttn] = Except.error e →
      main integralFunction [prog, ta, tb, tn, ttn] = Except.error e := by
    intro e he
    have hlen : (([prog, ta, tb, tn, ttn] : List String).length : Int) = 5 := rfl
    rw [main, hlen, he]
    rfl
  constructor
  · intro h
    have key : ∃ e : Error, (e = Error.invalidArgument "stoi" ∨ e = Error.outOfRange "stoi")
        ∧ ctor 5 [prog, ta, tb, tn, ttn] = Except.error e := by
      rw [hctor]
      rcases stoi_total ta with ⟨ua, ha⟩ | ⟨_, ha | ha⟩
      · rcases stoi_total tb with ⟨ub, hb⟩ | ⟨_, hb | hb⟩
        · rcases stoi_total tn with ⟨un, hn⟩ | ⟨_, hn | hn⟩
          · rcases stoi_total ttn with ⟨ut, ht⟩ | ⟨_, ht | ht⟩
            · rw [ua, ub, un, ut] at h
              simp at h
            · exact ⟨_, Or.inl rfl, by rw [ha, hb, hn, ht]; rfl⟩
            · exact ⟨_, Or.inr rfl, by rw [ha, hb, hn, ht]; rfl⟩
          · exact ⟨_, Or.inl rfl, by rw [ha, hb, hn]; rfl⟩
          · exact ⟨_, Or.inr rfl, by rw [ha, hb, hn]; rfl⟩
        · exact ⟨_, Or.inl rfl, by rw [ha, hb]; rfl⟩
        · exact ⟨_, Or.inr rfl, by rw [ha, hb]; rfl⟩
      · exact ⟨_, Or.inl rfl, by rw [ha]; rfl⟩
      · exact ⟨_, Or.inr rfl, by rw [ha]; rfl⟩
    obtain ⟨e, he, hc⟩ := key
    exact ⟨e, he, hc, hmain e hc⟩
  · rintro ⟨ua, ub, un, ut⟩
    rw [hctor, (stoi_ok_iff ta _).mpr ⟨ua, rfl⟩, (stoi_ok_iff tb _).mpr ⟨ub, rfl⟩,
      (stoi_ok_iff tn _).mpr ⟨un, rfl⟩, (stoi_ok_iff ttn _).mpr ⟨ut, rfl⟩]
    rfl

/-- Two invocations for C11: `abc` has no number, `99999999999` is outside `int`. -/
theorem ctor_unreadable_argument_witness :
    (∃ e : Error, (e = Error.invalidArgument "stoi" ∨ e = Error.outOfRange "stoi")
        ∧ ctor 5 ["prog", "abc", "1", "10", "2"] = Except.error e
        ∧ main integralFunction ["prog", "abc", "1", "10", "2"] = Except.error e)
      ∧ (∃ e : Error, (e = Error.invalidArgument "stoi" ∨ e = Error.outOfRange "stoi")
        ∧ ctor 5 ["prog", "0", "1", "99999999999", "2"] = Except.error e
        ∧ main integralFunction ["prog", "0", "1", "99999999999", "2"] = Except.error e) :=
  ⟨(ctor_unreadable_argument "prog" "abc" "1" "10" "2").1 (Or.inl (by decide)),
    (ctor_unreadable_argument "prog" "0" "1" "99999999999" "2").1
      (Or.inr (Or.inr (Or.inl (by decide))))⟩

/-- C13 as stated fails: at `a = -2^31, b = 0, n = 3, tn = 2`, arguments the constructor
accepts, the hypotheses of the claim hold, the `int` subtraction `b - a` overflows, and
`calculateIntegral(a, b, n, tn)` differs from
`calculatePartialIntegral(a, b, tn * floor(n / tn))`. -/
theorem calculateIntegral_uneven_division_fails_of_overflow :
    ((-2147483648 : Int) ≤ 0 ∧ (1 : Int) ≤ 2 ∧ (2 : Int) ≤ 3)
      ∧ ctor 5 ["prog", "-2147483648", "0", "3", "2"]
        = Except.ok { a := -2147483648, b := 0, n := 3, tn := 2 }
      ∧ calculateIntegral integralFunction { a := -2147483648, b := 0, n := 3, tn := 2 }
        ≠ calculatePartialIntegral integralFunction ((-2147483648 : Int) : ℝ) ((0 : Int) : ℝ)
            (2 * (3 / 2)) := by
  refine ⟨by decide, rfl, ?_⟩
  have h := calculateIntegral_at_wrapped_range_ne
  have hq : (2 : Int) * (3 / 2) = 2 := by decide
  rw [calculateIntegral_same_quotient integralFunction _ _ 3 2 (by decide) (by decide), hq]
  intro he
  apply h
  rw [he]
  norm_num

/-- C13, amended. Uneven division truncates: over exact real arithmetic, for integers
`a ≤ b` and `n ≥ tn ≥ 1` (`tn` need not divide `n`), `calculateIntegral(a, b, n, tn)`
equals `calculateIntegral(a, b, tn * floor(n / tn), tn)`, and, when `b - a ≤ 2147483647`
(the `int` subtraction `b - a` does not overflow), it equals
`calculatePartialIntegral(a, b, tn * floor(n / tn))`: the effective number of trapezoids
is `tn * floor(n / tn)`, which is at most `n` and is `n` exactly when `tn` divides `n`. -/
theorem calculateIntegral_uneven_division (a b n tn : Int) (hab : a ≤ b) (htn : 1 ≤ tn)
    (hn : tn ≤ n) :
    (b - a ≤ 2147483647 →
        calculateIntegral integralFunction { a := a, b := b, n := n, tn := tn }
          = calculatePartialIntegral integralFunction (a : ℝ) (b : ℝ) (tn * (n / tn)))
      ∧ calculateIntegral integralFunction { a := a, b := b, n := n, tn := tn }
        = calculateIntegral integralFunction { a := a, b := b, n := tn * (n / tn), tn := tn }
      ∧ tn * (n / tn) ≤ n
      ∧ (tn * (n / tn) = n ↔ tn ∣ n) := by
  refine ⟨?_, calculateIntegral_same_quotient integralFunction a b n tn htn hn,
    Int.mul_ediv_self_le (by omega), ?_⟩
  · intro hfit
    exact calculateIntegral_eq_truncated integralFunction a b n tn htn hn
      (inIntRange_of_le a b hab hfit)
  · constructor
    · intro he
      exact Dvd.intro _ he
    · intro hd
      exact Int.mul_ediv_cancel' hd

/-- An instance of C13: `n = 7` on `tn = 2` workers computes the rule with `6`
trapezoids. -/
theorem calculateIntegral_uneven_division_witness :
    ((0 : Int) ≤ 3 ∧ (1 : Int) ≤ 2 ∧ (2 : Int) ≤ 7 ∧ (3 : Int) - 0 ≤ 2147483647)
      ∧ calculateIntegral integralFunction { a := 0, b := 3, n := 7, tn := 2 }
        = calculatePartialIntegral integralFunction ((0 : Int) : ℝ) ((3 : Int) : ℝ) (2 * (7 / 2))
      ∧ (2 : Int) * (7 / 2) = 6 :=
  ⟨by decide,
    (calculateIntegral_uneven_division 0 3 7 2 (by decide) (by decide) (by decide)).1
      (by decide),
    by decide⟩

/-- C14 as stated fails: at `a = -2^31, b = 0, tn = 2`, arguments the constructor accepts
(with `n = 2`), the hypotheses of the claim hold, the `int` subtraction `b - a` overflows,
`rangePerThread` is `-2^30`, and the interval of worker `0` runs from `start_0 = -2^31`
down to `end_0 = -3 * 2^30`: it is reversed and its width is not `(b - a) / tn`. -/
theorem worker_interval_reversed_of_overflow :
    ((-2147483648 : Int) ≤ 0 ∧ (1 : Int) ≤ 2)
      ∧ ctor 5 ["prog", "-2147483648", "0", "2", "2"]
        = Except.ok { a := -2147483648, b := 0, n := 2, tn := 2 }
      ∧ (rangePerThread { a := -2147483648, b := 0, n := 2, tn := 2 } : ℝ) = -1073741824
      ∧ workerEnd (-2147483648) 0 2
          (rangePerThread { a := -2147483648, b := 0, n := 2, tn := 2 } : ℝ) 0
        < workerStart (-2147483648)
            (rangePerThread { a := -2147483648, b := 0, n := 2, tn := 2 } : ℝ) 0
      ∧ workerEnd (-2147483648) 0 2
            (rangePerThread { a := -2147483648, b := 0, n := 2, tn := 2 } : ℝ) 0
          - workerStart (-2147483648)
              (rangePerThread { a := -2147483648, b := 0, n := 2, tn := 2 } : ℝ) 0
        ≠ (((0 : Int) : ℝ) - ((-2147483648 : Int) : ℝ)) / ((2 : Int) : ℝ) := by
  have hw : wrapInt (0 - -2147483648) = -2147483648 := by decide
  have hr : (rangePerThread { a := -2147483648, b := 0, n := 2, tn := 2 } : ℝ)
      = -1073741824 := by
    simp only [rangePerThread]
    rw [hw]
    norm_num
  refine ⟨by decide, rfl, hr, ?_, ?_⟩
  · rw [hr]
    simp only [workerEnd, workerStart]
    norm_num
  · rw [hr]
    simp only [workerEnd, workerStart]
    norm_num

/-- C14, amended. The sub-intervals assigned by `calculateIntegral` tile `[a, b]`: for
integers `a ≤ b` with `b - a ≤ 2147483647` (the `int` subtraction `b - a` does not
overflow) and `tn ≥ 1`, over the reals `rangePerThread` is `(b - a) / tn`, `start_0 = a`,
the last worker's right edge is `b`, `end_i = start_(i+1)` for `i < tn - 1`, and for every
worker `start_i ≤ end_i` and `end_i - start_i = (b - a) / tn`. Here `start_i` and `end_i`
are the locals `start` and `end` of the worker loop, which stores in slot `i` the partial
integral over `[start_i, end_i]`. -/
theorem worker_intervals_tile (self : Integral) (hab : self.a ≤ self.b)
    (hfit : self.b - self.a ≤ 2147483647) (htn : 1 ≤ self.tn) :
    (rangePerThread self : ℝ) = ((self.b : ℝ) - (self.a : ℝ)) / (self.tn : ℝ)
      ∧ workerStart self.a (rangePerThread self : ℝ) 0 = (self.a : ℝ)
      ∧ workerEnd self.a self.b self.tn (rangePerThread self : ℝ) (self.tn - 1) = (self.b : ℝ)
      ∧ (∀ i : Int, 0 ≤ i → i < self.tn - 1 →
          workerEnd self.a self.b self.tn (rangePerThread self : ℝ) i
            = workerStart self.a (rangePerThread self : ℝ) (i + 1))
      ∧ (∀ i : Int, 0 ≤ i → i < self.tn →
          workerStart self.a (rangePerThread self : ℝ) i
              ≤ workerEnd self.a self.b self.tn (rangePerThread self : ℝ) i
            ∧ workerEnd self.a self.b self.tn (rangePerThread self : ℝ) i
                - workerStart self.a (rangePerThread self : ℝ) i
              = ((self.b : ℝ) - (self.a : ℝ)) / (self.tn : ℝ))
      ∧ workerLoop integralFunction self.a self.b self.tn (segmentsPerThread self)
            (rangePerThread self) self.tn.toNat 0 (List.replicate self.tn.toNat 0)
          = (List.range self.tn.toNat).map (fun i : Nat =>
              calculatePartialIntegral integralFunction
                (workerStart self.a (rangePerThread self : ℝ) (i : Int))
                (workerEnd self.a self.b self.tn (rangePerThread self : ℝ) (i : Int))
                (segmentsPerThread self))
      ∧ (1 ≤ self.n →
          calculateIntegral integralFunction self
            = ∑ i ∈ Finset.range self.tn.toNat,
                calculatePartialIntegral integralFunction
                  (workerStart self.a (rangePerThread self : ℝ) (i : Int))
                  (workerEnd self.a self.b self.tn (rangePerThread self : ℝ) (i : Int))
                  (segmentsPerThread self)) := by
  have htn0 : (self.tn : ℝ) ≠ 0 := by
    have : (0 : ℝ) < (self.tn : ℝ) := by exact_mod_cast (by omega : (0 : Int) < self.tn)
    exact ne_of_gt this
  have hrange : (rangePerThread self : ℝ) = ((self.b : ℝ) - (self.a : ℝ)) / (self.tn : ℝ) := by
    simp only [rangePerThread]
    rw [wrapInt_of_inIntRange _ (inIntRange_of_le _ _ hab hfit)]
    push_cast
    rfl
  have hr : (0 : ℝ) ≤ ((self.b : ℝ) - (self.a : ℝ)) / (self.tn : ℝ) := by
    have h1 : (self.a : ℝ) ≤ (self.b : ℝ) := by exact_mod_cast hab
    have h2 : (0 : ℝ) < (self.tn : ℝ) := by exact_mod_cast (by omega : (0 : Int) < self.tn)
    exact div_nonneg (by linarith) h2.le
  have hloop := workerLoop_eq integralFunction self.a self.b self.tn (segmentsPerThread self)
    (rangePerThread self) self.tn.toNat 0
  simp only [List.range_zero, List.map_nil, List.nil_append, Nat.cast_zero, zero_add] at hloop
  rw [hrange] at hloop ⊢
  have hwidth : ∀ i : Int, 0 ≤ i → i < self.tn →
      workerEnd self.a self.b self.tn (((self.b : ℝ) - (self.a : ℝ)) / (self.tn : ℝ)) i
          - workerStart self.a (((self.b : ℝ) - (self.a : ℝ)) / (self.tn : ℝ)) i
        = ((self.b : ℝ) - (self.a : ℝ)) / (self.tn : ℝ) := by
    intro i _ _
    simp only [workerEnd, workerStart]
    split_ifs with h
    · rw [h]
      push_cast
      field_simp
      ring
    · ring
  refine ⟨rfl, ?_, ?_, ?_, ?_, ?_, ?_⟩
  · simp [workerStart]
  · simp [workerEnd]
  · intro i _ hi
    have hne : i ≠ self.tn - 1 := by omega
    simp only [workerEnd, workerStart, if_neg hne]
    push_cast
    ring
  · intro i hi0 hi
    have hw := hwidth i hi0 hi
    exact ⟨by linarith, hw⟩
  · exact hloop
  · intro hn
    rw [calculateIntegral_eq_foldl integralFunction self hn htn, foldl_add_eq_sum, hrange]
    rfl

/-- An instance of C14: `[0, 3]` on two workers, whose common edge is `3/2`. -/
theorem worker_intervals_tile_witness :
    ((0 : Int) ≤ 3 ∧ (3 : Int) - 0 ≤ 2147483647 ∧ (1 : Int) ≤ 2)
      ∧ (rangePerThread { a := 0, b := 3, n := 10, tn := 2 } : ℝ)
        = (((3 : Int) : ℝ) - ((0 : Int) : ℝ)) / ((2 : Int) : ℝ)
      ∧ workerEnd 0 3 2 (rangePerThread { a := 0, b := 3, n := 10, tn := 2 } : ℝ) 0
        = workerStart 0 (rangePerThread { a := 0, b := 3, n := 10, tn := 2 } : ℝ) (0 + 1)
      ∧ workerEnd 0 3 2 (rangePerThread { a := 0, b := 3, n := 10, tn := 2 } : ℝ) (2 - 1)
        = ((3 : Int) : ℝ) :=
  ⟨by decide,
    (worker_intervals_tile { a := 0, b := 3, n := 10, tn := 2 } (by decide) (by decide)
      (by decide)).1,
    (worker_intervals_tile { a := 0, b := 3, n := 10, tn := 2 } (by decide) (by decide)
      (by decide)).2.2.2.1 0 (by decide) (by decide),
    (worker_intervals_tile { a := 0, b := 3, n := 10, tn := 2 } (by decide) (by decide)
      (by decide)).2.2.1⟩

/-- C15. Division safety: for `n ≥ 1` and `tn ≥ 1` the worker loop passes
`segmentsPerThread = n / tn` to every `calculatePartialIntegral`. It is `≥ 1` if and only
if `n ≥ tn`, in particular whenever `tn` divides `n`, and then the divisor of
`(end - start) / segments` is a nonzero `double`. For `1 ≤ n < tn` it is `0` for every
worker and the non-degenerate path is still taken: on `double` each step
`(end - start) / 0` and each partial integral is an infinity or NaN, and so is the value
returned, which therefore is not the `0` of the guard. -/
theorem segmentsPerThread_safety (a b n tn : Int) (hn : 1 ≤ n) (htn : 1 ≤ tn) :
    workerLoop integralFunctionDouble a b tn
            (segmentsPerThread { a := a, b := b, n := n, tn := tn })
            (rangePerThread { a := a, b := b, n := n, tn := tn }) tn.toNat 0
            (List.replicate tn.toNat 0)
          = (List.range tn.toNat).map (fun i : Nat =>
              calculatePartialIntegral integralFunctionDouble
                (workerStart a (rangePerThread { a := a, b := b, n := n, tn := tn }) (i : Int))
                (workerEnd a b tn (rangePerThread { a := a, b := b, n := n, tn := tn })
                  (i : Int))
                (segmentsPerThread { a := a, b := b, n := n, tn := tn }))
      ∧ (1 ≤ segmentsPerThread { a := a, b := b, n := n, tn := tn } ↔ tn ≤ n)
      ∧ (tn ∣ n → 1 ≤ segmentsPerThread { a := a, b := b, n := n, tn := tn })
      ∧ (tn ≤ n → n ≤ 2147483647 →
          ∃ q : ℝ, q ≠ 0
            ∧ ((segmentsPerThread { a := a, b := b, n := n, tn := tn } : Int) : Dbl)
              = Dbl.fin q)
      ∧ (n < tn →
          segmentsPerThread { a := a, b := b, n := n, tn := tn } = 0
            ∧ ((segmentsPerThread { a := a, b := b, n := n, tn := tn } : Int) : Dbl)
              = Dbl.fin 0
            ∧ (∀ start end_ : Dbl,
                Dbl.IsNonfinite ((end_ - start)
                    / ((segmentsPerThread { a := a, b := b, n := n, tn := tn } : Int) : Dbl))
                  ∧ Dbl.IsNonfinite (calculatePartialIntegral integralFunctionDouble start end_
                      (segmentsPerThread { a := a, b := b, n := n, tn := tn })))
            ∧ Dbl.IsNonfinite
                (calculateIntegral integralFunctionDouble { a := a, b := b, n := n, tn := tn })
            ∧ calculateIntegral integralFunctionDouble { a := a, b := b, n := n, tn := tn }
              ≠ 0) := by
  have hdiv : segmentsPerThread { a := a, b := b, n := n, tn := tn } = n / tn := by
    show Int.tdiv n tn = n / tn
    exact Int.tdiv_eq_ediv (by omega) (by omega)
  have hq0 : 0 ≤ n / tn := Int.ediv_nonneg (by omega) (by omega)
  have hiff : 1 ≤ n / tn ↔ tn ≤ n := by
    rw [Int.le_ediv_iff_mul_le (by omega)]
    omega
  have hsmall : n < tn → n / tn = 0 := fun h => Int.ediv_eq_zero_of_lt (by omega) h
  have hloop := workerLoop_eq integralFunctionDouble a b tn
    (segmentsPerThread { a := a, b := b, n := n, tn := tn })
    (rangePerThread { a := a, b := b, n := n, tn := tn }) tn.toNat 0
  simp only [List.range_zero, List.map_nil, List.nil_append, Nat.cast_zero, zero_add] at hloop
  refine ⟨hloop, ?_, ?_, ?_, ?_⟩
  · rw [hdiv]
    exact hiff
  · intro hd
    rw [hdiv]
    exact hiff.mpr (Int.le_of_dvd (by omega) hd)
  · intro hle hn2
    have h1 : 1 ≤ n / tn := hiff.mpr hle
    have h2 : n / tn ≤ n := Int.ediv_le_self _ (by omega)
    refine ⟨((n / tn : Int) : ℝ), ?_, ?_⟩
    · have : (0 : ℝ) < ((n / tn : Int) : ℝ) := by exact_mod_cast (by omega : (0 : Int) < n / tn)
      exact ne_of_gt this
    · rw [hdiv]
      exact Dbl.intCast_eq_fin _ (by omega) (by omega)
  · intro hlt
    have hz : segmentsPerThread { a := a, b := b, n := n, tn := tn } = 0 := by
      rw [hdiv]
      exact hsmall hlt
    have hcast : ((segmentsPerThread { a := a, b := b, n := n, tn := tn } : Int) : Dbl)
        = Dbl.fin 0 := by
      rw [hz, Dbl.intCast_eq_fin 0 (by decide) (by decide), Int.cast_zero]
    have hnf := calculateIntegral_double_zero_segments a b n tn hn hlt
    refine ⟨hz, hcast, ?_, hnf, ?_⟩
    · intro s e
      constructor
      · rw [hcast]
        exact Dbl.isNonfinite_div_zero _
      · rw [hz]
        exact calculatePartialIntegral_zero_segments _ _ _
    · intro h0
      rw [h0] at hnf
      exact hnf

/-- Two instances of C15: `n = 3` on `tn = 4` workers gives `0` segments and a value that
is an infinity or NaN; `n = 8` gives `2` segments. -/
theorem segmentsPerThread_safety_witness :
    (((1 : Int) ≤ 3 ∧ (1 : Int) ≤ 4 ∧ (3 : Int) < 4)
        ∧ segmentsPerThread { a := 0, b := 1, n := 3, tn := 4 } = 0
        ∧ Dbl.IsNonfinite
            (calculateIntegral integralFunctionDouble { a := 0, b := 1, n := 3, tn := 4 }))
      ∧ (((1 : Int) ≤ 8 ∧ (1 : Int) ≤ 4 ∧ (4 : Int) ≤ 8)
        ∧ 1 ≤ segmentsPerThread { a := 0, b := 1, n := 8, tn := 4 }) :=
  ⟨⟨by decide,
      ((segmentsPerThread_safety 0 1 3 4 (by decide) (by decide)).2.2.2.2 (by decide)).1,
      ((segmentsPerThread_safety 0 1 3 4 (by decide) (by decide)).2.2.2.2
        (by decide)).2.2.2.1⟩,
    ⟨by decide,
      (segmentsPerThread_safety 0 1 8 4 (by decide) (by decide)).2.1.mpr (by decide)⟩⟩

/-- C16. The estimate never under-estimates: over exact real arithmetic, for all `a ≤ b`
and `n ≥ tn ≥ 1` that are values of `int`, `calculateIntegral(a, b, n, tn)` is at least
the integral of `sqrt(1 + e^x)` over `[a, b]`, hence at least `b - a`, and strictly more
than `b - a` when `a < b`. This holds also where the `int` subtraction `b - a` overflows:
there the workers but the last run leftwards from `a`, and what the last one gains over
the integral outweighs them. -/
theorem calculateIntegral_ge_integral (a b n tn : Int) (hab : a ≤ b) (htn : 1 ≤ tn)
    (hn : tn ≤ n) (ha : -2147483648 ≤ a) (hb : b ≤ 2147483647) (hn2 : n ≤ 2147483647) :
    (∫ x in (a : ℝ)..(b : ℝ), Real.sqrt (1 + Real.exp x))
        ≤ calculateIntegral integralFunction { a := a, b := b, n := n, tn := tn }
      ∧ (b : ℝ) - (a : ℝ)
        ≤ calculateIntegral integralFunction { a := a, b := b, n := n, tn := tn }
      ∧ (a < b →
          (b : ℝ) - (a : ℝ)
            < calculateIntegral integralFunction { a := a, b := b, n := n, tn := tn }) := by
  have habr : (a : ℝ) ≤ (b : ℝ) := by exact_mod_cast hab
  change (∫ x in (a : ℝ)..(b : ℝ), integralFunction x) ≤ _ ∧ _
  by_cases hfit : b - a ≤ 2147483647
  · obtain ⟨m, _, hT⟩ := calculateIntegral_eq_trapezoids_truncated a b n tn htn hn
      (inIntRange_of_le a b hab hfit)
    obtain ⟨h1, h2, h3⟩ := trapezoids_ge_integral_and_width (a : ℝ) (b : ℝ) habr m
    rw [hT]
    exact ⟨h1, h2, fun hlt => h3 (by exact_mod_cast hlt)⟩
  · by_cases h1w : tn = 1
    · subst h1w
      obtain ⟨m, rfl⟩ : ∃ m : Nat, n = ((m + 1 : Nat) : Int) := ⟨(n - 1).toNat, by omega⟩
      obtain ⟨h1, h2, h3⟩ := trapezoids_ge_integral_and_width (a : ℝ) (b : ℝ) habr m
      rw [calculateIntegral_one_worker integralFunction a b _ (by omega),
        calculatePartialIntegral_eq_trapezoids integralFunction _ _ (m + 1) (by omega)]
      push_cast
      exact ⟨h1, h2, fun hlt => h3 (by exact_mod_cast hlt)⟩
    · have hgt := calculateIntegral_wrapped_gt_integral a b n tn ha hb (by omega) (by omega)
        hn hn2
      have hI := sub_le_integral (a : ℝ) (b : ℝ) habr
      exact ⟨hgt.le, by linarith, fun _ => by linarith⟩

/-- Two instances of C16: `[0, 2]` with `n = 7` on `tn = 3` workers, and
`[-2^31, 0]` with `n = 2` on `tn = 2` workers, where `b - a` overflows. -/
theorem calculateIntegral_ge_integral_witness :
    (((0 : Int) ≤ 2 ∧ (1 : Int) ≤ 3 ∧ (3 : Int) ≤ 7 ∧ (0 : Int) < 2)
        ∧ ((2 : Int) : ℝ) - ((0 : Int) : ℝ)
          < calculateIntegral integralFunction { a := 0, b := 2, n := 7, tn := 3 })
      ∧ (((-2147483648 : Int) ≤ 0 ∧ (1 : Int) ≤ 2 ∧ (2 : Int) ≤ 2)
        ∧ (∫ x in ((-2147483648 : Int) : ℝ)..((0 : Int) : ℝ), Real.sqrt (1 + Real.exp x))
          ≤ calculateIntegral integralFunction
              { a := -2147483648, b := 0, n := 2, tn := 2 }) :=
  ⟨⟨by decide,
      (calculateIntegral_ge_integral 0 2 7 3 (by decide) (by decide) (by decide) (by decide)
        (by decide) (by decide)).2.2 (by decide)⟩,
    ⟨by decide,
      (calculateIntegral_ge_integral (-2147483648) 0 2 2 (by decide) (by decide) (by decide)
        (by decide) (by decide) (by decide)).1⟩⟩

/-- C17 as stated fails: at `a = -2^31, b = 0, n = 2, tn = 2`, arguments the constructor
accepts in either order, the `int` subtraction `b - a` overflows while `a - b` does not,
and `calculateIntegral(b, a, n, tn)`, which is `-calculatePartialIntegral(a, b, n)`,
differs from `-calculateIntegral(a, b, n, tn)`. -/
theorem orientation_antisymmetry_fails_of_overflow :
    ((1 : Int) ≤ 2 ∧ (2 : Int) ≤ 2)
      ∧ ctor 5 ["prog", "0", "-2147483648", "2", "2"]
        = Except.ok { a := 0, b := -2147483648, n := 2, tn := 2 }
      ∧ calculateIntegral integralFunction { a := 0, b := -2147483648, n := 2, tn := 2 }
        ≠ -calculateIntegral integralFunction { a := -2147483648, b := 0, n := 2, tn := 2 } := by
  refine ⟨by decide, rfl, ?_⟩
  have h := calculateIntegral_at_wrapped_range_ne
  rw [calculateIntegral_eq_whole integralFunction 0 (-2147483648) 2 2 (by decide) (by decide)
    (by decide) (by decide)]
  have hs := calculatePartialIntegral_swap integralFunction (-2147483648 : ℝ) 0 2 (by decide)
  intro he
  apply h
  have hs2 : calculatePartialIntegral integralFunction (((0 : Int) : ℝ))
      (((-2147483648 : Int) : ℝ)) 2
      = -calculatePartialIntegral integralFunction (-2147483648) 0 2 := by
    simpa using hs
  rw [hs2] at he
  exact (neg_injective he).symm

/-- C17, amended. Orientation antisymmetry: over exact real arithmetic, for reals `start`,
`end` and `segments ≥ 1`, `calculatePartialIntegral(end, start, segments)` is
`-calculatePartialIntegral(start, end, segments)`; and for integers `a`, `b` with
`-2147483647 ≤ b - a ≤ 2147483647` (neither `int` subtraction `b - a` nor `a - b`
overflows) and `n ≥ tn ≥ 1`,
`calculateIntegral(b, a, n, tn) = -calculateIntegral(a, b, n, tn)`. -/
theorem orientation_antisymmetry :
    (∀ (start end_ : ℝ) (segments : Int), 1 ≤ segments →
        calculatePartialIntegral integralFunction end_ start segments
          = -calculatePartialIntegral integralFunction start end_ segments)
      ∧ (∀ a b n tn : Int, 1 ≤ tn → tn ≤ n → -2147483647 ≤ b - a → b - a ≤ 2147483647 →
          calculateIntegral integralFunction { a := b, b := a, n := n, tn := tn }
            = -calculateIntegral integralFunction { a := a, b := b, n := n, tn := tn }) := by
  have hswap : ∀ (start end_ : ℝ) (segments : Int), 1 ≤ segments →
      calculatePartialIntegral integralFunction end_ start segments
        = -calculatePartialIntegral integralFunction start end_ segments := by
    intro s e seg hseg
    obtain ⟨m, rfl⟩ : ∃ m : Nat, seg = (m : Int) := ⟨seg.toNat, by omega⟩
    exact calculatePartialIntegral_swap integralFunction s e m (by omega)
  refine ⟨hswap, ?_⟩
  intro a b n tn htn hn h1 h2
  have hq := one_le_ediv n tn htn hn
  have hpos : 1 ≤ tn * (n / tn) := by
    have : 1 * 1 ≤ tn * (n / tn) := mul_le_mul htn hq (by omega) (by omega)
    omega
  have hr1 : inIntRange (b - a) = true := by
    simp only [inIntRange, Bool.and_eq_true, decide_eq_true_eq]
    omega
  have hr2 : inIntRange (a - b) = true := by
    simp only [inIntRange, Bool.and_eq_true, decide_eq_true_eq]
    omega
  rw [calculateIntegral_eq_truncated integralFunction b a n tn htn hn hr2,
    calculateIntegral_eq_truncated integralFunction a b n tn htn hn hr1]
  exact hswap _ _ _ hpos

/-- An instance of C17: `[0, 2]` against `[2, 0]` with `n = 7` on `tn = 3` workers. -/
theorem orientation_antisymmetry_witness :
    ((1 : Int) ≤ 3 ∧ (3 : Int) ≤ 7 ∧ (-2147483647 : Int) ≤ 2 - 0 ∧ (2 : Int) - 0 ≤ 2147483647)
      ∧ calculateIntegral integralFunction { a := 2, b := 0, n := 7, tn := 3 }
        = -calculateIntegral integralFunction { a := 0, b := 2, n := 7, tn := 3 } :=
  ⟨by decide,
    orientation_antisymmetry.2 0 2 7 3 (by decide) (by decide) (by decide) (by decide)⟩

end Integral

end Task6
